import Mathlib

/-!
Verification of the segregated-free-list allocator in `malloclab.c`.

The heap is modelled shallowly: the arena is the list of blocks that lie
strictly between the prologue block and the epilogue header, in physical
order.  A block stores its total size in bytes (`GET_SIZE` of its header),
its own allocation bit (`GET_ALLOC`) and the `prev_alloc` bit
(`GET_PREV_ALLOC`), exactly the three fields packed into a header word by
`PACK`.  Footers are not modelled separately: the code writes a footer
whenever it writes a free block's header, so the footer is always a copy of
the header's size/alloc fields and reading a footer is modelled by reading
the neighbouring block of the list.  A block pointer `bp` is modelled by the
block's offset from the first block: the sum of the sizes of all physically
preceding blocks (the code itself stores pointers as 32-bit offsets from
`heap_listp`).  The prologue is represented by the `true` that seeds the
`prev_alloc` consistency predicate, and the epilogue header by the
`epiPrevAlloc` field of the heap state (its size 0 and alloc bit 1 are
constants in the code).  The ten segregated list roots `root1..root10`
become a ten-element list of lists of block offsets; the doubly-linked
list operations of the code (`SET_PREV`/`SET_NEXT` surgery) become the
corresponding functional list operations: inserting at the front
(`insert_list`, LIFO) and unlinking one node (`remove_list`).
-/

/-- One arena block: total size in bytes, allocation bit, `prev_alloc` bit
(the three fields of a packed header word). -/
structure Blk where
  size : ℕ
  alloc : Bool
  prevAlloc : Bool
deriving Repr, DecidableEq

/-- Placeholder block for out-of-range reads; never reached under the
preconditions of the theorems below. -/
def dBlk : Blk := ⟨0, true, true⟩

/-- Allocator state: the blocks between prologue and epilogue in physical
order, the ten segregated free-list roots (lists of block offsets), and the
`prev_alloc` bit of the epilogue header. -/
structure Heap where
  blocks : List Blk
  freeLists : List (List ℕ)
  epiPrevAlloc : Bool
deriving Repr, DecidableEq

/-- `WSIZE` of `malloclab.c`: word / header size in bytes. -/
def WSIZE : ℕ := 4

/-- `DSIZE` of `malloclab.c`: double word size in bytes. -/
def DSIZE : ℕ := 8

/-- `CHUNKSIZE` of `malloclab.c`: heap extension granularity. -/
def CHUNKSIZE : ℕ := 4096

/-- Size-class selection of `size2ptr` / `update_root`: the index (0-based)
of the segregated list root chosen for a block of the given size. -/
def classify (size : ℕ) : ℕ :=
  if size ≤ 16 then 0
  else if size ≤ 32 then 1
  else if size ≤ 64 then 2
  else if size ≤ 128 then 3
  else if size ≤ 256 then 4
  else if size ≤ 512 then 5
  else if size ≤ 1024 then 6
  else if size ≤ 2048 then 7
  else if size ≤ 4096 then 8
  else 9

/-- Offset of the `i`-th block from the first block: the sum of all
preceding block sizes.  This is the model of a block pointer `bp` (the code
stores pointers as offsets from `heap_listp`). -/
def addrOf (bs : List Blk) (i : ℕ) : ℕ :=
  (((bs.map Blk.size).take i)).sum

/-- Index of the block whose offset is `a`, if any (model bookkeeping for
dereferencing a block pointer: walk the blocks, consuming `a` by block
sizes until it hits 0 exactly at a block boundary). -/
def idxAt : List Blk → ℕ → Option ℕ
  | [], _ => none
  | b :: t, a =>
    if a = 0 then some 0
    else if a < b.size then none
    else (idxAt t (a - b.size)).map (· + 1)

/-- `GET_SIZE(HDRP(bp))`: the size field of the block at offset `a`
(0 when no block starts at `a`). -/
def sizeAt (bs : List Blk) (a : ℕ) : ℕ :=
  match idxAt bs a with
  | some j => (bs.getD j dBlk).size
  | none => 0

/-- The free list selected by `size2ptr` for a given size. -/
def size2ptr (h : Heap) (size : ℕ) : List ℕ :=
  h.freeLists.getD (classify size) []

/-- `insert_list`: push `bp` at the front of the list of `bp`'s size class
(LIFO policy; the `SET_PREV`/`SET_NEXT`/`update_root` pointer surgery of the
code amounts to consing onto the selected list). -/
def insert_list (h : Heap) (bp : ℕ) (size : ℕ) : Heap :=
  { h with freeLists := h.freeLists.set (classify size) (bp :: size2ptr h size) }

/-- `remove_list`: unlink `bp` from the list of its size class (the four
head/tail/singleton/interior pointer cases of the code all amount to
deleting the one occurrence of `bp` from the selected list). -/
def remove_list (h : Heap) (bp : ℕ) (size : ℕ) : Heap :=
  { h with freeLists := h.freeLists.set (classify size) ((size2ptr h size).erase bp) }

/-- `GET_ALLOC(HDRP(NEXT_BLKP(bp)))`: allocation bit of the physically
following block; the epilogue header (alloc = 1) answers for the block past
the end. -/
def nextAllocB (bs : List Blk) (i : ℕ) : Bool :=
  ((bs.get? (i + 1)).map Blk.alloc).getD true

/-- Write `v` into the `prev_alloc` bit of the header of the block
physically following block `i` (the epilogue header when `i` is the last
block); models the `PUT(HDRP(NEXT_BLKP(bp)), ...)` bit updates. -/
def withPrevBit (b : Blk) (v : Bool) : Blk := ⟨b.size, b.alloc, v⟩

/-- See `setPrevAllocNext`. -/
def setPrevAllocNext (h : Heap) (i : ℕ) (v : Bool) : Heap :=
  if i + 1 < h.blocks.length then
    { h with blocks := h.blocks.set (i + 1) (withPrevBit (h.blocks.getD (i + 1) dBlk) v) }
  else
    { h with epiPrevAlloc := v }

/-- `coalesce`: boundary-tag coalescing of the free block at index `i`.
`prev_alloc` is read from the block's own header bit and `next_alloc` from
the next header, as in the code; the merged region replaces the absorbed
blocks in the physical list (the code's header/footer writes), the absorbed
neighbours are removed from their lists, the result is inserted
(`insert_list(bp, size)` at the end of the C function) and the `prev_alloc`
bit of the block following the result is cleared (the final `PUT`).
Returns the new heap together with the index of the resulting block. -/
def coalesce (h : Heap) (i : ℕ) : Heap × ℕ :=
  let b := h.blocks.getD i dBlk
  let prev_alloc := b.prevAlloc
  let next_alloc := nextAllocB h.blocks i
  let merged :=
    if prev_alloc && next_alloc then
      (h, i, b.size)
    else if prev_alloc && !next_alloc then
      let nb := h.blocks.getD (i + 1) dBlk
      let size := b.size + nb.size
      let h1 := remove_list h (addrOf h.blocks (i + 1)) nb.size
      let h2 : Heap := { h1 with
        blocks := h1.blocks.take i ++ [⟨size, false, true⟩] ++ h1.blocks.drop (i + 2) }
      (h2, i, size)
    else if !prev_alloc && next_alloc then
      let pb := h.blocks.getD (i - 1) dBlk
      let size := b.size + pb.size
      let h1 := remove_list h (addrOf h.blocks (i - 1)) pb.size
      let h2 : Heap := { h1 with
        blocks := h1.blocks.take (i - 1) ++ [⟨size, false, pb.prevAlloc⟩] ++ h1.blocks.drop (i + 1) }
      (h2, i - 1, size)
    else
      let nb := h.blocks.getD (i + 1) dBlk
      let pb := h.blocks.getD (i - 1) dBlk
      let size := b.size + pb.size + nb.size
      let h1 := remove_list h (addrOf h.blocks (i + 1)) nb.size
      let h2 := remove_list h1 (addrOf h.blocks (i - 1)) pb.size
      let h3 : Heap := { h2 with
        blocks := h2.blocks.take (i - 1) ++ [⟨size, false, pb.prevAlloc⟩] ++ h2.blocks.drop (i + 2) }
      (h3, i - 1, size)
  let h1 := merged.1
  let j := merged.2.1
  let size := merged.2.2
  let h2 := insert_list h1 (addrOf h1.blocks j) size
  (setPrevAllocNext h2 j false, j)

/-- `place`: allocate `asize` bytes at the start of the free block at index
`i`; split when the remainder is at least the minimum block size
(`2*DSIZE`), otherwise absorb the whole block and set the `prev_alloc` bit
of the following header. -/
def place (h : Heap) (i : ℕ) (asize : ℕ) : Heap :=
  let b := h.blocks.getD i dBlk
  let csize := b.size
  let h1 := remove_list h (addrOf h.blocks i) csize
  if 2 * DSIZE ≤ csize - asize then
    let h2 : Heap := { h1 with
      blocks := h1.blocks.take i ++ [⟨asize, true, b.prevAlloc⟩, ⟨csize - asize, false, true⟩]
        ++ h1.blocks.drop (i + 1) }
    insert_list h2 (addrOf h2.blocks (i + 1)) (csize - asize)
  else
    let h2 : Heap := { h1 with blocks := h1.blocks.set i ⟨csize, true, b.prevAlloc⟩ }
    setPrevAllocNext h2 i true

/-- Inner loop of `find_fit`: scan one free list in list order, returning
the first block whose size is at least `asize`. -/
def scanList (bs : List Blk) (asize : ℕ) : List ℕ → Option ℕ
  | [] => none
  | bp :: rest => if asize ≤ sizeAt bs bp then some bp else scanList bs asize rest

/-- Outer loop of `find_fit`: starting from `size = 0x10`, scan the list
`size2ptr(size)` and double `size`, while `size ≤ 8192` (so the classes are
visited in ascending order starting from the smallest class). The fuel
argument bounds the ten iterations the C loop performs. -/
def findFitFrom (h : Heap) (asize : ℕ) : ℕ → ℕ → Option ℕ
  | _, 0 => none
  | size, fuel + 1 =>
    if size ≤ 8192 then
      match scanList h.blocks asize (h.freeLists.getD (classify size) []) with
      | some bp => some bp
      | none => findFitFrom h asize (size * 2) fuel
    else none

/-- `find_fit`: first-fit search through the segregated lists. -/
def find_fit (h : Heap) (asize : ℕ) : Option ℕ :=
  findFitFrom h asize 16 11

/-- `extend_heap`: round the word count up to an even number of words,
append the new region as one free block whose `prev_alloc` bit is inherited
from the old epilogue header, write the new epilogue header (`PACK(0,1)`,
so its `prev_alloc` bit is 0), and coalesce with the previous last block.
Returns the heap and the index of the resulting free block. -/
def extend_heap (h : Heap) (words : ℕ) : Heap × ℕ :=
  let size := if words % 2 = 1 then (words + 1) * WSIZE else words * WSIZE
  let h1 : Heap := { blocks := h.blocks ++ [⟨size, false, h.epiPrevAlloc⟩],
                     freeLists := h.freeLists,
                     epiPrevAlloc := false }
  coalesce h1 h.blocks.length

/-- The heap built by `mm_init` before `extend_heap`: no blocks between
prologue and epilogue, all ten roots empty (`root1..root10 = heap_listp`),
and the epilogue header `PACK(0,3)` (its `prev_alloc` bit set, since the
prologue is allocated). -/
def initEmpty : Heap :=
  { blocks := [], freeLists := List.replicate 10 [], epiPrevAlloc := true }

/-- `mm_init`: build the empty prologue/epilogue heap and extend it by
`CHUNKSIZE/WSIZE` words. -/
def mm_init : Heap := (extend_heap initEmpty (CHUNKSIZE / WSIZE)).1

/-- The adjusted block size computed by `malloc`: overhead plus alignment
rounding, with a floor of `2*DSIZE`. -/
def adjustSize (size : ℕ) : ℕ :=
  if size ≤ WSIZE then 2 * DSIZE else DSIZE * ((size + WSIZE + (DSIZE - 1)) / DSIZE)

/-- `malloc` on an initialized heap.  `grow_ok` is the oracle for whether
`mem_sbrk` succeeds if `extend_heap` is reached (on failure the heap is
untouched and null is returned).  Returns the payload offset (or `none`
for NULL) and the new heap. -/
def malloc (h : Heap) (size : ℕ) (grow_ok : Bool) : Option ℕ × Heap :=
  if size = 0 then (none, h)
  else
    let asize := adjustSize size
    match find_fit h asize with
    | some bp =>
      match idxAt h.blocks bp with
      | some i => (some bp, place h i asize)
      | none => (none, h)
    | none =>
      let extendsize := max asize CHUNKSIZE
      if grow_ok then
        let hj := extend_heap h (extendsize / WSIZE)
        (some (addrOf hj.1.blocks hj.2), place hj.1 hj.2 asize)
      else (none, h)

/-- `{b with alloc := false}`: the header write of `free`
(`PACK(size,0) | GET_PREV_ALLOC`), keeping size and `prev_alloc`.  The
footer write is implicit (footers mirror free headers in the model). -/
def markFree (b : Blk) : Blk := ⟨b.size, false, b.prevAlloc⟩

/-- `free` on an initialized heap: mark the block at offset `bp` free
(keeping its `prev_alloc` bit), write its footer, and coalesce.  An offset
at which no block starts leaves the heap unchanged (the C code has
undefined behaviour there; the reachability relation below only frees
valid allocated blocks). -/
def free (h : Heap) (bp : ℕ) : Heap :=
  match idxAt h.blocks bp with
  | some i => (coalesce { h with blocks := h.blocks.set i (markFree (h.blocks.getD i dBlk)) } i).1
  | none => h

/-- `realloc` state transition: `size = 0` behaves as `free`; null `oldptr`
behaves as `malloc`; otherwise `malloc` a fresh block, and on success
release the old block and return the new pointer (the byte copy in between
is modelled separately by `reallocCopyLen`/`memcpyBytes`). -/
def realloc (h : Heap) (oldptr : Option ℕ) (size : ℕ) (grow_ok : Bool) :
    Option ℕ × Heap :=
  if size = 0 then
    (none, match oldptr with | some p => free h p | none => h)
  else
    match oldptr with
    | none => malloc h size grow_ok
    | some p =>
      match malloc h size grow_ok with
      | (none, h1) => (none, h1)
      | (some newptr, h1) => (some newptr, free h1 p)

/-- The `oldsize` variable of `realloc` after the clamp on lines 234-235:
`GET_SIZE(HDRP(oldptr))`, clamped to the requested size.  This is the
number of bytes `memcpy` copies. -/
def reallocCopyLen (h : Heap) (oldptr : ℕ) (size : ℕ) : ℕ :=
  let oldsize := sizeAt h.blocks oldptr
  if size < oldsize then size else oldsize

/-- `memcpy(dst, src, len)` over byte lists: the first `len` bytes of the
destination are replaced by the first `len` bytes of the source. -/
def memcpyBytes (dst src : List ℕ) (len : ℕ) : List ℕ :=
  src.take len ++ dst.drop len

/-- One `memset(dest, 0, len)` call; `dest = none` models the null
pointer. -/
structure MemsetCall where
  dest : Option ℕ
  len : ℕ
deriving Repr, DecidableEq

/-- The byte count computed by `calloc`: `nmemb * size` in `size_t`
arithmetic, i.e. modulo `2^64`. -/
def callocBytes (nmemb size : ℕ) : ℕ := (nmemb * size) % 2 ^ 64

/-- `calloc`: compute `bytes = nmemb*size`, `malloc(bytes)`, and then pass
the result straight to `memset(newptr, 0, bytes)` — unconditionally, with
no null check.  Returns the malloc result and the emitted memset call. -/
def calloc (h : Heap) (nmemb size : ℕ) (grow_ok : Bool) :
    (Option ℕ × Heap) × MemsetCall :=
  let bytes := callocBytes nmemb size
  let r := malloc h bytes grow_ok
  (r, ⟨r.1, bytes⟩)

/-- Top-level `malloc`: `heap_listp == 0` (state `none`) triggers
`mm_init()` before anything else. -/
def mallocTop (s : Option Heap) (size : ℕ) (grow_ok : Bool) :
    Option ℕ × Option Heap :=
  let h := match s with | none => mm_init | some h0 => h0
  let r := malloc h size grow_ok
  (r.1, some r.2)

/-- Top-level `free`: a null pointer returns immediately (even before the
`heap_listp` check); otherwise `heap_listp == 0` triggers `mm_init()` and
the free proceeds.  (The C code loads the block's header word once before
the init check; since no valid block pointer can exist before
initialization, that load is only meaningful in the initialized case, which
this definition models.) -/
def freeTop (s : Option Heap) (bp : Option ℕ) : Option Heap :=
  match bp with
  | none => s
  | some a =>
    let h := match s with | none => mm_init | some h0 => h0
    some (free h a)

/-- Modelled from the spec: the `find_fit` that §4.4 describes, scanning
the size classes in ascending order *starting from the class containing the
requested size*, each list in list order, first block with
`size ≥ requested_size`.  Used only to compare against the code's
`find_fit`. -/
def scanClasses (h : Heap) (asize : ℕ) : List ℕ → Option ℕ
  | [] => none
  | c :: rest =>
    match scanList h.blocks asize (h.freeLists.getD c []) with
    | some bp => some bp
    | none => scanClasses h asize rest

/-- Modelled from the spec: see `scanClasses`. -/
def find_fit_asSpecified (h : Heap) (asize : ℕ) : Option ℕ :=
  scanClasses h asize ((List.range 10).drop (classify asize))

/-! ### Invariants -/

/-- No two physically adjacent blocks are both free.  The prologue and the
epilogue are allocated, so only pairs inside the list matter. -/
@[reducible] def noAdjFree (bs : List Blk) : Prop :=
  List.Chain' (fun a b => a.alloc = true ∨ b.alloc = true) bs

instance (priority := high) decNoAdjFree : (bs : List Blk) → Decidable (noAdjFree bs)
  | [] => isTrue List.chain'_nil
  | [b] => isTrue (List.chain'_singleton b)
  | a :: b :: t =>
    haveI := decNoAdjFree (b :: t)
    decidable_of_iff ((a.alloc = true ∨ b.alloc = true) ∧ noAdjFree (b :: t))
      (List.chain'_cons (R := fun x y => Blk.alloc x = true ∨ Blk.alloc y = true)).symm

/-- `prev_alloc` bits consistent along the list, seeded with the allocation
bit of the physically preceding block (`true` = the prologue for the first
block). -/
def bitsFromB : Bool → List Blk → Bool
  | _, [] => true
  | p, b :: t => (b.prevAlloc == p) && bitsFromB b.alloc t

/-- The allocation bit that the epilogue's `prev_alloc` should copy: the
allocation bit of the last block (`p`, i.e. the prologue, when there is
none). -/
def endAlloc (p : Bool) (l : List Blk) : Bool :=
  (l.getLast?).elim p Blk.alloc

/-- `{b with alloc := true}`. -/
def mkAlloc (b : Blk) : Blk := ⟨b.size, true, b.prevAlloc⟩

instance decExBddLT {n : ℕ} {P : ℕ → Prop} [DecidablePred P] :
    Decidable (∃ j, j < n ∧ P j) :=
  decidable_of_iff (∃ j ∈ List.range n, P j) (by simp [List.mem_range])

instance (priority := high) decBallBddLT {n : ℕ} {P : ℕ → Prop} [DecidablePred P] :
    Decidable (∀ j, j < n → P j) :=
  decidable_of_iff (∀ j ∈ List.range n, P j) (by simp [List.mem_range])

/-- Well-formedness of a heap, with the block at index `i` exempted from
the free-list and adjacency requirements (choosing `i = h.blocks.length`
exempts nothing and yields the plain invariant `Inv`).  The clauses:
list count, positive sizes, no adjacent frees if `i` were allocated,
`prev_alloc` bits consistent if `i` were allocated, epilogue bit consistent
(waived exactly when `i` is the last block), lists duplicate-free, every
listed offset is a free block (other than `i`) of that class, and every
free block other than `i` is listed in its class. -/
@[reducible] def HeapWFx (h : Heap) (i : ℕ) : Prop :=
  h.freeLists.length = 10 ∧
  (∀ b ∈ h.blocks, 0 < b.size) ∧
  noAdjFree (h.blocks.set i (mkAlloc (h.blocks.getD i dBlk))) ∧
  bitsFromB true (h.blocks.set i (mkAlloc (h.blocks.getD i dBlk))) = true ∧
  (i + 1 ≠ h.blocks.length → h.epiPrevAlloc = endAlloc true h.blocks) ∧
  (∀ c < 10, (h.freeLists.getD c []).Nodup) ∧
  (∀ c < 10, ∀ a ∈ h.freeLists.getD c [],
    ∃ j, j < h.blocks.length ∧ j ≠ i ∧ addrOf h.blocks j = a ∧
      (h.blocks.getD j dBlk).alloc = false ∧
      classify (h.blocks.getD j dBlk).size = c) ∧
  (∀ j, j < h.blocks.length → j ≠ i → (h.blocks.getD j dBlk).alloc = false →
    addrOf h.blocks j ∈ h.freeLists.getD (classify (h.blocks.getD j dBlk).size) [])

/-- The allocator invariant at quiescent points. -/
@[reducible] def InvH (h : Heap) : Prop := HeapWFx h h.blocks.length

/-- Precondition of `coalesce`: a well-formed heap except that the block at
`i` is free but not yet in any list. -/
@[reducible] def CoalPre (h : Heap) (i : ℕ) : Prop :=
  HeapWFx h i ∧ i < h.blocks.length ∧ (h.blocks.getD i dBlk).alloc = false

/-- Heap states reachable through the public API from the demand-initialized
heap. `free` and `realloc` are only invoked on offsets of live allocated
blocks, as the C contract requires. -/
inductive Reach : Heap → Prop
  | init : Reach mm_init
  | mallocStep (h : Heap) (n : ℕ) (ok : Bool) : Reach h → Reach (malloc h n ok).2
  | freeStep (h : Heap) (bp i : ℕ) : Reach h → idxAt h.blocks bp = some i →
      (h.blocks.getD i dBlk).alloc = true → Reach (free h bp)
  | reallocStep (h : Heap) (p : Option ℕ) (n : ℕ) (ok : Bool) : Reach h →
      (∀ a, p = some a → ∃ i, idxAt h.blocks a = some i ∧
        (h.blocks.getD i dBlk).alloc = true) →
      Reach (realloc h p n ok).2
  | callocStep (h : Heap) (n s : ℕ) (ok : Bool) : Reach h →
      Reach (calloc h n s ok).1.2

/-! ### Trace of the classes consulted by `find_fit` -/

/-- Same loop as `findFitFrom`, additionally recording the size-class index
consulted at each iteration, in order, up to the iteration that returns. -/
def findFitFromT (h : Heap) (asize : ℕ) : ℕ → ℕ → List ℕ
  | _, 0 => []
  | size, fuel + 1 =>
    if size ≤ 8192 then
      match scanList h.blocks asize (h.freeLists.getD (classify size) []) with
      | some _ => [classify size]
      | none => classify size :: findFitFromT h asize (size * 2) fuel
    else []

/-- The sequence of size classes whose lists `find_fit` consults. -/
def findFitTrace (h : Heap) (asize : ℕ) : List ℕ :=
  findFitFromT h asize 16 11

/-- A convenient reachable heap: `mm_init` after one `malloc(10)` — a
16-byte allocated block at offset 0 followed by a 4080-byte free block. -/
def heapA : Heap := (malloc mm_init 10 true).2

/-! ### C10, C4, C5, C9, C3: arithmetic, error handling, initialization -/

/-- C10: `calloc` computes the byte count as `nmemb * size` in 64-bit
`size_t` arithmetic with no overflow check, so whenever the mathematical
product reaches `2^64` the number of bytes passed to `malloc` and to
`memset` is `nmemb * size mod 2^64`, strictly smaller than the requested
product. -/
theorem calloc_overflow_wraps (h : Heap) (nmemb size : ℕ) (ok : Bool)
    (hov : 2 ^ 64 ≤ nmemb * size) :
    (calloc h nmemb size ok).2.len = (nmemb * size) % 2 ^ 64 ∧
    (calloc h nmemb size ok).2.len < nmemb * size := by
  refine ⟨rfl, ?_⟩
  calc (calloc h nmemb size ok).2.len = (nmemb * size) % 2 ^ 64 := rfl
    _ < 2 ^ 64 := Nat.mod_lt _ (by norm_num)
    _ ≤ nmemb * size := hov

/-- Witness for `calloc_overflow_wraps` at `nmemb = 2^32`,
`size = 2^32 + 8`. -/
theorem calloc_overflow_wraps_witness :
    2 ^ 64 ≤ 2 ^ 32 * (2 ^ 32 + 8) ∧
    ((calloc mm_init (2 ^ 32) (2 ^ 32 + 8) false).2.len =
        (2 ^ 32 * (2 ^ 32 + 8)) % 2 ^ 64 ∧
      (calloc mm_init (2 ^ 32) (2 ^ 32 + 8) false).2.len <
        2 ^ 32 * (2 ^ 32 + 8)) :=
  ⟨by norm_num, calloc_overflow_wraps mm_init (2 ^ 32) (2 ^ 32 + 8) false (by norm_num)⟩

/-- C4: evaluation of `calloc` at an input whose allocation fails
(`calloc(1, 2^48)` on the fresh heap, with arena growth failing): `malloc`
returns null and the heap is untouched, but the code still emits
`memset(newptr, 0, bytes)` with the null pointer as destination and a
positive length — a write through the null result, contradicting the
claim that no such write occurs. -/
theorem calloc_null_memset :
    calloc mm_init 1 (2 ^ 48) false = ((none, mm_init), ⟨none, 2 ^ 48⟩) ∧
    (calloc mm_init 1 (2 ^ 48) false).2.dest = none ∧
    0 < (calloc mm_init 1 (2 ^ 48) false).2.len := by
  refine ⟨?_, ?_, ?_⟩ <;> decide

/-- C5 counterexample: on the never-initialized allocator state,
`malloc(0)` is not free of side effects — it initializes the arena first
(`heap_listp == 0` triggers `mm_init()` before the `size == 0` test), so
the state afterwards is no longer the uninitialized one. -/
theorem malloc_zero_uninit_side_effect :
    (mallocTop none 0 true).2 ≠ (none : Option Heap) := by decide

/-- C5 (amended): on every initialized heap state, `allocate(0)` returns
null and leaves the allocator state unchanged; on the never-initialized
state it first initializes the arena and then returns null. -/
theorem malloc_zero_noop (h : Heap) (ok : Bool) :
    mallocTop (some h) 0 ok = (none, some h) ∧
    mallocTop none 0 ok = (none, some mm_init) := ⟨rfl, rfl⟩

/-- Witness for `malloc_zero_noop` at the initialized heap `heapA`. -/
theorem malloc_zero_noop_witness :
    mallocTop (some heapA) 0 true = (none, some heapA) ∧
    mallocTop none 0 true = (none, some mm_init) := malloc_zero_noop heapA true

/-- C9: if `malloc` or `free` runs while the allocator was never
initialized (`heap_listp == 0`), it behaves exactly as the same call on the
heap `mm_init` builds, i.e. it initializes first and then proceeds; and
`mm_init` builds the ten free-list heads, one initial 4096-byte free chunk
(registered in class 8), and the prologue/epilogue sentinels (the epilogue
`prev_alloc` bit is tracked explicitly and the prologue is the implicit
allocated left sentinel). No separate public initialization call exists or
is needed. -/
theorem init_on_demand (n : ℕ) (ok : Bool) (a : ℕ) :
    mallocTop none n ok = mallocTop (some mm_init) n ok ∧
    freeTop none (some a) = freeTop (some mm_init) (some a) ∧
    mm_init.blocks = [⟨4096, false, true⟩] ∧
    mm_init.freeLists = [[], [], [], [], [], [], [], [], [0], []] ∧
    mm_init.epiPrevAlloc = false ∧
    mm_init.freeLists.length = 10 := by
  exact ⟨rfl, rfl, by decide, by decide, by decide, by decide⟩

/-- Witness for `init_on_demand` at `n = 24`, `a = 0`. -/
theorem init_on_demand_witness :
    mallocTop none 24 true = mallocTop (some mm_init) 24 true ∧
    freeTop none (some 0) = freeTop (some mm_init) (some 0) ∧
    mm_init.blocks = [⟨4096, false, true⟩] ∧
    mm_init.freeLists = [[], [], [], [], [], [], [], [], [0], []] ∧
    mm_init.epiPrevAlloc = false ∧
    mm_init.freeLists.length = 10 := init_on_demand 24 true 0

/-- C3 counterexample: `realloc` sets `oldsize = GET_SIZE(HDRP(oldptr))`,
the old block's *total* size (header word included), not its payload size.
On `heapA` the block at offset 0 is a 16-byte allocated block whose payload
is `16 - WSIZE = 12` bytes, yet `realloc(p, 100)` copies 16 bytes, not
`min(100, 12) = 12`. -/
theorem realloc_copylen_cex :
    reallocCopyLen heapA 0 100 ≠ min 100 (sizeAt heapA.blocks 0 - WSIZE) := by
  decide

/-- C3 (amended): `resize(p, n)` allocates a fresh block, copies exactly
`min(n, old_block_total_size)` bytes — the total size `GET_SIZE` reports,
i.e. the old payload plus its 4-byte header word, so up to `WSIZE` bytes
past the old payload may be copied — hence the new block's first
`min(n, old_payload_size)` bytes still equal the old payload's; then it
releases the old block and returns the new pointer (and when the fresh
allocation fails it returns null with the old block untouched). -/
theorem realloc_copy (h : Heap) (p n : ℕ) (ok : Bool)
    (oldPayload extra dst : List ℕ)
    (hpay : oldPayload.length + WSIZE = sizeAt h.blocks p) :
    reallocCopyLen h p n = min n (sizeAt h.blocks p) ∧
    (memcpyBytes dst (oldPayload ++ extra) (reallocCopyLen h p n)).take
        (min n oldPayload.length) = oldPayload.take (min n oldPayload.length) ∧
    (∀ np h1, malloc h n ok = (some np, h1) → n ≠ 0 →
      realloc h (some p) n ok = (some np, free h1 p)) ∧
    (∀ h1, malloc h n ok = (none, h1) → n ≠ 0 →
      realloc h (some p) n ok = (none, h1)) := by
  have hlen : reallocCopyLen h p n = min n (sizeAt h.blocks p) := by
    simp only [reallocCopyLen]; split_ifs <;> omega
  refine ⟨hlen, ?_, ?_, ?_⟩
  · set L := reallocCopyLen h p n with hL
    set m := min n oldPayload.length with hm
    have hmL : m ≤ L := by
      rw [hlen, hm]; exact min_le_min (le_refl n) (by omega)
    have hmp : m ≤ oldPayload.length := min_le_right _ _
    have hmsrc : m ≤ ((oldPayload ++ extra).take L).length := by
      rw [List.length_take, List.length_append]
      exact le_min hmL (le_trans hmp (Nat.le_add_right _ _))
    unfold memcpyBytes
    rw [List.take_append_of_le_length hmsrc, List.take_take,
      min_eq_left hmL, List.take_append_of_le_length hmp]
  · intro np h1 hmal hn
    simp only [realloc, if_neg hn, hmal]
  · intro h1 hmal hn
    simp only [realloc, if_neg hn, hmal]

/-- Witness for `realloc_copy` on `heapA` (old block: total size 16,
payload 12) with `n = 100`. -/
theorem realloc_copy_witness :
    (List.replicate 12 7).length + WSIZE = sizeAt heapA.blocks 0 ∧
    reallocCopyLen heapA 0 100 = min 100 (sizeAt heapA.blocks 0) ∧
    (memcpyBytes (List.replicate 120 0) (List.replicate 12 7 ++ [1, 2, 3, 4])
        (reallocCopyLen heapA 0 100)).take (min 100 (List.replicate 12 7).length) =
      (List.replicate 12 7).take (min 100 (List.replicate 12 7).length) :=
  ⟨by decide,
   (realloc_copy heapA 0 100 true (List.replicate 12 7) [1, 2, 3, 4]
      (List.replicate 120 0) (by decide)).1,
   (realloc_copy heapA 0 100 true (List.replicate 12 7) [1, 2, 3, 4]
      (List.replicate 120 0) (by decide)).2.1⟩

/-! ### Address arithmetic and dereferencing lemmas -/

theorem addrOf_cons (b : Blk) (t : List Blk) (i : ℕ) :
    addrOf (b :: t) (i + 1) = b.size + addrOf t i := by
  simp [addrOf]

theorem idxAt_addrOf (bs : List Blk) (hpos : ∀ b ∈ bs, 0 < b.size) (i : ℕ)
    (hi : i < bs.length) : idxAt bs (addrOf bs i) = some i := by
  induction bs generalizing i with
  | nil => simp at hi
  | cons b t ih =>
    cases i with
    | zero => simp [idxAt, addrOf]
    | succ i =>
      have hb : 0 < b.size := hpos b (by simp)
      rw [addrOf_cons]
      have h1 : ¬ (b.size + addrOf t i = 0) := by omega
      have h2 : ¬ (b.size + addrOf t i < b.size) := by omega
      simp only [idxAt, if_neg h1, if_neg h2]
      have h3 : b.size + addrOf t i - b.size = addrOf t i := by omega
      rw [h3, ih (fun x hx => hpos x (by simp [hx])) i (by simpa using hi)]
      rfl

theorem idxAt_some (bs : List Blk) (a i : ℕ) (h : idxAt bs a = some i) :
    i < bs.length ∧ addrOf bs i = a := by
  induction bs generalizing a i with
  | nil => simp [idxAt] at h
  | cons b t ih =>
    by_cases h0 : a = 0
    · subst h0
      have hi0 : i = 0 := by
        simp [idxAt] at h
        omega
      subst hi0
      exact ⟨by simp, rfl⟩
    · by_cases hlt : a < b.size
      · rw [show idxAt (b :: t) a = none by
          simp [idxAt, h0, hlt]] at h
        cases h
      · simp only [idxAt, if_neg h0, if_neg hlt] at h
        cases e : idxAt t (a - b.size) with
        | none => rw [e] at h; simp at h
        | some i0 =>
          rw [e] at h
          simp only [Option.map_some', Option.some.injEq] at h
          subst h
          obtain ⟨hl, ha⟩ := ih _ _ e
          refine ⟨by simpa using hl, ?_⟩
          rw [addrOf_cons, ha]
          omega

theorem sizeAt_addrOf (bs : List Blk) (hpos : ∀ b ∈ bs, 0 < b.size) (i : ℕ)
    (hi : i < bs.length) : sizeAt bs (addrOf bs i) = (bs.getD i dBlk).size := by
  unfold sizeAt
  rw [idxAt_addrOf bs hpos i hi]

/-! ### `classify` lemmas -/

theorem classify_lt_10 (s : ℕ) : classify s < 10 := by
  unfold classify; split_ifs <;> omega

/-- Exhaustive interval characterization of `classify`. -/
theorem classify_cases (s : ℕ) :
    (classify s = 0 ∧ s ≤ 16) ∨ (classify s = 1 ∧ 16 < s ∧ s ≤ 32) ∨
    (classify s = 2 ∧ 32 < s ∧ s ≤ 64) ∨ (classify s = 3 ∧ 64 < s ∧ s ≤ 128) ∨
    (classify s = 4 ∧ 128 < s ∧ s ≤ 256) ∨ (classify s = 5 ∧ 256 < s ∧ s ≤ 512) ∨
    (classify s = 6 ∧ 512 < s ∧ s ≤ 1024) ∨ (classify s = 7 ∧ 1024 < s ∧ s ≤ 2048) ∨
    (classify s = 8 ∧ 2048 < s ∧ s ≤ 4096) ∨ (classify s = 9 ∧ 4096 < s) := by
  unfold classify; split_ifs <;> omega

theorem classify_mono {s t : ℕ} (h : s ≤ t) : classify s ≤ classify t := by
  rcases classify_cases s with hs|hs|hs|hs|hs|hs|hs|hs|hs|hs <;>
    rcases classify_cases t with ht|ht|ht|ht|ht|ht|ht|ht|ht|ht <;> omega

theorem lt_of_classify_lt {s t : ℕ} (h : classify s < classify t) : s < t := by
  by_contra hc
  exact absurd (classify_mono (Nat.le_of_not_lt hc)) (by omega)

/-! ### `find_fit` scan lemmas -/

theorem scanList_eq_some (bs : List Blk) (asize : ℕ) (l : List ℕ) (bp : ℕ)
    (h : scanList bs asize l = some bp) : bp ∈ l ∧ asize ≤ sizeAt bs bp := by
  induction l with
  | nil => simp [scanList] at h
  | cons x t ih =>
    by_cases hx : asize ≤ sizeAt bs x
    · simp only [scanList, if_pos hx, Option.some.injEq] at h
      subst h
      exact ⟨by simp, hx⟩
    · simp only [scanList, if_neg hx] at h
      obtain ⟨h1, h2⟩ := ih h
      exact ⟨by simp [h1], h2⟩

theorem scanList_eq_none (bs : List Blk) (asize : ℕ) (l : List ℕ)
    (h : ∀ bp ∈ l, ¬ asize ≤ sizeAt bs bp) : scanList bs asize l = none := by
  induction l with
  | nil => rfl
  | cons x t ih =>
    simp only [scanList, if_neg (h x (by simp))]
    exact ih (fun bp hbp => h bp (by simp [hbp]))

theorem scanList_none_forall (bs : List Blk) (asize : ℕ) (l : List ℕ)
    (h : scanList bs asize l = none) : ∀ bp ∈ l, ¬ asize ≤ sizeAt bs bp := by
  induction l with
  | nil => simp
  | cons x t ih =>
    by_cases hx : asize ≤ sizeAt bs x
    · simp [scanList, hx] at h
    · simp only [scanList, if_neg hx] at h
      intro bp hbp
      rcases List.mem_cons.mp hbp with h1 | h1
      · subst h1; exact hx
      · exact ih h bp h1

theorem scanClasses_append_none (h : Heap) (asize : ℕ) (cs1 cs2 : List ℕ)
    (hnone : ∀ c ∈ cs1, scanList h.blocks asize (h.freeLists.getD c []) = none) :
    scanClasses h asize (cs1 ++ cs2) = scanClasses h asize cs2 := by
  induction cs1 with
  | nil => rfl
  | cons c t ih =>
    show (match scanList h.blocks asize (h.freeLists.getD c []) with
      | some bp => some bp
      | none => scanClasses h asize (t ++ cs2)) = scanClasses h asize cs2
    rw [hnone c (by simp)]
    exact ih (fun x hx => hnone x (by simp [hx]))

theorem scanClasses_eq_some (h : Heap) (asize : ℕ) (cs : List ℕ) (bp : ℕ)
    (hs : scanClasses h asize cs = some bp) :
    ∃ c ∈ cs, scanList h.blocks asize (h.freeLists.getD c []) = some bp := by
  induction cs with
  | nil => simp [scanClasses] at hs
  | cons c t ih =>
    rcases e : scanList h.blocks asize (h.freeLists.getD c []) with _ | bp0
    · rw [show scanClasses h asize (c :: t) = scanClasses h asize t by
        show (match scanList h.blocks asize (h.freeLists.getD c []) with
          | some bp => some bp
          | none => scanClasses h asize t) = scanClasses h asize t
        rw [e]] at hs
      obtain ⟨c0, hc0, hsc⟩ := ih hs
      exact ⟨c0, by simp [hc0], hsc⟩
    · have : scanClasses h asize (c :: t) = some bp0 := by
        show (match scanList h.blocks asize (h.freeLists.getD c []) with
          | some bp => some bp
          | none => scanClasses h asize t) = some bp0
        rw [e]
      rw [this] at hs
      cases hs
      exact ⟨c, by simp, e⟩

theorem scanClasses_eq_none (h : Heap) (asize : ℕ) (cs : List ℕ)
    (hs : scanClasses h asize cs = none) :
    ∀ c ∈ cs, scanList h.blocks asize (h.freeLists.getD c []) = none := by
  intro c hc
  induction cs with
  | nil => simp at hc
  | cons c0 t ih =>
    rcases e : scanList h.blocks asize (h.freeLists.getD c0 []) with _ | bp0
    · rw [show scanClasses h asize (c0 :: t) = scanClasses h asize t by
        show (match scanList h.blocks asize (h.freeLists.getD c0 []) with
          | some bp => some bp
          | none => scanClasses h asize t) = scanClasses h asize t
        rw [e]] at hs
      rcases List.mem_cons.mp hc with h1 | h1
      · subst h1; exact e
      · exact ih hs h1
    · rw [show scanClasses h asize (c0 :: t) = some bp0 by
        show (match scanList h.blocks asize (h.freeLists.getD c0 []) with
          | some bp => some bp
          | none => scanClasses h asize t) = some bp0
        rw [e]] at hs
      cases hs

theorem find_fit_eq_scanClasses (h : Heap) (asize : ℕ) :
    find_fit h asize = scanClasses h asize (List.range 10) := rfl

/-- Under the free-list partition invariant, a class strictly below the
requested size's class contains no fitting block. -/
theorem scanList_below_class_none (h : Heap) (asize : ℕ) (hinv : InvH h)
    (c : ℕ) (hc : c < classify asize) :
    scanList h.blocks asize (h.freeLists.getD c []) = none := by
  apply scanList_eq_none
  intro bp hbp
  obtain ⟨_, hpos, _, _, _, _, hlisted, _⟩ := hinv
  obtain ⟨j, hj, _, haddr, _, hcls⟩ :=
    hlisted c (lt_trans hc (classify_lt_10 asize)) bp hbp
  subst haddr
  rw [sizeAt_addrOf h.blocks hpos j hj]
  have hlt : (h.blocks.getD j dBlk).size < asize :=
    lt_of_classify_lt (by rw [hcls]; exact hc)
  omega

/-- C2 (amended): `find_fit` scans *all* size classes in ascending order
starting from the smallest (16-byte) class — not from the class containing
the requested size — each class's list in list order, returning the first
block whose size is at least the requested size.  On any heap satisfying
the free-list partition invariant this extra scanning is harmless: the
result coincides with the spec's scan that starts at the class containing
the requested size, a returned block always fits, and "no fit" is returned
only when no listed block of any class fits. -/
theorem find_fit_scan (h : Heap) (asize : ℕ) (hinv : InvH h) :
    (findFitTrace h asize).head? = some 0 ∧
    find_fit h asize = find_fit_asSpecified h asize ∧
    (∀ bp, find_fit h asize = some bp →
      (∃ c, c < 10 ∧ bp ∈ h.freeLists.getD c []) ∧ asize ≤ sizeAt h.blocks bp) ∧
    (find_fit h asize = none →
      ∀ c, c < 10 → ∀ bp ∈ h.freeLists.getD c [], sizeAt h.blocks bp < asize) := by
  refine ⟨?_, ?_, ?_, ?_⟩
  · have e : findFitTrace h asize =
      (match scanList h.blocks asize (h.freeLists.getD 0 []) with
       | some _ => [0]
       | none => 0 :: findFitFromT h asize 32 10) := rfl
    rcases e2 : scanList h.blocks asize (h.freeLists.getD 0 []) with _ | bp <;>
      rw [e, e2] <;> rfl
  · rw [find_fit_eq_scanClasses]
    unfold find_fit_asSpecified
    nth_rewrite 1 [← List.take_append_drop (classify asize) (List.range 10)]
    apply scanClasses_append_none
    intro c hc
    rw [List.take_range] at hc
    exact scanList_below_class_none h asize hinv c
      (lt_of_lt_of_le (List.mem_range.mp hc) (min_le_left _ _))
  · intro bp hbp
    rw [find_fit_eq_scanClasses] at hbp
    obtain ⟨c, hc, hscan⟩ := scanClasses_eq_some h asize (List.range 10) bp hbp
    obtain ⟨hmem, hsize⟩ := scanList_eq_some h.blocks asize _ bp hscan
    exact ⟨⟨c, List.mem_range.mp hc, hmem⟩, hsize⟩
  · intro hnone c hc bp hbp
    rw [find_fit_eq_scanClasses] at hnone
    have := scanList_none_forall h.blocks asize _
      (scanClasses_eq_none h asize (List.range 10) hnone c (List.mem_range.mpr hc)) bp hbp
    omega

/-- Witness for `find_fit_scan` at `mm_init` with request 20. -/
theorem find_fit_scan_witness :
    InvH mm_init ∧
    (findFitTrace mm_init 20).head? = some 0 ∧
    find_fit mm_init 20 = find_fit_asSpecified mm_init 20 :=
  ⟨by decide, (find_fit_scan mm_init 20 (by decide)).1,
   (find_fit_scan mm_init 20 (by decide)).2.1⟩

/-- C2 counterexample: on the freshly initialized heap and a request whose
adjusted size 5008 lies in the catch-all class 9, `find_fit` consults the
lists of classes 0,1,...,8 — all strictly smaller classes than the class
containing the requested size — before class 9, contradicting the claim
that the scan starts at the class containing the requested size and not at
a smaller one. -/
theorem find_fit_starts_at_smallest_cex :
    classify (adjustSize 5000) = 9 ∧
    findFitTrace mm_init (adjustSize 5000) = [0, 1, 2, 3, 4, 5, 6, 7, 8, 9] := by
  exact ⟨by decide, by decide⟩

/-! ### Splice lemmas: block-list surgery used by `place` and `coalesce` -/

def sizeSum (l : List Blk) : ℕ := (l.map Blk.size).sum

theorem addrOf_len (l : List Blk) : addrOf l l.length = sizeSum l := by
  unfold addrOf sizeSum
  congr 1
  apply List.take_of_length_le
  simp

theorem addrOf_take_eq (bs : List Blk) (i j : ℕ) (h : j ≤ i) :
    addrOf (bs.take i) j = addrOf bs j := by
  unfold addrOf
  rw [List.map_take, List.take_take, min_eq_left h]

theorem getD_take (bs : List Blk) (i j : ℕ) (h : j < i) :
    (bs.take i).getD j dBlk = bs.getD j dBlk := by
  rw [List.getD_eq_getElem?_getD, List.getD_eq_getElem?_getD, List.getElem?_take_of_lt h]

theorem getD_drop (bs : List Blk) (d k : ℕ) :
    (bs.drop d).getD k dBlk = bs.getD (d + k) dBlk := by
  rw [List.getD_eq_getElem?_getD, List.getD_eq_getElem?_getD, List.getElem?_drop]

theorem addrOf_drop_add (bs : List Blk) (d k : ℕ) :
    addrOf bs (d + k) = addrOf bs d + addrOf (bs.drop d) k := by
  unfold addrOf
  rw [List.take_add, List.sum_append, List.map_drop]

theorem addrOf_append_left (l1 l2 : List Blk) (j : ℕ) (h : j ≤ l1.length) :
    addrOf (l1 ++ l2) j = addrOf l1 j := by
  unfold addrOf
  rw [List.map_append, List.take_append_of_le_length (by simpa)]

theorem addrOf_append_right (l1 l2 : List Blk) (k : ℕ) :
    addrOf (l1 ++ l2) (l1.length + k) = sizeSum l1 + addrOf l2 k := by
  have e : (List.map Blk.size l1 ++ List.map Blk.size l2).take
      ((List.map Blk.size l1).length + k) =
      List.map Blk.size l1 ++ (List.map Blk.size l2).take k := List.take_append k
  rw [List.length_map] at e
  unfold addrOf sizeSum
  rw [List.map_append, e, List.sum_append]

theorem getD_append_left (l1 l2 : List Blk) (j : ℕ) (h : j < l1.length) :
    (l1 ++ l2).getD j dBlk = l1.getD j dBlk := by
  rw [List.getD_eq_getElem?_getD, List.getD_eq_getElem?_getD, List.getElem?_append_left h]

theorem getD_append_right (l1 l2 : List Blk) (k : ℕ) :
    (l1 ++ l2).getD (l1.length + k) dBlk = l2.getD k dBlk := by
  rw [List.getD_eq_getElem?_getD, List.getD_eq_getElem?_getD,
    List.getElem?_append_right (by omega)]
  have e2 : l1.length + k - l1.length = k := by omega
  rw [e2]

theorem getD_set_ne {α : Type} (l : List α) (d : α) (i j : ℕ) (a : α) (h : i ≠ j) :
    (l.set i a).getD j d = l.getD j d := by
  rw [List.getD_eq_getElem?_getD, List.getD_eq_getElem?_getD, List.getElem?_set_ne h]

theorem getD_set_eq {α : Type} (l : List α) (d : α) (i : ℕ) (a : α) (h : i < l.length) :
    (l.set i a).getD i d = a := by
  rw [List.getD_eq_getElem?_getD, List.getElem?_set_self h]
  rfl

theorem addrOf_lt_addrOf (bs : List Blk) (hpos : ∀ b ∈ bs, 0 < b.size)
    (i j : ℕ) (hij : i < j) (hj : j ≤ bs.length) : addrOf bs i < addrOf bs j := by
  obtain ⟨k, rfl⟩ : ∃ k, j = i + (k + 1) := ⟨j - i - 1, by omega⟩
  rw [addrOf_drop_add bs i (k + 1)]
  cases e : bs.drop i with
  | nil =>
    exfalso
    have := congrArg List.length e
    simp [List.length_drop] at this
    omega
  | cons b t =>
    rw [addrOf_cons]
    have hb : 0 < b.size := hpos b (List.drop_subset i bs (e ▸ List.mem_cons_self b t))
    omega

theorem addrOf_inj (bs : List Blk) (hpos : ∀ b ∈ bs, 0 < b.size)
    {i j : ℕ} (hi : i ≤ bs.length) (hj : j ≤ bs.length)
    (h : addrOf bs i = addrOf bs j) : i = j := by
  rcases lt_trichotomy i j with hlt | heq | hgt
  · exact absurd h (Nat.ne_of_lt (addrOf_lt_addrOf bs hpos i j hlt hj))
  · exact heq
  · exact absurd h.symm (Nat.ne_of_lt (addrOf_lt_addrOf bs hpos j i hgt hi))

/-- The `prev_alloc` bit of the header following block `i` (the epilogue
header when `i` is the last block). -/
def nextPrevBit (h : Heap) (i : ℕ) : Bool :=
  if i + 1 < h.blocks.length then (h.blocks.getD (i + 1) dBlk).prevAlloc
  else h.epiPrevAlloc

theorem sizeSum_take (bs : List Blk) (i : ℕ) (hi : i ≤ bs.length) :
    sizeSum (bs.take i) = addrOf bs i := by
  have h1 : (bs.take i).length = i := by simp [List.length_take]; omega
  rw [← addrOf_len, h1, addrOf_take_eq bs i i (le_refl i)]

/-- Under the partition invariant, a listed offset in class `c` other than
the class of the block at `i` cannot be the offset of block `i`. -/
theorem notmem_other_class (h : Heap) (i : ℕ) (hinv : InvH h)
    (hi : i < h.blocks.length) (c : ℕ) (hc : c < 10)
    (hne : c ≠ classify (h.blocks.getD i dBlk).size) :
    addrOf h.blocks i ∉ h.freeLists.getD c [] := by
  intro hmem
  obtain ⟨_, hpos, _, _, _, _, hlisted, _⟩ := hinv
  obtain ⟨j, hj, _, haddr, _, hcls⟩ := hlisted c hc _ hmem
  have := addrOf_inj h.blocks hpos (le_of_lt hj) (le_of_lt hi) haddr
  subst this
  exact hne hcls.symm

theorem freeLists_setPrevAllocNext (h : Heap) (i : ℕ) (v : Bool) :
    (setPrevAllocNext h i v).freeLists = h.freeLists := by
  unfold setPrevAllocNext
  split_ifs <;> rfl

theorem length_setPrevAllocNext (h : Heap) (i : ℕ) (v : Bool) :
    (setPrevAllocNext h i v).blocks.length = h.blocks.length := by
  unfold setPrevAllocNext
  split_ifs <;> simp

theorem nextPrevBit_set (h : Heap) (i : ℕ) (v : Bool) :
    nextPrevBit (setPrevAllocNext h i v) i = v := by
  unfold nextPrevBit setPrevAllocNext
  by_cases hlt : i + 1 < h.blocks.length
  · rw [if_pos hlt]
    have hlen : (h.blocks.set (i + 1) (withPrevBit (h.blocks.getD (i + 1) dBlk) v)).length
        = h.blocks.length := by simp
    rw [if_pos (by simpa [hlen] using hlt)]
    show Blk.prevAlloc (List.getD (h.blocks.set (i + 1)
      (withPrevBit (h.blocks.getD (i + 1) dBlk) v)) (i + 1) dBlk) = v
    rw [getD_set_eq _ _ _ _ hlt]
    rfl
  · rw [if_neg hlt]
    rw [if_neg (by simpa using hlt)]

theorem getD_setPrevAllocNext (h : Heap) (i : ℕ) (v : Bool) (j : ℕ) (hj : j ≠ i + 1) :
    (setPrevAllocNext h i v).blocks.getD j dBlk = h.blocks.getD j dBlk := by
  unfold setPrevAllocNext
  split_ifs with hc
  · exact getD_set_ne _ _ _ _ _ (fun e => hj e.symm)
  · rfl

/-- C6: `place(bp, asize)` on a FREE block of size `csize ≥ asize` removes
`bp` from the free-list index; when the remainder `csize - asize` is at
least the minimum block size (`2*DSIZE = 16`), it splits: the first `asize`
bytes become an ALLOCATED block and the remainder becomes a new FREE block
(at offset `bp + asize`, with its `prev_alloc` bit set) inserted into the
index under its own class; otherwise the whole `csize`-byte block becomes
ALLOCATED and the `prev_alloc` bit of the physically following header is
set. -/
theorem place_spec (h : Heap) (i asize : ℕ) (hinv : InvH h)
    (hi : i < h.blocks.length)
    (hfree : (h.blocks.getD i dBlk).alloc = false)
    (hpos : 0 < asize) (hle : asize ≤ (h.blocks.getD i dBlk).size) :
    (∀ c, c < 10 → addrOf h.blocks i ∉ (place h i asize).freeLists.getD c []) ∧
    (2 * DSIZE ≤ (h.blocks.getD i dBlk).size - asize →
      (place h i asize).blocks =
        h.blocks.take i ++
          [⟨asize, true, (h.blocks.getD i dBlk).prevAlloc⟩,
           ⟨(h.blocks.getD i dBlk).size - asize, false, true⟩] ++
          h.blocks.drop (i + 1) ∧
      (place h i asize).blocks.getD i dBlk =
        ⟨asize, true, (h.blocks.getD i dBlk).prevAlloc⟩ ∧
      (place h i asize).blocks.getD (i + 1) dBlk =
        ⟨(h.blocks.getD i dBlk).size - asize, false, true⟩ ∧
      addrOf h.blocks i + asize ∈
        (place h i asize).freeLists.getD
          (classify ((h.blocks.getD i dBlk).size - asize)) []) ∧
    (¬ 2 * DSIZE ≤ (h.blocks.getD i dBlk).size - asize →
      (place h i asize).blocks.getD i dBlk =
        ⟨(h.blocks.getD i dBlk).size, true, (h.blocks.getD i dBlk).prevAlloc⟩ ∧
      nextPrevBit (place h i asize) i = true) := by
  have hlen10 : h.freeLists.length = 10 := hinv.1
  have hnodup : ∀ c, c < 10 → (h.freeLists.getD c []).Nodup := hinv.2.2.2.2.2.1
  have hc1lt : classify (h.blocks.getD i dBlk).size < 10 := classify_lt_10 _
  have hT : (h.blocks.take i).length = i := by
    simp [List.length_take]
    omega
  have hAi_notin_FL1 : ∀ c, c < 10 →
      addrOf h.blocks i ∉
        (h.freeLists.set (classify (h.blocks.getD i dBlk).size)
          ((h.freeLists.getD (classify (h.blocks.getD i dBlk).size) []).erase
            (addrOf h.blocks i))).getD c [] := by
    intro c hc hmem
    by_cases hcc : c = classify (h.blocks.getD i dBlk).size
    · subst hcc
      rw [getD_set_eq _ _ _ _ (by rw [hlen10]; exact hc1lt)] at hmem
      exact ((hnodup _ hc1lt).mem_erase_iff.mp hmem).1 rfl
    · rw [getD_set_ne _ _ _ _ _ (fun e => hcc e.symm)] at hmem
      exact notmem_other_class h i hinv hi c hc hcc hmem
  have hFL1len : (h.freeLists.set (classify (h.blocks.getD i dBlk).size)
      ((h.freeLists.getD (classify (h.blocks.getD i dBlk).size) []).erase
        (addrOf h.blocks i))).length = 10 := by simp [hlen10]
  have hplace : place h i asize =
      (if 2 * DSIZE ≤ (h.blocks.getD i dBlk).size - asize then
        insert_list
          { h with
            freeLists := h.freeLists.set (classify (h.blocks.getD i dBlk).size)
              ((h.freeLists.getD (classify (h.blocks.getD i dBlk).size) []).erase
                (addrOf h.blocks i)),
            blocks := h.blocks.take i ++
              [⟨asize, true, (h.blocks.getD i dBlk).prevAlloc⟩,
               ⟨(h.blocks.getD i dBlk).size - asize, false, true⟩] ++
              h.blocks.drop (i + 1) }
          (addrOf (h.blocks.take i ++
              [⟨asize, true, (h.blocks.getD i dBlk).prevAlloc⟩,
               ⟨(h.blocks.getD i dBlk).size - asize, false, true⟩] ++
              h.blocks.drop (i + 1)) (i + 1)) ((h.blocks.getD i dBlk).size - asize)
      else
        setPrevAllocNext
          { h with
            freeLists := h.freeLists.set (classify (h.blocks.getD i dBlk).size)
              ((h.freeLists.getD (classify (h.blocks.getD i dBlk).size) []).erase
                (addrOf h.blocks i)),
            blocks := h.blocks.set i
              ⟨(h.blocks.getD i dBlk).size, true, (h.blocks.getD i dBlk).prevAlloc⟩ }
          i true) := rfl
  have haddr2 : addrOf (h.blocks.take i ++
      [⟨asize, true, (h.blocks.getD i dBlk).prevAlloc⟩,
       ⟨(h.blocks.getD i dBlk).size - asize, false, true⟩] ++
      h.blocks.drop (i + 1)) (i + 1) = addrOf h.blocks i + asize := by
    rw [List.append_assoc]
    have e := addrOf_append_right (h.blocks.take i)
      ([⟨asize, true, (h.blocks.getD i dBlk).prevAlloc⟩,
        ⟨(h.blocks.getD i dBlk).size - asize, false, true⟩] ++ h.blocks.drop (i + 1)) 1
    rw [hT] at e
    rw [e, sizeSum_take _ _ (le_of_lt hi)]
    congr 1
  refine ⟨?_, ?_, ?_⟩
  · intro c hc
    rw [hplace]
    by_cases hsplit : 2 * DSIZE ≤ (h.blocks.getD i dBlk).size - asize
    · rw [if_pos hsplit]
      simp only [insert_list, size2ptr]
      intro hmem
      by_cases hcc2 : c = classify ((h.blocks.getD i dBlk).size - asize)
      · subst hcc2
        rw [getD_set_eq _ _ _ _ (by rw [hFL1len]; exact classify_lt_10 _)] at hmem
        rcases List.mem_cons.mp hmem with he | hin
        · rw [haddr2] at he
          omega
        · exact hAi_notin_FL1 _ (classify_lt_10 _) hin
      · rw [getD_set_ne _ _ _ _ _ (fun e => hcc2 e.symm)] at hmem
        exact hAi_notin_FL1 c hc hmem
    · rw [if_neg hsplit, freeLists_setPrevAllocNext]
      exact hAi_notin_FL1 c hc
  · intro hsplit
    rw [hplace, if_pos hsplit]
    refine ⟨rfl, ?_, ?_, ?_⟩
    · rw [List.append_assoc]
      have e := getD_append_right (h.blocks.take i)
        ([⟨asize, true, (h.blocks.getD i dBlk).prevAlloc⟩,
          ⟨(h.blocks.getD i dBlk).size - asize, false, true⟩] ++ h.blocks.drop (i + 1)) 0
      rw [hT] at e
      simpa using e
    · rw [List.append_assoc]
      have e := getD_append_right (h.blocks.take i)
        ([⟨asize, true, (h.blocks.getD i dBlk).prevAlloc⟩,
          ⟨(h.blocks.getD i dBlk).size - asize, false, true⟩] ++ h.blocks.drop (i + 1)) 1
      rw [hT] at e
      simpa using e
    · simp only [insert_list, size2ptr]
      rw [getD_set_eq _ _ _ _ (by rw [hFL1len]; exact classify_lt_10 _), haddr2]
      exact List.mem_cons_self _ _
  · intro hsplit
    rw [hplace, if_neg hsplit]
    constructor
    · rw [getD_setPrevAllocNext _ _ _ _ (by omega)]
      exact getD_set_eq _ _ _ _ hi
    · exact nextPrevBit_set _ _ _

/-- Witness for `place_spec`: placing 16 bytes into the initial 4096-byte
free chunk splits it and indexes the 4080-byte remainder. -/
theorem place_spec_witness :
    (place mm_init 0 16).blocks =
      mm_init.blocks.take 0 ++
        [⟨16, true, (mm_init.blocks.getD 0 dBlk).prevAlloc⟩,
         ⟨(mm_init.blocks.getD 0 dBlk).size - 16, false, true⟩] ++
        mm_init.blocks.drop 1 ∧
    addrOf mm_init.blocks 0 + 16 ∈
      (place mm_init 0 16).freeLists.getD
        (classify ((mm_init.blocks.getD 0 dBlk).size - 16)) [] :=
  ⟨((place_spec mm_init 0 16 (by decide) (by decide) (by decide) (by decide)
      (by decide)).2.1 (by decide)).1,
   ((place_spec mm_init 0 16 (by decide) (by decide) (by decide) (by decide)
      (by decide)).2.1 (by decide)).2.2.2⟩

/-! ### Pointwise characterizations of the invariant components -/

theorem getD_mem_of_lt (bs : List Blk) (j : ℕ) (h : j < bs.length) :
    bs.getD j dBlk ∈ bs := by
  rw [List.getD_eq_getElem bs dBlk h]
  exact bs.getElem_mem h

theorem sizesOK_iff (bs : List Blk) :
    (∀ b ∈ bs, 0 < b.size) ↔ ∀ j, j < bs.length → 0 < (bs.getD j dBlk).size := by
  constructor
  · intro h j hj
    exact h _ (getD_mem_of_lt bs j hj)
  · intro h b hb
    obtain ⟨j, hj, rfl⟩ := List.getElem_of_mem hb
    have := h j hj
    rwa [List.getD_eq_getElem bs dBlk hj] at this

theorem noAdjFree_iff (bs : List Blk) :
    noAdjFree bs ↔ ∀ j, j + 1 < bs.length →
      ((bs.getD j dBlk).alloc = true ∨ (bs.getD (j + 1) dBlk).alloc = true) := by
  unfold noAdjFree
  rw [List.chain'_iff_get]
  constructor
  · intro h j hj
    have := h j (by omega)
    rwa [List.get_eq_getElem, List.get_eq_getElem,
      ← List.getD_eq_getElem bs dBlk (by omega : j < bs.length),
      ← List.getD_eq_getElem bs dBlk (by omega : j + 1 < bs.length)] at this
  · intro h j hj
    have := h j (by omega)
    rwa [List.get_eq_getElem, List.get_eq_getElem,
      ← List.getD_eq_getElem bs dBlk (by omega : j < bs.length),
      ← List.getD_eq_getElem bs dBlk (by omega : j + 1 < bs.length)]

theorem bitsFromB_iff (p : Bool) (l : List Blk) :
    bitsFromB p l = true ↔ ∀ j, j < l.length →
      (l.getD j dBlk).prevAlloc =
        (if j = 0 then p else (l.getD (j - 1) dBlk).alloc) := by
  induction l generalizing p with
  | nil => simp [bitsFromB]
  | cons b t ih =>
    simp only [bitsFromB, Bool.and_eq_true, beq_iff_eq, ih]
    constructor
    · rintro ⟨h0, ht⟩ j hj
      cases j with
      | zero => simpa using h0
      | succ j =>
        cases j with
        | zero =>
          have := ht 0 (by simpa using hj)
          simpa using this
        | succ j =>
          have hj' : j + 1 + 1 ≤ t.length := by
            simp at hj
            omega
          have := ht (j + 1) (by omega)
          simpa using this
    · intro hall
      refine ⟨by simpa using hall 0 (by simp), ?_⟩
      intro j hj
      cases j with
      | zero =>
        have := hall 1 (by simp; omega)
        simpa using this
      | succ j =>
        have := hall (j + 2) (by simp; omega)
        simpa using this

theorem nextAllocB_eq_getD (bs : List Blk) (i : ℕ) :
    nextAllocB bs i =
      (if i + 1 < bs.length then (bs.getD (i + 1) dBlk).alloc else true) := by
  unfold nextAllocB
  split_ifs with hlt
  · rw [List.get?_eq_getElem? bs (i+1), List.getElem?_eq_getElem hlt,
      List.getD_eq_getElem?_getD, List.getElem?_eq_getElem hlt]
    rfl
  · rw [List.get?_eq_getElem? bs (i+1), List.getElem?_eq_none (by omega)]
    rfl

theorem endAlloc_eq_getD (p : Bool) (l : List Blk) :
    endAlloc p l = (if l.length = 0 then p else (l.getD (l.length - 1) dBlk).alloc) := by
  unfold endAlloc
  rw [List.getLast?_eq_getElem?]
  split_ifs with h0
  · rw [List.getElem?_eq_none (by omega)]
    rfl
  · rw [List.getElem?_eq_getElem (by omega : l.length - 1 < l.length),
      List.getD_eq_getElem?_getD, List.getElem?_eq_getElem (by omega : l.length - 1 < l.length)]
    rfl

theorem addrOf_eq_sizeSum_take (l : List Blk) (k : ℕ) :
    addrOf l k = sizeSum (l.take k) := by
  unfold addrOf sizeSum
  rw [List.map_take]

/-! ### Splice characterization: `take lo ++ M ++ drop (lo+d)` -/

theorem length_splice (bs M : List Blk) (lo d : ℕ) (hlo : lo ≤ bs.length) :
    (bs.take lo ++ M ++ bs.drop (lo + d)).length =
      lo + M.length + (bs.length - (lo + d)) := by
  simp [List.length_take, List.length_drop]
  omega

theorem getD_splice_left (bs M : List Blk) (lo d j : ℕ) (hj : j < lo)
    (hlo : lo ≤ bs.length) :
    (bs.take lo ++ M ++ bs.drop (lo + d)).getD j dBlk = bs.getD j dBlk := by
  rw [List.append_assoc,
    getD_append_left _ _ j (by simp [List.length_take]; omega), getD_take _ _ _ hj]

theorem getD_splice_mid (bs M : List Blk) (lo d m : ℕ) (hm : m < M.length)
    (hlo : lo ≤ bs.length) :
    (bs.take lo ++ M ++ bs.drop (lo + d)).getD (lo + m) dBlk = M.getD m dBlk := by
  rw [List.append_assoc]
  have hT : (bs.take lo).length = lo := by simp [List.length_take]; omega
  have e := getD_append_right (bs.take lo) (M ++ bs.drop (lo + d)) m
  rw [hT] at e
  rw [e, getD_append_left _ _ m hm]

theorem getD_splice_right (bs M : List Blk) (lo d k : ℕ) (hlo : lo ≤ bs.length) :
    (bs.take lo ++ M ++ bs.drop (lo + d)).getD (lo + M.length + k) dBlk =
      bs.getD (lo + d + k) dBlk := by
  rw [List.append_assoc]
  have hT : (bs.take lo).length = lo := by simp [List.length_take]; omega
  have e := getD_append_right (bs.take lo) (M ++ bs.drop (lo + d)) (M.length + k)
  rw [hT] at e
  rw [show lo + M.length + k = lo + (M.length + k) by omega, e,
    getD_append_right, getD_drop]

theorem addrOf_splice_left (bs M : List Blk) (lo d j : ℕ) (hj : j ≤ lo)
    (hlo : lo ≤ bs.length) :
    addrOf (bs.take lo ++ M ++ bs.drop (lo + d)) j = addrOf bs j := by
  rw [List.append_assoc,
    addrOf_append_left _ _ j (by simp [List.length_take]; omega), addrOf_take_eq _ _ _ hj]

theorem addrOf_splice_right (bs M : List Blk) (lo d k : ℕ) (hlo : lo ≤ bs.length)
    (hsum : addrOf bs lo + sizeSum M = addrOf bs (lo + d)) :
    addrOf (bs.take lo ++ M ++ bs.drop (lo + d)) (lo + M.length + k) =
      addrOf bs (lo + d + k) := by
  rw [List.append_assoc]
  have hT : (bs.take lo).length = lo := by simp [List.length_take]; omega
  have e := addrOf_append_right (bs.take lo) (M ++ bs.drop (lo + d)) (M.length + k)
  rw [hT] at e
  rw [show lo + M.length + k = lo + (M.length + k) by omega, e,
    addrOf_append_right, sizeSum_take _ _ hlo, addrOf_drop_add bs (lo + d) k, ← hsum]
  omega

theorem addrOf_splice_mid (bs M : List Blk) (lo d m : ℕ) (hm : m ≤ M.length)
    (hlo : lo ≤ bs.length) :
    addrOf (bs.take lo ++ M ++ bs.drop (lo + d)) (lo + m) =
      addrOf bs lo + sizeSum (M.take m) := by
  rw [List.append_assoc]
  have hT : (bs.take lo).length = lo := by simp [List.length_take]; omega
  have e := addrOf_append_right (bs.take lo) (M ++ bs.drop (lo + d)) m
  rw [hT] at e
  rw [e, addrOf_eq_sizeSum_take, List.take_append_of_le_length hm,
    sizeSum_take _ _ hlo]

theorem drop_eq_getD_cons (bs : List Blk) (k : ℕ) (hk : k < bs.length) :
    bs.drop k = bs.getD k dBlk :: bs.drop (k + 1) := by
  rw [List.drop_eq_getElem_cons hk, List.getD_eq_getElem bs dBlk hk]

theorem take_cons_drop (bs : List Blk) (k : ℕ) (hk : k < bs.length) :
    bs.take k ++ [bs.getD k dBlk] ++ bs.drop (k + 1) = bs := by
  rw [List.append_assoc, List.singleton_append, List.getD_eq_getElem bs dBlk hk,
    List.getElem_cons_drop, List.take_append_drop]

theorem sizeSum_singleton (b : Blk) : sizeSum [b] = b.size := by
  simp [sizeSum]

theorem sizeSum_pair (a b : Blk) : sizeSum [a, b] = a.size + b.size := by
  simp [sizeSum]

theorem sizeSum_triple (a b c : Blk) : sizeSum [a, b, c] = a.size + b.size + c.size := by
  simp [sizeSum]
  omega

theorem blk_eq_of (b : Blk) (s : ℕ) (al pa : Bool) (hs : b.size = s)
    (ha : b.alloc = al) (hp : b.prevAlloc = pa) : (⟨s, al, pa⟩ : Blk) = b := by
  cases b
  simp_all

/-- Uniform form of `coalesce`: the four cases collapse to one splice
replacing the consumed segment of blocks (`lo` up to `lo + d - 1`) by one
merged free block after the absorbed neighbours leave their lists; the
merged block is then inserted and the following header's `prev_alloc` bit
cleared.  `coalesce_eq_U` proves this equal to `coalesce` whenever the
block being coalesced is free, in range, and its `prev_alloc` bit is
honest enough that case 3/4 do not run at index 0. -/
def coalesceU (h : Heap) (i : ℕ) : Heap × ℕ :=
  let bs := h.blocks
  let p := (bs.getD i dBlk).prevAlloc
  let q := nextAllocB bs i
  let lo := if p then i else i - 1
  let d := (if q then i else i + 1) + 1 - lo
  let newsize := sizeSum ((bs.drop lo).take d)
  let h1 := if q then h else remove_list h (addrOf bs (i + 1)) ((bs.getD (i + 1) dBlk).size)
  let h2 := if p then h1 else remove_list h1 (addrOf bs (i - 1)) ((bs.getD (i - 1) dBlk).size)
  let h3 : Heap := { h2 with
    blocks := bs.take lo ++ [⟨newsize, false, (bs.getD lo dBlk).prevAlloc⟩] ++ bs.drop (lo + d) }
  let h4 := insert_list h3 (addrOf h3.blocks lo) newsize
  (setPrevAllocNext h4 lo false, lo)

theorem remove_list_blocks (h : Heap) (a s : ℕ) : (remove_list h a s).blocks = h.blocks := rfl

theorem remove_list_epi (h : Heap) (a s : ℕ) :
    (remove_list h a s).epiPrevAlloc = h.epiPrevAlloc := rfl

theorem coalesce_eq_U (h : Heap) (i : ℕ) (hi : i < h.blocks.length)
    (hfree : (h.blocks.getD i dBlk).alloc = false)
    (hp0 : (h.blocks.getD i dBlk).prevAlloc = false → 0 < i) :
    coalesce h i = coalesceU h i := by
  rcases hp : (h.blocks.getD i dBlk).prevAlloc with _ | _ <;>
    rcases hq : nextAllocB h.blocks i with _ | _
  · -- case 4: prev free, next free
    have hip : 0 < i := hp0 hp
    have hin : i + 1 < h.blocks.length := by
      by_contra hc
      rw [nextAllocB_eq_getD, if_neg hc] at hq
      cases hq
    have hseg : (h.blocks.drop (i - 1)).take 3 =
        [h.blocks.getD (i - 1) dBlk, h.blocks.getD i dBlk, h.blocks.getD (i + 1) dBlk] := by
      rw [drop_eq_getD_cons _ _ (by omega), show i - 1 + 1 = i by omega,
        drop_eq_getD_cons _ _ hi, drop_eq_getD_cons _ _ hin]
      simp
    simp only [coalesceU, coalesce, hp, hq, Bool.and_self, if_true, Bool.true_and,
      Bool.and_true, Bool.not_true, Bool.false_and, Bool.and_false, Bool.not_false,
      if_false, Bool.false_and, cond_false, cond_true, Bool.false_eq_true, ite_false,
      ite_true]
    have hd2 : i + 1 + 1 - (i - 1) = 3 := by omega
    have hd3 : i - 1 + 3 = i + 2 := by omega
    rw [hd2, hd3, hseg, sizeSum_triple]
    simp only [remove_list_blocks]
    have hscomm : (h.blocks.getD (i - 1) dBlk).size + (h.blocks.getD i dBlk).size +
        (h.blocks.getD (i + 1) dBlk).size =
        (h.blocks.getD i dBlk).size + (h.blocks.getD (i - 1) dBlk).size +
        (h.blocks.getD (i + 1) dBlk).size := by omega
    rw [hscomm]
  · -- case 3: prev free, next allocated
    have hip : 0 < i := hp0 hp
    have hseg : (h.blocks.drop (i - 1)).take 2 =
        [h.blocks.getD (i - 1) dBlk, h.blocks.getD i dBlk] := by
      rw [drop_eq_getD_cons _ _ (by omega), show i - 1 + 1 = i by omega,
        drop_eq_getD_cons _ _ hi]
      simp
    simp only [coalesceU, coalesce, hp, hq, Bool.and_self, if_true, Bool.true_and,
      Bool.and_true, Bool.not_true, Bool.false_and, Bool.and_false, Bool.not_false,
      if_false, cond_false, cond_true, Bool.false_eq_true, ite_false, ite_true]
    have hd2 : i + 1 - (i - 1) = 2 := by omega
    have hd3 : i - 1 + 2 = i + 1 := by omega
    rw [hd2, hd3, hseg, sizeSum_pair]
    simp only [remove_list_blocks]
    have hcomm : (h.blocks.getD (i - 1) dBlk).size + (h.blocks.getD i dBlk).size =
        (h.blocks.getD i dBlk).size + (h.blocks.getD (i - 1) dBlk).size := by omega
    rw [hcomm]
  · -- case 2: prev allocated, next free
    have hin : i + 1 < h.blocks.length := by
      by_contra hc
      rw [nextAllocB_eq_getD, if_neg hc] at hq
      cases hq
    have hseg : (h.blocks.drop i).take 2 =
        [h.blocks.getD i dBlk, h.blocks.getD (i + 1) dBlk] := by
      rw [drop_eq_getD_cons _ _ hi, drop_eq_getD_cons _ _ hin]
      simp
    simp only [coalesceU, coalesce, hp, hq, Bool.and_self, if_true, Bool.true_and,
      Bool.and_true, Bool.not_true, Bool.false_and, Bool.and_false, Bool.not_false,
      if_false, cond_false, cond_true, Bool.false_eq_true, ite_false, ite_true]
    have hd2 : i + 1 + 1 - i = 2 := by omega
    rw [hd2, hseg, sizeSum_pair]
    simp only [remove_list_blocks]
  · -- case 1: both neighbours allocated
    have hseg : (h.blocks.drop i).take 1 = [h.blocks.getD i dBlk] := by
      rw [drop_eq_getD_cons _ _ hi]
      simp
    simp only [coalesceU, coalesce, hp, hq, Bool.and_self, if_true, Bool.true_and,
      Bool.and_true, Bool.not_true, Bool.false_and, Bool.and_false]
    have hd2 : i + 1 - i = 1 := by omega
    rw [hd2, hseg, sizeSum_singleton,
      blk_eq_of (h.blocks.getD i dBlk) _ false true rfl hfree hp,
      take_cons_drop _ _ hi]

/-- The common tail of all four `coalesce` cases: splice the merged free
block over positions `lo..lo+d-1`, install the already-updated free lists
`FL2`, insert the merged block, and clear the following header's
`prev_alloc` bit. -/
def mergeHeap (h : Heap) (lo d : ℕ) (FL2 : List (List ℕ)) : Heap × ℕ :=
  let bs := h.blocks
  let newsize := sizeSum ((bs.drop lo).take d)
  let S := bs.take lo ++ [⟨newsize, false, (bs.getD lo dBlk).prevAlloc⟩] ++ bs.drop (lo + d)
  let h3 : Heap := { blocks := S, freeLists := FL2, epiPrevAlloc := h.epiPrevAlloc }
  (setPrevAllocNext (insert_list h3 (addrOf S lo) newsize) lo false, lo)

theorem coalesceU_eq_mergeHeap (h : Heap) (i : ℕ) :
    coalesceU h i =
      mergeHeap h
        (if (h.blocks.getD i dBlk).prevAlloc then i else i - 1)
        ((if nextAllocB h.blocks i then i else i + 1) + 1 -
          (if (h.blocks.getD i dBlk).prevAlloc then i else i - 1))
        ((if (h.blocks.getD i dBlk).prevAlloc then
            (if nextAllocB h.blocks i then h
             else remove_list h (addrOf h.blocks (i + 1)) ((h.blocks.getD (i + 1) dBlk).size))
          else
            remove_list
              (if nextAllocB h.blocks i then h
               else remove_list h (addrOf h.blocks (i + 1)) ((h.blocks.getD (i + 1) dBlk).size))
              (addrOf h.blocks (i - 1)) ((h.blocks.getD (i - 1) dBlk).size)).freeLists) := by
  rcases hp : (h.blocks.getD i dBlk).prevAlloc with _ | _ <;>
    rcases hq : nextAllocB h.blocks i with _ | _ <;>
      simp only [coalesceU, mergeHeap, hp, hq, if_true, if_false, Bool.false_eq_true,
        ite_true, ite_false] <;> rfl

theorem map_size_set_withPrevBit (bs : List Blk) (k : ℕ) (v : Bool) :
    (bs.set k (withPrevBit (bs.getD k dBlk) v)).map Blk.size = bs.map Blk.size := by
  apply List.ext_getElem?
  intro j
  by_cases hjk : j = k
  · subst hjk
    by_cases hj : j < bs.length
    · rw [List.getElem?_map, List.getElem?_map, List.getElem?_set_self (by simpa using hj),
        List.getElem?_eq_getElem hj]
      simp [withPrevBit, List.getD_eq_getElem?_getD, List.getElem?_eq_getElem hj]
    · have h1 : (bs.set j (withPrevBit (bs.getD j dBlk) v)).length ≤ j := by
        simp
        omega
      have h2 : bs.length ≤ j := by omega
      rw [List.getElem?_map, List.getElem?_map, List.getElem?_eq_none h1,
        List.getElem?_eq_none h2]
  · rw [List.getElem?_map, List.getElem?_map, List.getElem?_set_ne (fun e => hjk e.symm)]

theorem addrOf_setPrevAllocNext (h : Heap) (i : ℕ) (v : Bool) (j : ℕ) :
    addrOf (setPrevAllocNext h i v).blocks j = addrOf h.blocks j := by
  unfold setPrevAllocNext
  split_ifs with hc
  · show addrOf (h.blocks.set (i + 1) (withPrevBit (h.blocks.getD (i + 1) dBlk) v)) j =
      addrOf h.blocks j
    unfold addrOf
    rw [map_size_set_withPrevBit]
  · rfl

theorem alloc_getD_setPrevAllocNext (h : Heap) (i : ℕ) (v : Bool) (j : ℕ) :
    ((setPrevAllocNext h i v).blocks.getD j dBlk).alloc = (h.blocks.getD j dBlk).alloc := by
  unfold setPrevAllocNext
  split_ifs with hc
  · by_cases hj : j = i + 1
    · rw [hj]
      show (List.getD (h.blocks.set (i + 1) (withPrevBit (h.blocks.getD (i + 1) dBlk) v)) (i + 1) dBlk).alloc =
        (h.blocks.getD (i + 1) dBlk).alloc
      rw [getD_set_eq _ _ _ _ hc]
      rfl
    · show (List.getD (h.blocks.set (i + 1) (withPrevBit (h.blocks.getD (i + 1) dBlk) v)) j dBlk).alloc = _
      rw [getD_set_ne _ _ _ _ _ (fun e => hj e.symm)]
  · rfl

theorem size_getD_setPrevAllocNext (h : Heap) (i : ℕ) (v : Bool) (j : ℕ) :
    ((setPrevAllocNext h i v).blocks.getD j dBlk).size = (h.blocks.getD j dBlk).size := by
  unfold setPrevAllocNext
  split_ifs with hc
  · by_cases hj : j = i + 1
    · rw [hj]
      show (List.getD (h.blocks.set (i + 1) (withPrevBit (h.blocks.getD (i + 1) dBlk) v)) (i + 1) dBlk).size =
        (h.blocks.getD (i + 1) dBlk).size
      rw [getD_set_eq _ _ _ _ hc]
      rfl
    · show (List.getD (h.blocks.set (i + 1) (withPrevBit (h.blocks.getD (i + 1) dBlk) v)) j dBlk).size = _
      rw [getD_set_ne _ _ _ _ _ (fun e => hj e.symm)]
  · rfl

theorem bit_getD_setPrevAllocNext_at (h : Heap) (i : ℕ) (v : Bool)
    (hlt : i + 1 < h.blocks.length) :
    ((setPrevAllocNext h i v).blocks.getD (i + 1) dBlk).prevAlloc = v := by
  unfold setPrevAllocNext
  rw [if_pos hlt]
  show (List.getD (h.blocks.set (i + 1) (withPrevBit (h.blocks.getD (i + 1) dBlk) v)) (i + 1) dBlk).prevAlloc = v
  rw [getD_set_eq _ _ _ _ hlt]
  rfl

theorem epi_setPrevAllocNext (h : Heap) (i : ℕ) (v : Bool) :
    (setPrevAllocNext h i v).epiPrevAlloc =
      (if i + 1 < h.blocks.length then h.epiPrevAlloc else v) := by
  unfold setPrevAllocNext
  split_ifs <;> rfl

theorem mergeHeap_core (h : Heap) (lo d : ℕ) (FL2 : List (List ℕ))
    (hld : lo + d ≤ h.blocks.length) (hd0 : 0 < d)
    (hsizes : ∀ b ∈ h.blocks, 0 < b.size)
    (hFL2len : FL2.length = 10)
    (hFL2nodup : ∀ c, c < 10 → (FL2.getD c []).Nodup)
    (hbefore : 0 < lo → (h.blocks.getD (lo - 1) dBlk).alloc = true)
    (hafter : lo + d < h.blocks.length → (h.blocks.getD (lo + d) dBlk).alloc = true)
    (houtside : ∀ j, j + 1 < h.blocks.length → (j + 1 < lo ∨ lo + d ≤ j) →
      ((h.blocks.getD j dBlk).alloc = true ∨ (h.blocks.getD (j + 1) dBlk).alloc = true))
    (hbitsout : ∀ j, j < h.blocks.length → (j < lo ∨ lo + d < j) →
      (h.blocks.getD j dBlk).prevAlloc =
        (if j = 0 then true else (h.blocks.getD (j - 1) dBlk).alloc))
    (hbitlo : (h.blocks.getD lo dBlk).prevAlloc =
      (if lo = 0 then true else (h.blocks.getD (lo - 1) dBlk).alloc))
    (hepi : lo + d < h.blocks.length → h.epiPrevAlloc = endAlloc true h.blocks)
    (hlistedFL2 : ∀ c, c < 10 → ∀ a ∈ FL2.getD c [],
      ∃ j, (j < lo ∨ (lo + d ≤ j ∧ j < h.blocks.length)) ∧ addrOf h.blocks j = a ∧
        (h.blocks.getD j dBlk).alloc = false ∧ classify (h.blocks.getD j dBlk).size = c)
    (hfreesFL2 : ∀ j, (j < lo ∨ (lo + d ≤ j ∧ j < h.blocks.length)) →
      (h.blocks.getD j dBlk).alloc = false →
      addrOf h.blocks j ∈ FL2.getD (classify (h.blocks.getD j dBlk).size) [])
    (hA0 : ∀ c, c < 10 → addrOf h.blocks lo ∉ FL2.getD c []) :
    InvH (mergeHeap h lo d FL2).1 ∧
    (mergeHeap h lo d FL2).2 = lo ∧
    lo < (mergeHeap h lo d FL2).1.blocks.length ∧
    addrOf (mergeHeap h lo d FL2).1.blocks lo = addrOf h.blocks lo ∧
    ((mergeHeap h lo d FL2).1.blocks.getD lo dBlk).alloc = false ∧
    ((mergeHeap h lo d FL2).1.blocks.getD lo dBlk).size =
      sizeSum ((h.blocks.drop lo).take d) ∧
    nextAllocB (mergeHeap h lo d FL2).1.blocks lo = true ∧
    addrOf h.blocks lo ∈ (mergeHeap h lo d FL2).1.freeLists.getD
      (classify (sizeSum ((h.blocks.drop lo).take d))) [] ∧
    ((mergeHeap h lo d FL2).1.freeLists.getD
      (classify (sizeSum ((h.blocks.drop lo).take d))) []).count (addrOf h.blocks lo) = 1 ∧
    (∀ c, c < 10 → c ≠ classify (sizeSum ((h.blocks.drop lo).take d)) →
      addrOf h.blocks lo ∉ (mergeHeap h lo d FL2).1.freeLists.getD c []) ∧
    (∀ a, (∀ c, c < 10 → a ∉ FL2.getD c []) → a ≠ addrOf h.blocks lo →
      ∀ c, c < 10 → a ∉ (mergeHeap h lo d FL2).1.freeLists.getD c []) := by
  have hlo : lo < h.blocks.length := by omega
  have hlole : lo ≤ h.blocks.length := by omega
  -- the merged block and the spliced block list
  have hsum : addrOf h.blocks lo + sizeSum ((h.blocks.drop lo).take d) =
      addrOf h.blocks (lo + d) := by
    rw [← addrOf_eq_sizeSum_take, ← addrOf_drop_add]
  have hnewpos : 0 < sizeSum ((h.blocks.drop lo).take d) := by
    have := addrOf_lt_addrOf h.blocks hsizes lo (lo + d) (by omega) hld
    omega
  have hsumNB : addrOf h.blocks lo +
      sizeSum [(⟨sizeSum ((h.blocks.drop lo).take d), false,
        (h.blocks.getD lo dBlk).prevAlloc⟩ : Blk)] = addrOf h.blocks (lo + d) := by
    rw [sizeSum_singleton]
    exact hsum
  have hSlen : (h.blocks.take lo ++
      [(⟨sizeSum ((h.blocks.drop lo).take d), false,
        (h.blocks.getD lo dBlk).prevAlloc⟩ : Blk)] ++ h.blocks.drop (lo + d)).length =
      lo + 1 + (h.blocks.length - (lo + d)) := by
    rw [length_splice _ _ _ _ hlole]
    rfl
  have hSleft : ∀ j, j < lo →
      (h.blocks.take lo ++
        [(⟨sizeSum ((h.blocks.drop lo).take d), false,
          (h.blocks.getD lo dBlk).prevAlloc⟩ : Blk)] ++ h.blocks.drop (lo + d)).getD j dBlk =
      h.blocks.getD j dBlk :=
    fun j hj => getD_splice_left _ _ _ _ _ hj hlole
  have hSlo : (h.blocks.take lo ++
      [(⟨sizeSum ((h.blocks.drop lo).take d), false,
        (h.blocks.getD lo dBlk).prevAlloc⟩ : Blk)] ++ h.blocks.drop (lo + d)).getD lo dBlk =
      ⟨sizeSum ((h.blocks.drop lo).take d), false, (h.blocks.getD lo dBlk).prevAlloc⟩ := by
    have := getD_splice_mid h.blocks
      [(⟨sizeSum ((h.blocks.drop lo).take d), false,
        (h.blocks.getD lo dBlk).prevAlloc⟩ : Blk)] lo d 0 (by simp) hlole
    simpa using this
  have hSright : ∀ k, (h.blocks.take lo ++
      [(⟨sizeSum ((h.blocks.drop lo).take d), false,
        (h.blocks.getD lo dBlk).prevAlloc⟩ : Blk)] ++ h.blocks.drop (lo + d)).getD
        (lo + 1 + k) dBlk = h.blocks.getD (lo + d + k) dBlk := by
    intro k
    have := getD_splice_right h.blocks
      [(⟨sizeSum ((h.blocks.drop lo).take d), false,
        (h.blocks.getD lo dBlk).prevAlloc⟩ : Blk)] lo d k hlole
    simpa using this
  have hSaddrL : ∀ j, j ≤ lo →
      addrOf (h.blocks.take lo ++
        [(⟨sizeSum ((h.blocks.drop lo).take d), false,
          (h.blocks.getD lo dBlk).prevAlloc⟩ : Blk)] ++ h.blocks.drop (lo + d)) j =
      addrOf h.blocks j :=
    fun j hj => addrOf_splice_left _ _ _ _ _ hj hlole
  have hSaddrR : ∀ k, addrOf (h.blocks.take lo ++
      [(⟨sizeSum ((h.blocks.drop lo).take d), false,
        (h.blocks.getD lo dBlk).prevAlloc⟩ : Blk)] ++ h.blocks.drop (lo + d))
        (lo + 1 + k) = addrOf h.blocks (lo + d + k) := by
    intro k
    have := addrOf_splice_right h.blocks
      [(⟨sizeSum ((h.blocks.drop lo).take d), false,
        (h.blocks.getD lo dBlk).prevAlloc⟩ : Blk)] lo d k hlole hsumNB
    simpa using this
  set ns := sizeSum ((h.blocks.drop lo).take d) with hns
  set NB : Blk := ⟨ns, false, (h.blocks.getD lo dBlk).prevAlloc⟩ with hNB
  set S := h.blocks.take lo ++ [NB] ++ h.blocks.drop (lo + d) with hSdef
  set A0 := addrOf h.blocks lo with hA0def
  set cnew := classify ns with hcnewdef
  have hA0S : addrOf S lo = A0 := hSaddrL lo (le_refl lo)
  have hcnew10 : cnew < 10 := classify_lt_10 _
  have hM : mergeHeap h lo d FL2 =
      (setPrevAllocNext
        ⟨S, FL2.set cnew (addrOf S lo :: FL2.getD cnew []), h.epiPrevAlloc⟩ lo false, lo) := rfl
  set H4 : Heap := ⟨S, FL2.set cnew (addrOf S lo :: FL2.getD cnew []), h.epiPrevAlloc⟩ with hH4
  have hFalloc : ∀ j, (((setPrevAllocNext H4 lo false).blocks.getD j dBlk).alloc) =
      ((S.getD j dBlk).alloc) := fun j => alloc_getD_setPrevAllocNext H4 lo false j
  have hFsize : ∀ j, (((setPrevAllocNext H4 lo false).blocks.getD j dBlk).size) =
      ((S.getD j dBlk).size) := fun j => size_getD_setPrevAllocNext H4 lo false j
  have hFbit : ∀ j, j ≠ lo + 1 →
      (((setPrevAllocNext H4 lo false).blocks.getD j dBlk).prevAlloc) =
      ((S.getD j dBlk).prevAlloc) := fun j hj => by
    rw [getD_setPrevAllocNext H4 lo false j hj]
  have hFbitlo1 : lo + 1 < S.length →
      (((setPrevAllocNext H4 lo false).blocks.getD (lo + 1) dBlk).prevAlloc) = false :=
    fun hlt => bit_getD_setPrevAllocNext_at H4 lo false hlt
  have hFaddr : ∀ j, addrOf (setPrevAllocNext H4 lo false).blocks j = addrOf S j :=
    fun j => addrOf_setPrevAllocNext H4 lo false j
  have hFlen : (setPrevAllocNext H4 lo false).blocks.length = S.length :=
    length_setPrevAllocNext H4 lo false
  have hFfl : (setPrevAllocNext H4 lo false).freeLists = H4.freeLists :=
    freeLists_setPrevAllocNext H4 lo false
  have hFepi : (setPrevAllocNext H4 lo false).epiPrevAlloc =
      (if lo + 1 < S.length then h.epiPrevAlloc else false) :=
    epi_setPrevAllocNext H4 lo false
  have hmemFLn : ∀ c, c < 10 → ∀ a,
      (a ∈ H4.freeLists.getD c [] ↔ ((c = cnew ∧ a = A0) ∨ a ∈ FL2.getD c [])) := by
    intro c hc a
    show a ∈ (FL2.set cnew (addrOf S lo :: FL2.getD cnew [])).getD c [] ↔ _
    by_cases hcc : c = cnew
    · rw [hcc, getD_set_eq _ _ _ _ (by rw [hFL2len]; exact hcnew10), hA0S]
      simp [hcc]
    · rw [getD_set_ne _ _ _ _ _ (fun e => hcc e.symm)]
      simp [hcc]
  have hidx : ∀ j, j < S.length →
      j < lo ∨ j = lo ∨ (∃ k, j = lo + 1 + k ∧ lo + d + k < h.blocks.length) := by
    intro j hj
    rw [hSlen] at hj
    by_cases h1 : j < lo
    · exact Or.inl h1
    · by_cases h2 : j = lo
      · exact Or.inr (Or.inl h2)
      · exact Or.inr (Or.inr ⟨j - lo - 1, by omega, by omega⟩)
  have hsizesPt := (sizesOK_iff h.blocks).mp hsizes
  have hnodupF : ∀ c, c < 10 →
      ((setPrevAllocNext H4 lo false).freeLists.getD c []).Nodup := by
    intro c hc
    rw [hFfl]
    show ((FL2.set cnew (addrOf S lo :: FL2.getD cnew [])).getD c []).Nodup
    by_cases hcc : c = cnew
    · rw [hcc, getD_set_eq _ _ _ _ (by rw [hFL2len]; exact hcnew10), hA0S]
      exact List.nodup_cons.mpr ⟨hA0 cnew hcnew10, hFL2nodup cnew hcnew10⟩
    · rw [getD_set_ne _ _ _ _ _ (fun e => hcc e.symm)]
      exact hFL2nodup c hc
  rw [hM]
  refine ⟨?_, rfl, ?_, ?_, ?_, ?_, ?_, ?_, ?_, ?_, ?_⟩
  · -- the full heap invariant of the merged heap
    refine ⟨?_, ?_, ?_, ?_, ?_, ?_, ?_, ?_⟩
    · rw [hFfl]
      show (FL2.set cnew (addrOf S lo :: FL2.getD cnew [])).length = 10
      rw [List.length_set]
      exact hFL2len
    · rw [sizesOK_iff]
      intro j hj
      rw [hFlen] at hj
      rw [hFsize]
      rcases hidx j hj with h1 | h1 | ⟨k, rfl, hk⟩
      · rw [hSleft j h1]
        exact hsizesPt j (by omega)
      · rw [h1, hSlo]
        exact hnewpos
      · rw [hSright k]
        exact hsizesPt _ hk
    · rw [List.set_eq_of_length_le (le_refl _), noAdjFree_iff]
      intro j hj
      rw [hFlen] at hj
      rw [hFalloc, hFalloc]
      by_cases hjlo : j + 1 < lo
      · rw [hSleft j (by omega), hSleft (j + 1) hjlo]
        exact houtside j (by omega) (Or.inl hjlo)
      · by_cases hjlo2 : j + 1 = lo
        · rw [hSleft j (by omega)]
          left
          rw [show j = lo - 1 by omega]
          exact hbefore (by omega)
        · by_cases hjeq : j = lo
          · right
            rw [hjeq]
            have he : S.getD (lo + 1) dBlk = h.blocks.getD (lo + d) dBlk := by
              have := hSright 0
              simpa using this
            rw [he]
            apply hafter
            rw [hSlen] at hj
            omega
          · obtain ⟨k, rfl⟩ : ∃ k, j = lo + 1 + k := ⟨j - lo - 1, by omega⟩
            rw [hSright k, show lo + 1 + k + 1 = lo + 1 + (k + 1) by omega,
              hSright (k + 1),
              show lo + d + (k + 1) = lo + d + k + 1 by omega]
            rw [hSlen] at hj
            exact houtside (lo + d + k) (by omega) (Or.inr (by omega))
    · rw [List.set_eq_of_length_le (le_refl _)]
      rw [bitsFromB_iff]
      intro j hj
      rw [hFlen] at hj
      rcases hidx j hj with h1 | h1 | ⟨k, rfl, hk⟩
      · -- j < lo : untouched position, and its predecessor is also untouched
        rw [hFbit j (by omega), hSleft j h1]
        rw [hbitsout j (by omega) (Or.inl h1)]
        by_cases hj0 : j = 0
        · simp [hj0]
        · rw [if_neg hj0, if_neg hj0, hFalloc, hSleft (j - 1) (by omega)]
      · -- j = lo : the merged block's bit
        rw [h1, hFbit lo (by omega), hSlo]
        show NB.prevAlloc = _
        rw [show NB.prevAlloc = (h.blocks.getD lo dBlk).prevAlloc from rfl, hbitlo]
        by_cases hl0 : lo = 0
        · simp [hl0]
        · rw [if_neg hl0, if_neg hl0, hFalloc, hSleft (lo - 1) (by omega)]
      · -- j = lo + 1 + k
        cases k with
        | zero =>
          -- position lo+1 : bit freshly cleared; predecessor is the merged free block
          have hlt : lo + 1 < S.length := by
            rw [hSlen]
            omega
          have := hFbitlo1 hlt
          rw [show lo + 1 + 0 = lo + 1 by omega] at *
          rw [this, if_neg (by omega : ¬ lo + 1 = 0),
            show lo + 1 - 1 = lo by omega, hFalloc, hSlo]
        | succ k =>
          -- deeper positions : untouched, predecessor untouched
          rw [hFbit _ (by omega), hSright (k + 1)]
          rw [hbitsout (lo + d + (k + 1)) (by omega) (Or.inr (by omega)),
            if_neg (by omega : ¬ lo + d + (k + 1) = 0),
            if_neg (by omega : ¬ lo + 1 + (k + 1) = 0)]
          rw [hFalloc, show lo + 1 + (k + 1) - 1 = lo + 1 + k by omega, hSright k,
            show lo + d + (k + 1) - 1 = lo + d + k by omega]
    · -- epilogue bit
      intro _
      rw [hFepi, endAlloc_eq_getD]
      have hlen0 : ¬ (setPrevAllocNext H4 lo false).blocks.length = 0 := by
        rw [hFlen, hSlen]
        omega
      rw [if_neg hlen0]
      by_cases hlt : lo + 1 < S.length
      · rw [if_pos hlt, hepi (by rw [hSlen] at hlt; omega), endAlloc_eq_getD,
          if_neg (by omega : ¬ h.blocks.length = 0)]
        rw [hFalloc, hFlen, hSlen,
          show lo + 1 + (h.blocks.length - (lo + d)) - 1 =
            lo + 1 + (h.blocks.length - (lo + d) - 1) by rw [hSlen] at hlt; omega,
          hSright (h.blocks.length - (lo + d) - 1),
          show lo + d + (h.blocks.length - (lo + d) - 1) = h.blocks.length - 1 by
            rw [hSlen] at hlt; omega]
      · rw [if_neg hlt, hFalloc, hFlen]
        have hleq : S.length = lo + 1 := by
          rw [hSlen] at hlt ⊢
          omega
        rw [hleq, show lo + 1 - 1 = lo by omega, hSlo]
    · exact hnodupF
    · -- every listed offset is a free block of the right class
      intro c hc a hmem
      rw [hFfl] at hmem
      rcases (hmemFLn c hc a).mp hmem with ⟨hceq, haeq⟩ | hin
      · refine ⟨lo, ?_, ?_, ?_, ?_, ?_⟩
        · rw [hFlen, hSlen]
          omega
        · rw [hFlen, hSlen]
          omega
        · rw [hFaddr, hA0S, haeq]
        · rw [hFalloc, hSlo]
        · rw [hFsize, hSlo]
          show classify ns = c
          rw [← hcnewdef]
          exact hceq.symm
      · obtain ⟨j, hjr, haddr, hal, hcl⟩ := hlistedFL2 c hc a hin
        rcases hjr with hjlt | ⟨hjge, hjn⟩
        · refine ⟨j, ?_, ?_, ?_, ?_, ?_⟩
          · rw [hFlen, hSlen]
            omega
          · rw [hFlen, hSlen]
            omega
          · rw [hFaddr, hSaddrL j (by omega), haddr]
          · rw [hFalloc, hSleft j hjlt]
            exact hal
          · rw [hFsize, hSleft j hjlt]
            exact hcl
        · refine ⟨lo + 1 + (j - (lo + d)), ?_, ?_, ?_, ?_, ?_⟩
          · rw [hFlen, hSlen]
            omega
          · rw [hFlen, hSlen]
            omega
          · rw [hFaddr, hSaddrR (j - (lo + d)),
              show lo + d + (j - (lo + d)) = j by omega, haddr]
          · rw [hFalloc, hSright (j - (lo + d)),
              show lo + d + (j - (lo + d)) = j by omega]
            exact hal
          · rw [hFsize, hSright (j - (lo + d)),
              show lo + d + (j - (lo + d)) = j by omega]
            exact hcl
    · -- every free block is listed under its class
      intro j hj _ hfreej
      rw [hFlen] at hj
      rw [hFfl]
      rw [hFalloc] at hfreej
      rcases hidx j hj with h1 | h1 | ⟨k, rfl, hk⟩
      · rw [hSleft j h1] at hfreej
        rw [hFaddr, hSaddrL j (by omega), hFsize, hSleft j h1]
        exact (hmemFLn _ (classify_lt_10 _) _).mpr
          (Or.inr (hfreesFL2 j (Or.inl h1) hfreej))
      · rw [h1, hFaddr, hA0S, hFsize, hSlo]
        exact (hmemFLn cnew hcnew10 A0).mpr (Or.inl ⟨rfl, rfl⟩)
      · rw [hSright k] at hfreej
        rw [hFaddr, hSaddrR k, hFsize, hSright k]
        exact (hmemFLn _ (classify_lt_10 _) _).mpr
          (Or.inr (hfreesFL2 (lo + d + k) (Or.inr ⟨by omega, hk⟩) hfreej))

  · rw [hFlen, hSlen]
    omega
  · rw [hFaddr, hA0S]
  · rw [hFalloc, hSlo]
  · rw [hFsize, hSlo]
  · rw [nextAllocB_eq_getD]
    by_cases hlt : lo + 1 < (setPrevAllocNext H4 lo false).blocks.length
    · rw [if_pos hlt, hFalloc]
      have he : S.getD (lo + 1) dBlk = h.blocks.getD (lo + d) dBlk := by
        have := hSright 0
        simpa using this
      rw [he]
      apply hafter
      rw [hFlen, hSlen] at hlt
      omega
    · rw [if_neg hlt]
  · rw [hFfl]
    exact (hmemFLn cnew hcnew10 A0).mpr (Or.inl ⟨rfl, rfl⟩)
  · rw [hFfl] at hnodupF ⊢
    exact List.count_eq_one_of_mem (hnodupF cnew hcnew10)
      ((hmemFLn cnew hcnew10 A0).mpr (Or.inl ⟨rfl, rfl⟩))
  · intro c hc hne
    rw [hFfl]
    intro hmem
    rcases (hmemFLn c hc A0).mp hmem with ⟨hceq, _⟩ | hin
    · exact hne hceq
    · exact hA0 c hc hin
  · intro a hout hne c hc
    rw [hFfl]
    intro hmem
    rcases (hmemFLn c hc a).mp hmem with ⟨_, haa⟩ | hin
    · exact hne haa
    · exact hout c hc hin




theorem length_remove_list (h : Heap) (b sz : ℕ) :
    (remove_list h b sz).freeLists.length = h.freeLists.length := by
  unfold remove_list
  simp

theorem nodup_remove_list (h : Heap) (b sz : ℕ)
    (hnd : ∀ c, c < 10 → (h.freeLists.getD c []).Nodup) :
    ∀ c, c < 10 → ((remove_list h b sz).freeLists.getD c []).Nodup := by
  intro c hc
  unfold remove_list size2ptr
  by_cases hcc : c = classify sz
  · by_cases hlen : classify sz < h.freeLists.length
    · rw [hcc, getD_set_eq _ _ _ _ hlen]
      exact (hnd _ (hcc ▸ hc)).erase b
    · rw [List.set_eq_of_length_le (by omega)]
      exact hnd c hc
  · rw [getD_set_ne _ _ _ _ _ (fun e => hcc e.symm)]
    exact hnd c hc

theorem mem_remove_list (h : Heap) (b sz : ℕ) (c : ℕ) (a : ℕ)
    (h10 : h.freeLists.length = 10) (hc : c < 10)
    (hnd : ∀ c', c' < 10 → (h.freeLists.getD c' []).Nodup)
    (honly : ∀ c', c' < 10 → b ∈ h.freeLists.getD c' [] → c' = classify sz) :
    a ∈ (remove_list h b sz).freeLists.getD c [] ↔
      (a ∈ h.freeLists.getD c [] ∧ a ≠ b) := by
  unfold remove_list size2ptr
  by_cases hcc : c = classify sz
  · rw [hcc, getD_set_eq _ _ _ _ (by rw [h10]; exact hcc ▸ hc)]
    rw [List.Nodup.mem_erase_iff (hnd _ (hcc ▸ hc))]
    tauto
  · rw [getD_set_ne _ _ _ _ _ (fun e => hcc e.symm)]
    constructor
    · intro hmem
      refine ⟨hmem, ?_⟩
      intro he
      subst he
      exact hcc (honly c hc hmem)
    · exact And.left

theorem coalesce_master (h : Heap) (i : ℕ) (hpre : CoalPre h i) :
    InvH (coalesce h i).1 ∧
    (coalesce h i).2 = (if (h.blocks.getD i dBlk).prevAlloc then i else i - 1) ∧
    (coalesce h i).2 < (coalesce h i).1.blocks.length ∧
    addrOf (coalesce h i).1.blocks (coalesce h i).2 =
      addrOf h.blocks (if (h.blocks.getD i dBlk).prevAlloc then i else i - 1) ∧
    ((coalesce h i).1.blocks.getD (coalesce h i).2 dBlk).alloc = false ∧
    ((coalesce h i).1.blocks.getD (coalesce h i).2 dBlk).size =
      (h.blocks.getD i dBlk).size +
        (if nextAllocB h.blocks i then 0 else (h.blocks.getD (i + 1) dBlk).size) +
        (if (h.blocks.getD i dBlk).prevAlloc then 0 else (h.blocks.getD (i - 1) dBlk).size) ∧
    nextAllocB (coalesce h i).1.blocks (coalesce h i).2 = true ∧
    addrOf h.blocks (if (h.blocks.getD i dBlk).prevAlloc then i else i - 1) ∈
      (coalesce h i).1.freeLists.getD
        (classify (((coalesce h i).1.blocks.getD (coalesce h i).2 dBlk).size)) [] ∧
    ((coalesce h i).1.freeLists.getD
        (classify (((coalesce h i).1.blocks.getD (coalesce h i).2 dBlk).size)) []).count
      (addrOf h.blocks (if (h.blocks.getD i dBlk).prevAlloc then i else i - 1)) = 1 ∧
    (∀ c, c < 10 → c ≠ classify (((coalesce h i).1.blocks.getD (coalesce h i).2 dBlk).size) →
      addrOf h.blocks (if (h.blocks.getD i dBlk).prevAlloc then i else i - 1) ∉
        (coalesce h i).1.freeLists.getD c []) ∧
    (nextAllocB h.blocks i = false → ∀ c, c < 10 →
      addrOf h.blocks (i + 1) ∉ (coalesce h i).1.freeLists.getD c []) := by
  obtain ⟨⟨h10, hsz, hnoadjX, hbitsX, hepiX, hnodup, hlisted, hfrees⟩, hi, hfree⟩ := hpre
  have hlenset : (h.blocks.set i (mkAlloc (h.blocks.getD i dBlk))).length = h.blocks.length := by
    simp
  -- pointwise consequences of the "i exempted" invariant
  have hnoadjPt : ∀ j, j + 1 < h.blocks.length → j ≠ i → j + 1 ≠ i →
      ((h.blocks.getD j dBlk).alloc = true ∨ (h.blocks.getD (j + 1) dBlk).alloc = true) := by
    intro j hj hji hj1i
    have := (noAdjFree_iff _).mp hnoadjX j (by rw [hlenset]; omega)
    rwa [getD_set_ne _ _ _ _ _ (fun e => hji e.symm),
      getD_set_ne _ _ _ _ _ (fun e => hj1i e.symm)] at this
  have hbitsPt := (bitsFromB_iff true _).mp hbitsX
  have hbit_i : (h.blocks.getD i dBlk).prevAlloc =
      (if i = 0 then true else (h.blocks.getD (i - 1) dBlk).alloc) := by
    have := hbitsPt i (by rw [hlenset]; omega)
    rw [getD_set_eq _ _ _ _ hi] at this
    by_cases h0 : i = 0
    · rw [if_pos h0] at this ⊢
      exact this
    · rw [if_neg h0] at this ⊢
      rwa [getD_set_ne _ _ _ _ _ (by omega)] at this
  have hbit_other : ∀ j, j < h.blocks.length → j ≠ i → j ≠ i + 1 →
      (h.blocks.getD j dBlk).prevAlloc =
        (if j = 0 then true else (h.blocks.getD (j - 1) dBlk).alloc) := by
    intro j hj hji hji1
    have := hbitsPt j (by rw [hlenset]; omega)
    rw [getD_set_ne _ _ _ _ _ (fun e => hji e.symm)] at this
    by_cases h0 : j = 0
    · rw [if_pos h0] at this ⊢
      exact this
    · rw [if_neg h0] at this ⊢
      rwa [getD_set_ne _ _ _ _ _ (by omega)] at this
  have honly : ∀ j0, j0 < h.blocks.length → j0 ≠ i → ∀ c, c < 10 →
      addrOf h.blocks j0 ∈ h.freeLists.getD c [] →
      c = classify ((h.blocks.getD j0 dBlk).size) := by
    intro j0 hj0 _ c hc hmem
    obtain ⟨j, hj, _, haddr, _, hcl⟩ := hlisted c hc _ hmem
    have := addrOf_inj h.blocks hsz (le_of_lt hj) (le_of_lt hj0) haddr
    subst this
    exact hcl.symm
  have hAi_not : ∀ c, c < 10 → addrOf h.blocks i ∉ h.freeLists.getD c [] := by
    intro c hc hmem
    obtain ⟨j, hj, hjne, haddr, _, _⟩ := hlisted c hc _ hmem
    exact hjne (addrOf_inj h.blocks hsz (le_of_lt hj) (le_of_lt hi) haddr)
  have hp0 : (h.blocks.getD i dBlk).prevAlloc = false → 0 < i := by
    intro hb
    by_contra hc
    rw [hbit_i, if_pos (by omega : i = 0)] at hb
    cases hb
  rcases hp : (h.blocks.getD i dBlk).prevAlloc with _ | _ <;>
    rcases hq : nextAllocB h.blocks i with _ | _
  · -- case 4 : both neighbours free
    have hip : 0 < i := hp0 hp
    have halm1 : (h.blocks.getD (i - 1) dBlk).alloc = false := by
      have hb := hbit_i
      rw [if_neg (by omega), hp] at hb
      exact hb.symm
    have hin : i + 1 < h.blocks.length := by
      by_contra hc
      rw [nextAllocB_eq_getD, if_neg hc] at hq
      cases hq
    have hal1 : (h.blocks.getD (i + 1) dBlk).alloc = false := by
      rw [nextAllocB_eq_getD, if_pos hin] at hq
      exact hq
    have honlyI1 : ∀ c, c < 10 → addrOf h.blocks (i + 1) ∈ h.freeLists.getD c [] →
        c = classify ((h.blocks.getD (i + 1) dBlk).size) :=
      fun c hc hm => honly (i + 1) hin (by omega) c hc hm
    have honlyIm1 : ∀ c, c < 10 → addrOf h.blocks (i - 1) ∈ h.freeLists.getD c [] →
        c = classify ((h.blocks.getD (i - 1) dBlk).size) :=
      fun c hc hm => honly (i - 1) (by omega) (by omega) c hc hm
    have h10R : (remove_list h (addrOf h.blocks (i + 1))
        ((h.blocks.getD (i + 1) dBlk).size)).freeLists.length = 10 := by
      rw [length_remove_list]
      exact h10
    have hndR := nodup_remove_list h (addrOf h.blocks (i + 1))
      ((h.blocks.getD (i + 1) dBlk).size) hnodup
    have honlyIm1R : ∀ c, c < 10 → addrOf h.blocks (i - 1) ∈
        (remove_list h (addrOf h.blocks (i + 1))
          ((h.blocks.getD (i + 1) dBlk).size)).freeLists.getD c [] →
        c = classify ((h.blocks.getD (i - 1) dBlk).size) := by
      intro c hc hm
      rw [mem_remove_list h _ _ c _ h10 hc hnodup honlyI1] at hm
      exact honlyIm1 c hc hm.1
    have hmemR2 : ∀ c, c < 10 → ∀ a,
        (a ∈ (remove_list (remove_list h (addrOf h.blocks (i + 1))
            ((h.blocks.getD (i + 1) dBlk).size)) (addrOf h.blocks (i - 1))
            ((h.blocks.getD (i - 1) dBlk).size)).freeLists.getD c [] ↔
          (a ∈ h.freeLists.getD c [] ∧ a ≠ addrOf h.blocks (i + 1) ∧
            a ≠ addrOf h.blocks (i - 1))) := by
      intro c hc a
      rw [mem_remove_list _ _ _ c a h10R hc hndR honlyIm1R,
        mem_remove_list h _ _ c a h10 hc hnodup honlyI1]
      tauto
    rw [coalesce_eq_U h i hi hfree hp0, coalesceU_eq_mergeHeap h i]
    simp only [hp, hq, if_true, ite_true, Bool.false_eq_true, if_false, ite_false]
    have hseg4 : (h.blocks.drop (i - 1)).take (i + 1 + 1 - (i - 1)) =
        [h.blocks.getD (i - 1) dBlk, h.blocks.getD i dBlk, h.blocks.getD (i + 1) dBlk] := by
      rw [show i + 1 + 1 - (i - 1) = 3 by omega, drop_eq_getD_cons _ _ (by omega),
        show i - 1 + 1 = i by omega, drop_eq_getD_cons _ _ hi, drop_eq_getD_cons _ _ hin]
      simp
    have hCORE := mergeHeap_core h (i - 1) (i + 1 + 1 - (i - 1))
      (remove_list (remove_list h (addrOf h.blocks (i + 1))
        ((h.blocks.getD (i + 1) dBlk).size)) (addrOf h.blocks (i - 1))
        ((h.blocks.getD (i - 1) dBlk).size)).freeLists
      (by omega) (by omega) hsz
      (by rw [length_remove_list]; exact h10R)
      (nodup_remove_list _ _ _ hndR)
      (by intro hlo
          rcases hnoadjPt (i - 2) (by omega) (by omega) (by omega) with hx | hx
          · rw [show i - 1 - 1 = i - 2 by omega]
            exact hx
          · rw [show i - 2 + 1 = i - 1 by omega, halm1] at hx
            cases hx)
      (by intro hlt
          rw [show i - 1 + (i + 1 + 1 - (i - 1)) = i + 2 by omega] at hlt ⊢
          rcases hnoadjPt (i + 1) (by omega) (by omega) (by omega) with hx | hx
          · rw [hal1] at hx
            cases hx
          · exact hx)
      (by intro j hj hout
          exact hnoadjPt j hj (by omega) (by omega))
      (by intro j hj hout
          exact hbit_other j hj (by omega) (by omega))
      (hbit_other (i - 1) (by omega) (by omega) (by omega))
      (by intro hlt
          exact hepiX (by omega))
      (by intro c hc a hmem
          rw [hmemR2 c hc a] at hmem
          obtain ⟨hmem', hne1, hnem1⟩ := hmem
          obtain ⟨j, hj, hjne, haddr, hal, hcl⟩ := hlisted c hc a hmem'
          have hj1 : j ≠ i + 1 := by
            intro e
            exact hne1 (by rw [← haddr, e])
          have hjm1 : j ≠ i - 1 := by
            intro e
            exact hnem1 (by rw [← haddr, e])
          exact ⟨j, by omega, haddr, hal, hcl⟩)
      (by intro j hjr hfr
          have hjn : j < h.blocks.length := by
            rcases hjr with hx | ⟨_, hx⟩
            · omega
            · exact hx
          rw [hmemR2 _ (classify_lt_10 _) _]
          refine ⟨hfrees j hjn (by omega) hfr, ?_, ?_⟩
          · intro e
            have := addrOf_inj h.blocks hsz (le_of_lt hjn) (by omega) e
            omega
          · intro e
            have := addrOf_inj h.blocks hsz (le_of_lt hjn) (by omega) e
            omega)
      (by intro c hc hmem
          rw [hmemR2 c hc _] at hmem
          exact hmem.2.2 rfl)
    refine ⟨hCORE.1, hCORE.2.1, hCORE.2.2.1, hCORE.2.2.2.1, hCORE.2.2.2.2.1, ?_,
      hCORE.2.2.2.2.2.2.1, ?_, ?_, ?_, ?_⟩
    · rw [hCORE.2.1, hCORE.2.2.2.2.2.1, hseg4, sizeSum_triple]
      omega
    · rw [hCORE.2.1, hCORE.2.2.2.2.2.1]
      exact hCORE.2.2.2.2.2.2.2.1
    · rw [hCORE.2.1, hCORE.2.2.2.2.2.1]
      exact hCORE.2.2.2.2.2.2.2.2.1
    · rw [hCORE.2.1, hCORE.2.2.2.2.2.1]
      exact hCORE.2.2.2.2.2.2.2.2.2.1
    · intro _ c hc
      refine hCORE.2.2.2.2.2.2.2.2.2.2 (addrOf h.blocks (i + 1)) ?_ ?_ c hc
      · intro c' hc' hm
        rw [hmemR2 c' hc' _] at hm
        exact hm.2.1 rfl
      · exact Nat.ne_of_gt (addrOf_lt_addrOf h.blocks hsz (i - 1) (i + 1) (by omega) (by omega))
  · -- case 3 : previous free, next allocated
    have hip : 0 < i := hp0 hp
    have halm1 : (h.blocks.getD (i - 1) dBlk).alloc = false := by
      have hb := hbit_i
      rw [if_neg (by omega), hp] at hb
      exact hb.symm
    have hq' : i + 1 < h.blocks.length → (h.blocks.getD (i + 1) dBlk).alloc = true := by
      intro hlt
      rw [nextAllocB_eq_getD, if_pos hlt] at hq
      exact hq
    have honlyIm1 : ∀ c, c < 10 → addrOf h.blocks (i - 1) ∈ h.freeLists.getD c [] →
        c = classify ((h.blocks.getD (i - 1) dBlk).size) :=
      fun c hc hm => honly (i - 1) (by omega) (by omega) c hc hm
    rw [coalesce_eq_U h i hi hfree hp0, coalesceU_eq_mergeHeap h i]
    simp only [hp, hq, if_true, ite_true, Bool.false_eq_true, if_false, ite_false]
    have hseg3 : (h.blocks.drop (i - 1)).take (i + 1 - (i - 1)) =
        [h.blocks.getD (i - 1) dBlk, h.blocks.getD i dBlk] := by
      rw [show i + 1 - (i - 1) = 2 by omega, drop_eq_getD_cons _ _ (by omega),
        show i - 1 + 1 = i by omega, drop_eq_getD_cons _ _ hi]
      simp
    have hCORE := mergeHeap_core h (i - 1) (i + 1 - (i - 1))
      (remove_list h (addrOf h.blocks (i - 1)) ((h.blocks.getD (i - 1) dBlk).size)).freeLists
      (by omega) (by omega) hsz
      (by rw [length_remove_list]; exact h10)
      (nodup_remove_list _ _ _ hnodup)
      (by intro hlo
          rcases hnoadjPt (i - 2) (by omega) (by omega) (by omega) with hx | hx
          · rw [show i - 1 - 1 = i - 2 by omega]
            exact hx
          · rw [show i - 2 + 1 = i - 1 by omega, halm1] at hx
            cases hx)
      (by intro hlt
          rw [show i - 1 + (i + 1 - (i - 1)) = i + 1 by omega] at hlt ⊢
          exact hq' hlt)
      (by intro j hj hout
          exact hnoadjPt j hj (by omega) (by omega))
      (by intro j hj hout
          exact hbit_other j hj (by omega) (by omega))
      (hbit_other (i - 1) (by omega) (by omega) (by omega))
      (by intro hlt
          exact hepiX (by omega))
      (by intro c hc a hmem
          rw [mem_remove_list h _ _ c a h10 hc hnodup honlyIm1] at hmem
          obtain ⟨hmem', hne⟩ := hmem
          obtain ⟨j, hj, hjne, haddr, hal, hcl⟩ := hlisted c hc a hmem'
          have hjm1 : j ≠ i - 1 := by
            intro e
            exact hne (by rw [← haddr, e])
          exact ⟨j, by omega, haddr, hal, hcl⟩)
      (by intro j hjr hfr
          have hjn : j < h.blocks.length := by
            rcases hjr with hx | ⟨_, hx⟩
            · omega
            · exact hx
          rw [mem_remove_list h _ _ _ _ h10 (classify_lt_10 _) hnodup honlyIm1]
          refine ⟨hfrees j hjn (by omega) hfr, ?_⟩
          intro e
          have := addrOf_inj h.blocks hsz (le_of_lt hjn) (by omega) e
          omega)
      (by intro c hc hmem
          rw [mem_remove_list h _ _ c _ h10 hc hnodup honlyIm1] at hmem
          exact hmem.2 rfl)
    refine ⟨hCORE.1, hCORE.2.1, hCORE.2.2.1, hCORE.2.2.2.1, hCORE.2.2.2.2.1, ?_,
      hCORE.2.2.2.2.2.2.1, ?_, ?_, ?_, ?_⟩
    · rw [hCORE.2.1, hCORE.2.2.2.2.2.1, hseg3, sizeSum_pair]
      simp only [Nat.add_zero]
      omega
    · rw [hCORE.2.1, hCORE.2.2.2.2.2.1]
      exact hCORE.2.2.2.2.2.2.2.1
    · rw [hCORE.2.1, hCORE.2.2.2.2.2.1]
      exact hCORE.2.2.2.2.2.2.2.2.1
    · rw [hCORE.2.1, hCORE.2.2.2.2.2.1]
      exact hCORE.2.2.2.2.2.2.2.2.2.1
    · intro hcontra
      cases hcontra
  · -- case 2 : previous allocated, next free
    have hin : i + 1 < h.blocks.length := by
      by_contra hc
      rw [nextAllocB_eq_getD, if_neg hc] at hq
      cases hq
    have hal1 : (h.blocks.getD (i + 1) dBlk).alloc = false := by
      rw [nextAllocB_eq_getD, if_pos hin] at hq
      exact hq
    have honlyI1 : ∀ c, c < 10 → addrOf h.blocks (i + 1) ∈ h.freeLists.getD c [] →
        c = classify ((h.blocks.getD (i + 1) dBlk).size) :=
      fun c hc hm => honly (i + 1) hin (by omega) c hc hm
    rw [coalesce_eq_U h i hi hfree hp0, coalesceU_eq_mergeHeap h i]
    simp only [hp, hq, if_true, ite_true, Bool.false_eq_true, if_false, ite_false]
    have hseg2 : (h.blocks.drop i).take (i + 1 + 1 - i) =
        [h.blocks.getD i dBlk, h.blocks.getD (i + 1) dBlk] := by
      rw [show i + 1 + 1 - i = 2 by omega, drop_eq_getD_cons _ _ hi,
        drop_eq_getD_cons _ _ hin]
      simp
    have hCORE := mergeHeap_core h i (i + 1 + 1 - i)
      (remove_list h (addrOf h.blocks (i + 1)) ((h.blocks.getD (i + 1) dBlk).size)).freeLists
      (by omega) (by omega) hsz
      (by rw [length_remove_list]; exact h10)
      (nodup_remove_list _ _ _ hnodup)
      (by intro hlo
          have hb := hbit_i
          rw [if_neg (by omega), hp] at hb
          exact hb.symm)
      (by intro hlt
          rw [show i + (i + 1 + 1 - i) = i + 2 by omega] at hlt ⊢
          rcases hnoadjPt (i + 1) (by omega) (by omega) (by omega) with hx | hx
          · rw [hal1] at hx
            cases hx
          · exact hx)
      (by intro j hj hout
          exact hnoadjPt j hj (by omega) (by omega))
      (by intro j hj hout
          exact hbit_other j hj (by omega) (by omega))
      hbit_i
      (by intro hlt
          exact hepiX (by omega))
      (by intro c hc a hmem
          rw [mem_remove_list h _ _ c a h10 hc hnodup honlyI1] at hmem
          obtain ⟨hmem', hne⟩ := hmem
          obtain ⟨j, hj, hjne, haddr, hal, hcl⟩ := hlisted c hc a hmem'
          have hji1 : j ≠ i + 1 := by
            intro e
            exact hne (by rw [← haddr, e])
          exact ⟨j, by omega, haddr, hal, hcl⟩)
      (by intro j hjr hfr
          have hjn : j < h.blocks.length := by
            rcases hjr with hx | ⟨_, hx⟩
            · omega
            · exact hx
          rw [mem_remove_list h _ _ _ _ h10 (classify_lt_10 _) hnodup honlyI1]
          refine ⟨hfrees j hjn (by omega) hfr, ?_⟩
          intro e
          have := addrOf_inj h.blocks hsz (le_of_lt hjn) (by omega) e
          omega)
      (by intro c hc hmem
          rw [mem_remove_list h _ _ c _ h10 hc hnodup honlyI1] at hmem
          exact hAi_not c hc hmem.1)
    refine ⟨hCORE.1, hCORE.2.1, hCORE.2.2.1, hCORE.2.2.2.1, hCORE.2.2.2.2.1, ?_,
      hCORE.2.2.2.2.2.2.1, ?_, ?_, ?_, ?_⟩
    · rw [hCORE.2.1, hCORE.2.2.2.2.2.1, hseg2, sizeSum_pair]
      simp
    · rw [hCORE.2.1, hCORE.2.2.2.2.2.1]
      exact hCORE.2.2.2.2.2.2.2.1
    · rw [hCORE.2.1, hCORE.2.2.2.2.2.1]
      exact hCORE.2.2.2.2.2.2.2.2.1
    · rw [hCORE.2.1, hCORE.2.2.2.2.2.1]
      exact hCORE.2.2.2.2.2.2.2.2.2.1
    · intro _ c hc
      refine hCORE.2.2.2.2.2.2.2.2.2.2 (addrOf h.blocks (i + 1)) ?_ ?_ c hc
      · intro c' hc' hm
        rw [mem_remove_list h _ _ c' _ h10 hc' hnodup honlyI1] at hm
        exact hm.2 rfl
      · exact Nat.ne_of_gt (addrOf_lt_addrOf h.blocks hsz i (i + 1) (by omega) (by omega))
  · -- case 1 : both neighbours allocated
    have hq' : i + 1 < h.blocks.length → (h.blocks.getD (i + 1) dBlk).alloc = true := by
      intro hlt
      rw [nextAllocB_eq_getD, if_pos hlt] at hq
      exact hq
    rw [coalesce_eq_U h i hi hfree hp0, coalesceU_eq_mergeHeap h i]
    simp only [hp, hq, if_true, ite_true]
    have hseg1 : (h.blocks.drop i).take (i + 1 - i) = [h.blocks.getD i dBlk] := by
      rw [show i + 1 - i = 1 by omega, drop_eq_getD_cons _ _ hi]
      simp
    have hCORE := mergeHeap_core h i (i + 1 - i) h.freeLists (by omega) (by omega) hsz h10
      hnodup
      (by intro hlo
          have hb := hbit_i
          rw [if_neg (by omega), hp] at hb
          exact hb.symm)
      (by intro hlt
          rw [show i + (i + 1 - i) = i + 1 by omega] at hlt ⊢
          exact hq' hlt)
      (by intro j hj hout
          rcases hout with hout | hout
          · exact hnoadjPt j hj (by omega) (by omega)
          · exact hnoadjPt j hj (by omega) (by omega))
      (by intro j hj hout
          rcases hout with hout | hout
          · exact hbit_other j hj (by omega) (by omega)
          · exact hbit_other j hj (by omega) (by omega))
      hbit_i
      (by intro hlt
          exact hepiX (by omega))
      (by intro c hc a hmem
          obtain ⟨j, hj, hjne, haddr, hal, hcl⟩ := hlisted c hc a hmem
          exact ⟨j, by omega, haddr, hal, hcl⟩)
      (by intro j hjr hfr
          exact hfrees j (by omega) (by omega) hfr)
      hAi_not
    refine ⟨hCORE.1, hCORE.2.1, hCORE.2.2.1, hCORE.2.2.2.1, hCORE.2.2.2.2.1, ?_,
      hCORE.2.2.2.2.2.2.1, ?_, ?_, ?_, ?_⟩
    · rw [hCORE.2.1, hCORE.2.2.2.2.2.1, hseg1, sizeSum_singleton]
      simp
    · rw [hCORE.2.1, hCORE.2.2.2.2.2.1]
      exact hCORE.2.2.2.2.2.2.2.1
    · rw [hCORE.2.1, hCORE.2.2.2.2.2.1]
      exact hCORE.2.2.2.2.2.2.2.2.1
    · rw [hCORE.2.1, hCORE.2.2.2.2.2.1]
      exact hCORE.2.2.2.2.2.2.2.2.2.1
    · intro hcontra
      cases hcontra


/-! ### Assembling and disassembling the invariant pointwise -/

theorem set_len_eq (l : List Blk) (x : Blk) : l.set l.length x = l :=
  List.set_eq_of_length_le le_rfl

/-- Build `InvH` from its pointwise components. -/
theorem InvH_mk (h : Heap)
    (h10 : h.freeLists.length = 10)
    (hpos : ∀ j, j < h.blocks.length → 0 < (h.blocks.getD j dBlk).size)
    (hadj : ∀ j, j + 1 < h.blocks.length →
      ((h.blocks.getD j dBlk).alloc = true ∨ (h.blocks.getD (j + 1) dBlk).alloc = true))
    (hbits : ∀ j, j < h.blocks.length →
      (h.blocks.getD j dBlk).prevAlloc =
        (if j = 0 then true else (h.blocks.getD (j - 1) dBlk).alloc))
    (hepi : h.epiPrevAlloc = endAlloc true h.blocks)
    (hnodup : ∀ c, c < 10 → (h.freeLists.getD c []).Nodup)
    (hlisted : ∀ c, c < 10 → ∀ a ∈ h.freeLists.getD c [],
      ∃ j, j < h.blocks.length ∧ addrOf h.blocks j = a ∧
        (h.blocks.getD j dBlk).alloc = false ∧
        classify ((h.blocks.getD j dBlk).size) = c)
    (hfrees : ∀ j, j < h.blocks.length → (h.blocks.getD j dBlk).alloc = false →
      addrOf h.blocks j ∈ h.freeLists.getD (classify ((h.blocks.getD j dBlk).size)) []) :
    InvH h := by
  refine ⟨h10, (sizesOK_iff _).mpr hpos, ?_, ?_, fun _ => hepi, hnodup, ?_, ?_⟩
  · rw [set_len_eq]
    exact (noAdjFree_iff _).mpr hadj
  · rw [set_len_eq]
    exact (bitsFromB_iff _ _).mpr hbits
  · intro c hc a ha
    obtain ⟨j, hj, haddr, hal, hcl⟩ := hlisted c hc a ha
    exact ⟨j, hj, by omega, haddr, hal, hcl⟩
  · intro j hj _ hf
    exact hfrees j hj hf

/-- Read the pointwise components back out of `InvH`. -/
theorem InvH_pt (h : Heap) (hinv : InvH h) :
    h.freeLists.length = 10 ∧
    (∀ j, j < h.blocks.length → 0 < (h.blocks.getD j dBlk).size) ∧
    (∀ j, j + 1 < h.blocks.length →
      ((h.blocks.getD j dBlk).alloc = true ∨ (h.blocks.getD (j + 1) dBlk).alloc = true)) ∧
    (∀ j, j < h.blocks.length →
      (h.blocks.getD j dBlk).prevAlloc =
        (if j = 0 then true else (h.blocks.getD (j - 1) dBlk).alloc)) ∧
    h.epiPrevAlloc = endAlloc true h.blocks ∧
    (∀ c, c < 10 → (h.freeLists.getD c []).Nodup) ∧
    (∀ c, c < 10 → ∀ a ∈ h.freeLists.getD c [],
      ∃ j, j < h.blocks.length ∧ addrOf h.blocks j = a ∧
        (h.blocks.getD j dBlk).alloc = false ∧
        classify ((h.blocks.getD j dBlk).size) = c) ∧
    (∀ j, j < h.blocks.length → (h.blocks.getD j dBlk).alloc = false →
      addrOf h.blocks j ∈ h.freeLists.getD (classify ((h.blocks.getD j dBlk).size)) []) := by
  obtain ⟨h10, hpos, hadj, hbits, hepi, hnodup, hlisted, hfrees⟩ := hinv
  rw [set_len_eq] at hadj hbits
  refine ⟨h10, (sizesOK_iff _).mp hpos, (noAdjFree_iff _).mp hadj,
    (bitsFromB_iff _ _).mp hbits, hepi (by omega), hnodup, ?_, ?_⟩
  · intro c hc a ha
    obtain ⟨j, hj, _, haddr, hal, hcl⟩ := hlisted c hc a ha
    exact ⟨j, hj, haddr, hal, hcl⟩
  · intro j hj hf
    exact hfrees j hj (by omega) hf

theorem sizeSum_append (l1 l2 : List Blk) :
    sizeSum (l1 ++ l2) = sizeSum l1 + sizeSum l2 := by
  simp [sizeSum]

theorem addrOf_succ (bs : List Blk) (i : ℕ) (hi : i < bs.length) :
    addrOf bs (i + 1) = addrOf bs i + (bs.getD i dBlk).size := by
  rw [addrOf_eq_sizeSum_take, addrOf_eq_sizeSum_take, List.take_add, sizeSum_append]
  have h1 : (bs.drop i).take 1 = [bs.getD i dBlk] := by
    rw [drop_eq_getD_cons _ _ hi]
    rfl
  rw [h1, sizeSum_singleton]

theorem map_size_set (bs : List Blk) (k : ℕ) (b' : Blk)
    (hsz : b'.size = (bs.getD k dBlk).size) :
    (bs.set k b').map Blk.size = bs.map Blk.size := by
  by_cases hk : k < bs.length
  · apply List.ext_getElem?
    intro j
    by_cases hjk : j = k
    · subst hjk
      rw [List.getElem?_map, List.getElem?_map, List.getElem?_set_self (by simpa using hk),
        List.getElem?_eq_getElem hk]
      simp only [Option.map_some', Option.some.injEq]
      rw [hsz, List.getD_eq_getElem?_getD, List.getElem?_eq_getElem hk]
      rfl
    · rw [List.getElem?_map, List.getElem?_map, List.getElem?_set_ne (fun e => hjk e.symm)]
  · rw [List.set_eq_of_length_le (by omega)]

theorem addrOf_set (bs : List Blk) (k : ℕ) (b' : Blk) (j : ℕ)
    (hsz : b'.size = (bs.getD k dBlk).size) :
    addrOf (bs.set k b') j = addrOf bs j := by
  unfold addrOf
  rw [map_size_set bs k b' hsz]

/-- An allocated block starts at offset `a`. -/
def AllocAt (h : Heap) (a : ℕ) : Prop :=
  ∃ i, i < h.blocks.length ∧ addrOf h.blocks i = a ∧
    (h.blocks.getD i dBlk).alloc = true

/-! ### `coalesce` preserves every allocated block -/

theorem mergeHeap_length (h : Heap) (lo d : ℕ) (FL2 : List (List ℕ))
    (hlo : lo ≤ h.blocks.length) :
    (mergeHeap h lo d FL2).1.blocks.length =
      lo + 1 + (h.blocks.length - (lo + d)) := by
  show (setPrevAllocNext _ lo false).blocks.length = _
  rw [length_setPrevAllocNext]
  exact length_splice h.blocks _ lo d hlo

theorem mergeHeap_alloc_getD (h : Heap) (lo d : ℕ) (FL2 : List (List ℕ)) (k : ℕ) :
    ((mergeHeap h lo d FL2).1.blocks.getD k dBlk).alloc =
      ((h.blocks.take lo ++
          [(⟨sizeSum ((h.blocks.drop lo).take d), false,
            (h.blocks.getD lo dBlk).prevAlloc⟩ : Blk)] ++
          h.blocks.drop (lo + d)).getD k dBlk).alloc :=
  alloc_getD_setPrevAllocNext _ lo false k

theorem mergeHeap_addrOf (h : Heap) (lo d : ℕ) (FL2 : List (List ℕ)) (k : ℕ) :
    addrOf (mergeHeap h lo d FL2).1.blocks k =
      addrOf (h.blocks.take lo ++
          [(⟨sizeSum ((h.blocks.drop lo).take d), false,
            (h.blocks.getD lo dBlk).prevAlloc⟩ : Blk)] ++
          h.blocks.drop (lo + d)) k :=
  addrOf_setPrevAllocNext _ lo false k

theorem mergeHeap_allocAt (h : Heap) (lo d : ℕ) (FL2 : List (List ℕ))
    (hld : lo + d ≤ h.blocks.length) (j : ℕ) (hj : j < h.blocks.length)
    (hout : j < lo ∨ lo + d ≤ j)
    (hal : (h.blocks.getD j dBlk).alloc = true) :
    AllocAt (mergeHeap h lo d FL2).1 (addrOf h.blocks j) := by
  have hlo : lo ≤ h.blocks.length := by omega
  have hsum : addrOf h.blocks lo +
      sizeSum [(⟨sizeSum ((h.blocks.drop lo).take d), false,
        (h.blocks.getD lo dBlk).prevAlloc⟩ : Blk)] = addrOf h.blocks (lo + d) := by
    rw [sizeSum_singleton, addrOf_eq_sizeSum_take, addrOf_eq_sizeSum_take,
      List.take_add, sizeSum_append]
  rcases hout with hout | hout
  · refine ⟨j, ?_, ?_, ?_⟩
    · rw [mergeHeap_length h lo d FL2 hlo]
      omega
    · rw [mergeHeap_addrOf]
      exact addrOf_splice_left h.blocks _ lo d j (by omega) hlo
    · rw [mergeHeap_alloc_getD]
      rw [getD_splice_left h.blocks _ lo d j hout hlo]
      exact hal
  · refine ⟨lo + 1 + (j - (lo + d)), ?_, ?_, ?_⟩
    · rw [mergeHeap_length h lo d FL2 hlo]
      omega
    · rw [mergeHeap_addrOf]
      have e := addrOf_splice_right h.blocks
        [(⟨sizeSum ((h.blocks.drop lo).take d), false,
          (h.blocks.getD lo dBlk).prevAlloc⟩ : Blk)] lo d (j - (lo + d)) hlo hsum
      simp only [List.length_singleton] at e
      rw [show lo + d + (j - (lo + d)) = j by omega] at e
      exact e
    · rw [mergeHeap_alloc_getD]
      have e := getD_splice_right h.blocks
        [(⟨sizeSum ((h.blocks.drop lo).take d), false,
          (h.blocks.getD lo dBlk).prevAlloc⟩ : Blk)] lo d (j - (lo + d)) hlo
      simp only [List.length_singleton] at e
      rw [show lo + d + (j - (lo + d)) = j by omega] at e
      rw [e]
      exact hal

theorem coalesce_allocAt (h : Heap) (i : ℕ) (hpre : CoalPre h i) (a : ℕ)
    (hA : AllocAt h a) : AllocAt (coalesce h i).1 a := by
  obtain ⟨⟨h10, hsz, hnoadjX, hbitsX, hepiX, hnodup, hlisted, hfrees⟩, hi, hfree⟩ := hpre
  have hlenset : (h.blocks.set i (mkAlloc (h.blocks.getD i dBlk))).length =
      h.blocks.length := by
    simp
  have hbitsPt := (bitsFromB_iff true _).mp hbitsX
  have hbit_i : (h.blocks.getD i dBlk).prevAlloc =
      (if i = 0 then true else (h.blocks.getD (i - 1) dBlk).alloc) := by
    have := hbitsPt i (by rw [hlenset]; omega)
    rw [getD_set_eq _ _ _ _ hi] at this
    by_cases h0 : i = 0
    · rw [if_pos h0] at this ⊢
      exact this
    · rw [if_neg h0] at this ⊢
      rwa [getD_set_ne _ _ _ _ _ (by omega)] at this
  have hp0 : (h.blocks.getD i dBlk).prevAlloc = false → 0 < i := by
    intro hb
    by_contra hc
    rw [hbit_i, if_pos (by omega : i = 0)] at hb
    cases hb
  obtain ⟨j, hj, haddr, hal⟩ := hA
  have hjne : j ≠ i := by
    intro e
    rw [e, hfree] at hal
    cases hal
  rw [coalesce_eq_U h i hi hfree hp0, coalesceU_eq_mergeHeap h i, ← haddr]
  rcases hp : (h.blocks.getD i dBlk).prevAlloc with _ | _ <;>
    rcases hq : nextAllocB h.blocks i with _ | _
  · -- prev free, next free
    have hip : 0 < i := hp0 hp
    have hin : i + 1 < h.blocks.length := by
      by_contra hc
      rw [nextAllocB_eq_getD, if_neg hc] at hq
      cases hq
    have halm1 : (h.blocks.getD (i - 1) dBlk).alloc = false := by
      have hb := hbit_i
      rw [if_neg (by omega), hp] at hb
      exact hb.symm
    have hal1 : (h.blocks.getD (i + 1) dBlk).alloc = false := by
      rw [nextAllocB_eq_getD, if_pos hin] at hq
      exact hq
    have hjm1 : j ≠ i - 1 := by
      intro e
      rw [e, halm1] at hal
      cases hal
    have hj1 : j ≠ i + 1 := by
      intro e
      rw [e, hal1] at hal
      cases hal
    simp only [hp, hq, if_true, ite_true, Bool.false_eq_true, if_false, ite_false]
    exact mergeHeap_allocAt h (i - 1) (i + 1 + 1 - (i - 1)) _ (by omega) j hj
      (by omega) hal
  · -- prev free, next allocated
    have hip : 0 < i := hp0 hp
    have halm1 : (h.blocks.getD (i - 1) dBlk).alloc = false := by
      have hb := hbit_i
      rw [if_neg (by omega), hp] at hb
      exact hb.symm
    have hjm1 : j ≠ i - 1 := by
      intro e
      rw [e, halm1] at hal
      cases hal
    simp only [hp, hq, if_true, ite_true, Bool.false_eq_true, if_false, ite_false]
    exact mergeHeap_allocAt h (i - 1) (i + 1 - (i - 1)) _ (by omega) j hj
      (by omega) hal
  · -- prev allocated, next free
    have hin : i + 1 < h.blocks.length := by
      by_contra hc
      rw [nextAllocB_eq_getD, if_neg hc] at hq
      cases hq
    have hal1 : (h.blocks.getD (i + 1) dBlk).alloc = false := by
      rw [nextAllocB_eq_getD, if_pos hin] at hq
      exact hq
    have hj1 : j ≠ i + 1 := by
      intro e
      rw [e, hal1] at hal
      cases hal
    simp only [hp, hq, if_true, ite_true, Bool.false_eq_true, if_false, ite_false]
    exact mergeHeap_allocAt h i (i + 1 + 1 - i) _ (by omega) j hj (by omega) hal
  · -- both neighbours allocated
    simp only [hp, hq, if_true, ite_true]
    exact mergeHeap_allocAt h i (i + 1 - i) _ (by omega) j hj (by omega) hal

/-! ### `place` preserves the invariant (split case) -/

theorem place_split_inv (h : Heap) (i asize : ℕ) (hinv : InvH h)
    (hi : i < h.blocks.length)
    (hfree : (h.blocks.getD i dBlk).alloc = false)
    (h16 : 16 ≤ asize)
    (hle : asize ≤ (h.blocks.getD i dBlk).size)
    (hsplit : 2 * DSIZE ≤ (h.blocks.getD i dBlk).size - asize) :
    InvH (place h i asize) ∧
    (∀ a, AllocAt h a → AllocAt (place h i asize) a) ∧
    AllocAt (place h i asize) (addrOf h.blocks i) := by
  obtain ⟨h10, hpos, hadj, hbits, hepi, hnodup, hlisted, hfrees⟩ := InvH_pt h hinv
  have hposM : ∀ b ∈ h.blocks, 0 < b.size := (sizesOK_iff _).mpr hpos
  have hd8 : DSIZE = 8 := rfl
  have hrs16 : 16 ≤ (h.blocks.getD i dBlk).size - asize := by omega
  have honlyI : ∀ c', c' < 10 → addrOf h.blocks i ∈ h.freeLists.getD c' [] →
      c' = classify ((h.blocks.getD i dBlk).size) := by
    intro c' hc' hm
    obtain ⟨j, hj, haddr, _, hcl⟩ := hlisted c' hc' _ hm
    have := addrOf_inj h.blocks hposM (le_of_lt hj) (le_of_lt hi) haddr
    subst this
    exact hcl.symm
  have hmemFL1 : ∀ c, c < 10 → ∀ x,
      (x ∈ (remove_list h (addrOf h.blocks i) ((h.blocks.getD i dBlk).size)).freeLists.getD c [] ↔
        (x ∈ h.freeLists.getD c [] ∧ x ≠ addrOf h.blocks i)) :=
    fun c hc x => mem_remove_list h _ _ c x h10 hc hnodup honlyI
  have hndFL1 := nodup_remove_list h (addrOf h.blocks i) ((h.blocks.getD i dBlk).size) hnodup
  have h10FL1 : (remove_list h (addrOf h.blocks i) ((h.blocks.getD i dBlk).size)).freeLists.length = 10 := by
    rw [length_remove_list]
    exact h10
  have hM2 : ([⟨asize, true, (h.blocks.getD i dBlk).prevAlloc⟩, ⟨(h.blocks.getD i dBlk).size - asize, false, true⟩] : List Blk).length = 2 := rfl
  have hSlen : (h.blocks.take i ++ ([⟨asize, true, (h.blocks.getD i dBlk).prevAlloc⟩, ⟨(h.blocks.getD i dBlk).size - asize, false, true⟩] : List Blk) ++ h.blocks.drop (i + 1)).length = h.blocks.length + 1 := by
    have e := length_splice h.blocks ([⟨asize, true, (h.blocks.getD i dBlk).prevAlloc⟩, ⟨(h.blocks.getD i dBlk).size - asize, false, true⟩] : List Blk) i 1 (le_of_lt hi)
    rw [hM2] at e
    omega
  have hSL : ∀ j, j < i → (h.blocks.take i ++ ([⟨asize, true, (h.blocks.getD i dBlk).prevAlloc⟩, ⟨(h.blocks.getD i dBlk).size - asize, false, true⟩] : List Blk) ++ h.blocks.drop (i + 1)).getD j dBlk = h.blocks.getD j dBlk :=
    fun j hj => getD_splice_left h.blocks ([⟨asize, true, (h.blocks.getD i dBlk).prevAlloc⟩, ⟨(h.blocks.getD i dBlk).size - asize, false, true⟩] : List Blk) i 1 j hj (le_of_lt hi)
  have hSi : (h.blocks.take i ++ ([⟨asize, true, (h.blocks.getD i dBlk).prevAlloc⟩, ⟨(h.blocks.getD i dBlk).size - asize, false, true⟩] : List Blk) ++ h.blocks.drop (i + 1)).getD i dBlk = ⟨asize, true, (h.blocks.getD i dBlk).prevAlloc⟩ := by
    have e := getD_splice_mid h.blocks ([⟨asize, true, (h.blocks.getD i dBlk).prevAlloc⟩, ⟨(h.blocks.getD i dBlk).size - asize, false, true⟩] : List Blk) i 1 0 (by rw [hM2]; omega) (le_of_lt hi)
    simpa using e
  have hSi1 : (h.blocks.take i ++ ([⟨asize, true, (h.blocks.getD i dBlk).prevAlloc⟩, ⟨(h.blocks.getD i dBlk).size - asize, false, true⟩] : List Blk) ++ h.blocks.drop (i + 1)).getD (i + 1) dBlk = ⟨(h.blocks.getD i dBlk).size - asize, false, true⟩ := by
    have e := getD_splice_mid h.blocks ([⟨asize, true, (h.blocks.getD i dBlk).prevAlloc⟩, ⟨(h.blocks.getD i dBlk).size - asize, false, true⟩] : List Blk) i 1 1 (by rw [hM2]; omega) (le_of_lt hi)
    simpa using e
  have hSR : ∀ j, i + 2 ≤ j → (h.blocks.take i ++ ([⟨asize, true, (h.blocks.getD i dBlk).prevAlloc⟩, ⟨(h.blocks.getD i dBlk).size - asize, false, true⟩] : List Blk) ++ h.blocks.drop (i + 1)).getD j dBlk = h.blocks.getD (j - 1) dBlk := by
    intro j hj
    have e := getD_splice_right h.blocks ([⟨asize, true, (h.blocks.getD i dBlk).prevAlloc⟩, ⟨(h.blocks.getD i dBlk).size - asize, false, true⟩] : List Blk) i 1 (j - (i + 2)) (le_of_lt hi)
    rw [hM2, show i + 2 + (j - (i + 2)) = j by omega,
      show i + 1 + (j - (i + 2)) = j - 1 by omega] at e
    exact e
  have hsumM : addrOf h.blocks i + sizeSum ([⟨asize, true, (h.blocks.getD i dBlk).prevAlloc⟩, ⟨(h.blocks.getD i dBlk).size - asize, false, true⟩] : List Blk) = addrOf h.blocks (i + 1) := by
    rw [sizeSum_pair, addrOf_succ h.blocks i hi]
    show addrOf h.blocks i + (asize + ((h.blocks.getD i dBlk).size - asize)) = _
    omega
  have hAL : ∀ j, j ≤ i → addrOf (h.blocks.take i ++ ([⟨asize, true, (h.blocks.getD i dBlk).prevAlloc⟩, ⟨(h.blocks.getD i dBlk).size - asize, false, true⟩] : List Blk) ++ h.blocks.drop (i + 1)) j = addrOf h.blocks j :=
    fun j hj => addrOf_splice_left h.blocks ([⟨asize, true, (h.blocks.getD i dBlk).prevAlloc⟩, ⟨(h.blocks.getD i dBlk).size - asize, false, true⟩] : List Blk) i 1 j hj (le_of_lt hi)
  have hAi1 : addrOf (h.blocks.take i ++ ([⟨asize, true, (h.blocks.getD i dBlk).prevAlloc⟩, ⟨(h.blocks.getD i dBlk).size - asize, false, true⟩] : List Blk) ++ h.blocks.drop (i + 1)) (i + 1) = addrOf h.blocks i + asize := by
    have e := addrOf_splice_mid h.blocks ([⟨asize, true, (h.blocks.getD i dBlk).prevAlloc⟩, ⟨(h.blocks.getD i dBlk).size - asize, false, true⟩] : List Blk) i 1 1 (by rw [hM2]; omega) (le_of_lt hi)
    rw [e, show ([⟨asize, true, (h.blocks.getD i dBlk).prevAlloc⟩, ⟨(h.blocks.getD i dBlk).size - asize, false, true⟩] : List Blk).take 1 = [⟨asize, true, (h.blocks.getD i dBlk).prevAlloc⟩] from rfl,
      sizeSum_singleton]
  have hAR : ∀ j, i + 2 ≤ j → addrOf (h.blocks.take i ++ ([⟨asize, true, (h.blocks.getD i dBlk).prevAlloc⟩, ⟨(h.blocks.getD i dBlk).size - asize, false, true⟩] : List Blk) ++ h.blocks.drop (i + 1)) j = addrOf h.blocks (j - 1) := by
    intro j hj
    have e := addrOf_splice_right h.blocks ([⟨asize, true, (h.blocks.getD i dBlk).prevAlloc⟩, ⟨(h.blocks.getD i dBlk).size - asize, false, true⟩] : List Blk) i 1 (j - (i + 2)) (le_of_lt hi) hsumM
    rw [hM2, show i + 2 + (j - (i + 2)) = j by omega,
      show i + 1 + (j - (i + 2)) = j - 1 by omega] at e
    exact e
  have hnotblock : ∀ j, j ≤ h.blocks.length →
      addrOf h.blocks j ≠ addrOf h.blocks i + asize := by
    intro j hj he
    rcases lt_trichotomy j i with hlt | heq | hgt
    · have := addrOf_lt_addrOf h.blocks hposM j i hlt (le_of_lt hi)
      omega
    · subst heq
      omega
    · have h1 : addrOf h.blocks (i + 1) ≤ addrOf h.blocks j := by
        by_cases hj2 : j = i + 1
        · rw [hj2]
        · exact le_of_lt (addrOf_lt_addrOf h.blocks hposM (i + 1) j (by omega) hj)
      rw [addrOf_succ h.blocks i hi] at h1
      omega
  have hplace0 : place h i asize =
      (if 2 * DSIZE ≤ (h.blocks.getD i dBlk).size - asize then
        insert_list
          { (remove_list h (addrOf h.blocks i) ((h.blocks.getD i dBlk).size)) with
            blocks := (h.blocks.take i ++ ([⟨asize, true, (h.blocks.getD i dBlk).prevAlloc⟩, ⟨(h.blocks.getD i dBlk).size - asize, false, true⟩] : List Blk) ++ h.blocks.drop (i + 1)) }
          (addrOf (h.blocks.take i ++ ([⟨asize, true, (h.blocks.getD i dBlk).prevAlloc⟩, ⟨(h.blocks.getD i dBlk).size - asize, false, true⟩] : List Blk) ++ h.blocks.drop (i + 1)) (i + 1)) ((h.blocks.getD i dBlk).size - asize)
      else
        setPrevAllocNext
          { (remove_list h (addrOf h.blocks i) ((h.blocks.getD i dBlk).size)) with
            blocks := h.blocks.set i
              ⟨(h.blocks.getD i dBlk).size, true, (h.blocks.getD i dBlk).prevAlloc⟩ }
          i true) := rfl
  have hPbl : (place h i asize).blocks = (h.blocks.take i ++ ([⟨asize, true, (h.blocks.getD i dBlk).prevAlloc⟩, ⟨(h.blocks.getD i dBlk).size - asize, false, true⟩] : List Blk) ++ h.blocks.drop (i + 1)) := by
    rw [hplace0, if_pos hsplit]
    rfl
  have hPfl : (place h i asize).freeLists =
      (remove_list h (addrOf h.blocks i) ((h.blocks.getD i dBlk).size)).freeLists.set (classify ((h.blocks.getD i dBlk).size - asize))
        (addrOf (h.blocks.take i ++ ([⟨asize, true, (h.blocks.getD i dBlk).prevAlloc⟩, ⟨(h.blocks.getD i dBlk).size - asize, false, true⟩] : List Blk) ++ h.blocks.drop (i + 1)) (i + 1) :: (remove_list h (addrOf h.blocks i) ((h.blocks.getD i dBlk).size)).freeLists.getD (classify ((h.blocks.getD i dBlk).size - asize)) []) := by
    rw [hplace0, if_pos hsplit]
    rfl
  have hPepi : (place h i asize).epiPrevAlloc = h.epiPrevAlloc := by
    rw [hplace0, if_pos hsplit]
    rfl
  have hPmem : ∀ c, c < 10 → ∀ x,
      (x ∈ (place h i asize).freeLists.getD c [] ↔
        ((c = classify ((h.blocks.getD i dBlk).size - asize) ∧ x = addrOf h.blocks i + asize) ∨
         (x ∈ h.freeLists.getD c [] ∧ x ≠ addrOf h.blocks i))) := by
    intro c hc x
    rw [hPfl]
    by_cases hcc : c = classify ((h.blocks.getD i dBlk).size - asize)
    · rw [hcc, getD_set_eq _ _ _ _ (by rw [h10FL1]; exact classify_lt_10 _)]
      constructor
      · intro hx
        rcases List.mem_cons.mp hx with he | hin
        · rw [hAi1] at he
          exact Or.inl ⟨rfl, he⟩
        · exact Or.inr ((hmemFL1 _ (classify_lt_10 _) x).mp hin)
      · rintro (⟨-, he⟩ | ⟨hmem, hne⟩)
        · rw [he, ← hAi1]
          exact List.mem_cons_self _ _
        · exact List.mem_cons_of_mem _ ((hmemFL1 _ (classify_lt_10 _) x).mpr ⟨hmem, hne⟩)
    · rw [getD_set_ne _ _ _ _ _ (fun e => hcc e.symm), hmemFL1 c hc x]
      constructor
      · exact fun hx => Or.inr hx
      · rintro (⟨he, -⟩ | hx)
        · exact absurd he hcc
        · exact hx
  refine ⟨?_, ?_, ?_⟩
  · refine InvH_mk _ ?_ ?_ ?_ ?_ ?_ ?_ ?_ ?_
    · rw [hPfl, List.length_set, h10FL1]
    · intro j hj
      rw [hPbl] at hj ⊢
      rw [hSlen] at hj
      rcases lt_trichotomy j i with hlt | heq | hgt
      · rw [hSL j hlt]
        exact hpos j (by omega)
      · subst heq
        rw [hSi]
        show 0 < asize
        omega
      · by_cases hj1 : j = i + 1
        · subst hj1
          rw [hSi1]
          show 0 < (h.blocks.getD i dBlk).size - asize
          omega
        · rw [hSR j (by omega)]
          exact hpos (j - 1) (by omega)
    · intro j hj
      rw [hPbl] at hj ⊢
      rw [hSlen] at hj
      by_cases hji : j + 1 < i
      · rw [hSL j (by omega), hSL (j + 1) hji]
        exact hadj j (by omega)
      · by_cases hji2 : j + 1 = i
        · right
          rw [hji2, hSi]
        · by_cases hji3 : j = i
          · left
            rw [hji3, hSi]
          · by_cases hji4 : j = i + 1
            · right
              rw [hji4, hSR (i + 1 + 1) (by omega), show i + 1 + 1 - 1 = i + 1 by omega]
              rcases hadj i (by omega) with hx | hx
              · rw [hfree] at hx
                cases hx
              · exact hx
            · have h2 : i + 2 ≤ j := by omega
              rw [hSR j h2, hSR (j + 1) (by omega), show j + 1 - 1 = j by omega]
              have e := hadj (j - 1) (by omega)
              rw [show j - 1 + 1 = j by omega] at e
              exact e
    · intro j hj
      rw [hPbl] at hj ⊢
      rw [hSlen] at hj
      by_cases hj0 : j = 0
      · subst hj0
        rw [if_pos rfl]
        by_cases h0i : i = 0
        · subst h0i
          rw [hSi]
          show (h.blocks.getD 0 dBlk).prevAlloc = true
          have e := hbits 0 (by omega)
          rw [if_pos rfl] at e
          exact e
        · rw [hSL 0 (by omega)]
          have e := hbits 0 (by omega)
          rw [if_pos rfl] at e
          exact e
      · rw [if_neg hj0]
        by_cases hji : j < i
        · rw [hSL j hji, hSL (j - 1) (by omega)]
          have e := hbits j (by omega)
          rw [if_neg hj0] at e
          exact e
        · by_cases hjei : j = i
          · subst hjei
            rw [hSi, hSL (j - 1) (by omega)]
            show (h.blocks.getD j dBlk).prevAlloc = (h.blocks.getD (j - 1) dBlk).alloc
            have e := hbits j (by omega)
            rw [if_neg hj0] at e
            exact e
          · by_cases hje1 : j = i + 1
            · subst hje1
              rw [hSi1, show i + 1 - 1 = i from rfl, hSi]
            · by_cases hje2 : j = i + 2
              · subst hje2
                rw [hSR (i + 2) (by omega), show i + 2 - 1 = i + 1 from rfl, hSi1]
                have hb := hbits (i + 1) (by omega)
                rw [if_neg (by omega), show i + 1 - 1 = i from rfl, hfree] at hb
                rw [hb]
              · have h3 : i + 2 ≤ j - 1 := by omega
                rw [hSR j (by omega), hSR (j - 1) h3]
                have e := hbits (j - 1) (by omega)
                rw [if_neg (by omega)] at e
                exact e
    · rw [hPepi, hPbl, endAlloc_eq_getD, hSlen, if_neg (by omega), Nat.add_sub_cancel]
      by_cases hlast : i + 1 = h.blocks.length
      · rw [show h.blocks.length = i + 1 from hlast.symm, hSi1,
          hepi, endAlloc_eq_getD, if_neg (by omega),
          show h.blocks.length - 1 = i by omega, hfree]
      · rw [hSR h.blocks.length (by omega), hepi, endAlloc_eq_getD, if_neg (by omega)]
    · intro c hc
      rw [hPfl]
      by_cases hcc : c = classify ((h.blocks.getD i dBlk).size - asize)
      · rw [hcc, getD_set_eq _ _ _ _ (by rw [h10FL1]; exact classify_lt_10 _)]
        refine List.Nodup.cons ?_ (hndFL1 _ (classify_lt_10 _))
        intro hmem
        obtain ⟨hmem', hne⟩ := (hmemFL1 _ (classify_lt_10 _) _).mp hmem
        obtain ⟨j, hj, haddr, _, _⟩ := hlisted _ (classify_lt_10 _) _ hmem'
        rw [hAi1] at haddr
        exact hnotblock j (le_of_lt hj) haddr
      · rw [getD_set_ne _ _ _ _ _ (fun e => hcc e.symm)]
        exact hndFL1 c hc
    · intro c hc x hx
      rw [hPbl, hSlen]
      rcases (hPmem c hc x).mp hx with ⟨hceq, hxeq⟩ | ⟨hmem, hne⟩
      · refine ⟨i + 1, by omega, ?_, ?_, ?_⟩
        · rw [hAi1, hxeq]
        · rw [hSi1]
        · rw [hSi1, hceq]
      · obtain ⟨j, hj, haddr, halc, hcl⟩ := hlisted c hc x hmem
        have hji : j ≠ i := fun e => hne (by rw [← haddr, e])
        rcases lt_or_gt_of_ne hji with hlt | hgt
        · exact ⟨j, by omega, by rw [hAL j (le_of_lt hlt)]; exact haddr,
            by rw [hSL j hlt]; exact halc, by rw [hSL j hlt]; exact hcl⟩
        · refine ⟨j + 1, by omega, ?_, ?_, ?_⟩
          · rw [hAR (j + 1) (by omega), Nat.add_sub_cancel]
            exact haddr
          · rw [hSR (j + 1) (by omega), Nat.add_sub_cancel]
            exact halc
          · rw [hSR (j + 1) (by omega), Nat.add_sub_cancel]
            exact hcl
    · intro j hj hf
      rw [hPbl] at hj hf ⊢
      rw [hSlen] at hj
      rw [hPmem _ (classify_lt_10 _)]
      rcases lt_trichotomy j i with hlt | heq | hgt
      · rw [hSL j hlt] at hf
        rw [hAL j (le_of_lt hlt), hSL j hlt]
        refine Or.inr ⟨hfrees j (by omega) hf, ?_⟩
        intro he
        have := addrOf_inj h.blocks hposM (by omega) (le_of_lt hi) he
        omega
      · subst heq
        rw [hSi] at hf
        cases hf
      · by_cases hj1 : j = i + 1
        · subst hj1
          rw [hSi1, hAi1]
          exact Or.inl ⟨rfl, rfl⟩
        · have h2 : i + 2 ≤ j := by omega
          rw [hSR j h2] at hf
          rw [hSR j h2, hAR j h2]
          refine Or.inr ⟨hfrees (j - 1) (by omega) hf, ?_⟩
          intro he
          have := addrOf_inj h.blocks hposM (by omega) (le_of_lt hi) he
          omega
  · intro a hA
    obtain ⟨j, hj, haddr, hal⟩ := hA
    have hji : j ≠ i := by
      intro e
      rw [e, hfree] at hal
      cases hal
    rcases lt_or_gt_of_ne hji with hlt | hgt
    · exact ⟨j, by rw [hPbl, hSlen]; omega,
        by rw [hPbl, hAL j (le_of_lt hlt)]; exact haddr,
        by rw [hPbl, hSL j hlt]; exact hal⟩
    · refine ⟨j + 1, by rw [hPbl, hSlen]; omega, ?_, ?_⟩
      · rw [hPbl, hAR (j + 1) (by omega), Nat.add_sub_cancel]
        exact haddr
      · rw [hPbl, hSR (j + 1) (by omega), Nat.add_sub_cancel]
        exact hal
  · exact ⟨i, by rw [hPbl, hSlen]; omega, by rw [hPbl, hAL i le_rfl],
      by rw [hPbl, hSi]⟩

/-! ### `place` preserves the invariant (no-split case) -/

theorem place_nosplit_inv (h : Heap) (i asize : ℕ) (hinv : InvH h)
    (hi : i < h.blocks.length)
    (hfree : (h.blocks.getD i dBlk).alloc = false)
    (h16 : 16 ≤ asize)
    (hle : asize ≤ (h.blocks.getD i dBlk).size)
    (hsplit : ¬ 2 * DSIZE ≤ (h.blocks.getD i dBlk).size - asize) :
    InvH (place h i asize) ∧
    (∀ a, AllocAt h a → AllocAt (place h i asize) a) ∧
    AllocAt (place h i asize) (addrOf h.blocks i) := by
  obtain ⟨h10, hpos, hadj, hbits, hepi, hnodup, hlisted, hfrees⟩ := InvH_pt h hinv
  have hposM : ∀ b ∈ h.blocks, 0 < b.size := (sizesOK_iff _).mpr hpos
  have honlyI : ∀ c', c' < 10 → addrOf h.blocks i ∈ h.freeLists.getD c' [] →
      c' = classify ((h.blocks.getD i dBlk).size) := by
    intro c' hc' hm
    obtain ⟨j, hj, haddr, _, hcl⟩ := hlisted c' hc' _ hm
    have := addrOf_inj h.blocks hposM (le_of_lt hj) (le_of_lt hi) haddr
    subst this
    exact hcl.symm
  have hmemFL1 : ∀ c, c < 10 → ∀ x,
      (x ∈ (remove_list h (addrOf h.blocks i) ((h.blocks.getD i dBlk).size)).freeLists.getD c [] ↔
        (x ∈ h.freeLists.getD c [] ∧ x ≠ addrOf h.blocks i)) :=
    fun c hc x => mem_remove_list h _ _ c x h10 hc hnodup honlyI
  have hndFL1 := nodup_remove_list h (addrOf h.blocks i) ((h.blocks.getD i dBlk).size) hnodup
  have h10FL1 : (remove_list h (addrOf h.blocks i) ((h.blocks.getD i dBlk).size)).freeLists.length = 10 := by
    rw [length_remove_list]
    exact h10
  have hplace0 : place h i asize =
      (if 2 * DSIZE ≤ (h.blocks.getD i dBlk).size - asize then
        insert_list
          { (remove_list h (addrOf h.blocks i) ((h.blocks.getD i dBlk).size)) with
            blocks := (h.blocks.take i ++ ([⟨asize, true, (h.blocks.getD i dBlk).prevAlloc⟩, ⟨(h.blocks.getD i dBlk).size - asize, false, true⟩] : List Blk) ++ h.blocks.drop (i + 1)) }
          (addrOf (h.blocks.take i ++ ([⟨asize, true, (h.blocks.getD i dBlk).prevAlloc⟩, ⟨(h.blocks.getD i dBlk).size - asize, false, true⟩] : List Blk) ++ h.blocks.drop (i + 1)) (i + 1)) ((h.blocks.getD i dBlk).size - asize)
      else
        setPrevAllocNext
          { (remove_list h (addrOf h.blocks i) ((h.blocks.getD i dBlk).size)) with blocks := h.blocks.set i (⟨(h.blocks.getD i dBlk).size, true, (h.blocks.getD i dBlk).prevAlloc⟩ : Blk) }
          i true) := rfl
  have hPfl : (place h i asize).freeLists = (remove_list h (addrOf h.blocks i) ((h.blocks.getD i dBlk).size)).freeLists := by
    rw [hplace0, if_neg hsplit, freeLists_setPrevAllocNext]
  have hPepi0 : (place h i asize).epiPrevAlloc =
      (if i + 1 < h.blocks.length then h.epiPrevAlloc else true) := by
    rw [hplace0, if_neg hsplit, epi_setPrevAllocNext]
    show (if i + 1 < (h.blocks.set i (⟨(h.blocks.getD i dBlk).size, true, (h.blocks.getD i dBlk).prevAlloc⟩ : Blk)).length then h.epiPrevAlloc else true) = _
    rw [List.length_set]
  have hlenB : (place h i asize).blocks.length = h.blocks.length := by
    rw [hplace0, if_neg hsplit, length_setPrevAllocNext]
    show (h.blocks.set i (⟨(h.blocks.getD i dBlk).size, true, (h.blocks.getD i dBlk).prevAlloc⟩ : Blk)).length = _
    rw [List.length_set]
  have hallocB : ∀ j, j ≠ i →
      ((place h i asize).blocks.getD j dBlk).alloc = (h.blocks.getD j dBlk).alloc := by
    intro j hj
    rw [hplace0, if_neg hsplit, alloc_getD_setPrevAllocNext]
    show ((List.getD (h.blocks.set i (⟨(h.blocks.getD i dBlk).size, true, (h.blocks.getD i dBlk).prevAlloc⟩ : Blk)) j dBlk)).alloc = _
    rw [getD_set_ne _ _ _ _ _ (fun e => hj e.symm)]
  have hallocBi : ((place h i asize).blocks.getD i dBlk).alloc = true := by
    rw [hplace0, if_neg hsplit, alloc_getD_setPrevAllocNext]
    show ((List.getD (h.blocks.set i (⟨(h.blocks.getD i dBlk).size, true, (h.blocks.getD i dBlk).prevAlloc⟩ : Blk)) i dBlk)).alloc = true
    rw [getD_set_eq _ _ _ _ hi]
  have hsizeB : ∀ j,
      ((place h i asize).blocks.getD j dBlk).size = (h.blocks.getD j dBlk).size := by
    intro j
    rw [hplace0, if_neg hsplit, size_getD_setPrevAllocNext]
    show ((List.getD (h.blocks.set i (⟨(h.blocks.getD i dBlk).size, true, (h.blocks.getD i dBlk).prevAlloc⟩ : Blk)) j dBlk)).size = _
    by_cases hj : j = i
    · subst hj
      rw [getD_set_eq _ _ _ _ hi]
    · rw [getD_set_ne _ _ _ _ _ (fun e => hj e.symm)]
  have haddrB : ∀ j, addrOf (place h i asize).blocks j = addrOf h.blocks j := by
    intro j
    rw [hplace0, if_neg hsplit, addrOf_setPrevAllocNext]
    show addrOf (h.blocks.set i (⟨(h.blocks.getD i dBlk).size, true, (h.blocks.getD i dBlk).prevAlloc⟩ : Blk)) j = _
    exact addrOf_set h.blocks i (⟨(h.blocks.getD i dBlk).size, true, (h.blocks.getD i dBlk).prevAlloc⟩ : Blk) j rfl
  have hbitB_other : ∀ j, j ≠ i → j ≠ i + 1 →
      ((place h i asize).blocks.getD j dBlk).prevAlloc =
        (h.blocks.getD j dBlk).prevAlloc := by
    intro j hj hj1
    rw [hplace0, if_neg hsplit, getD_setPrevAllocNext _ _ _ _ hj1]
    show ((List.getD (h.blocks.set i (⟨(h.blocks.getD i dBlk).size, true, (h.blocks.getD i dBlk).prevAlloc⟩ : Blk)) j dBlk)).prevAlloc = _
    rw [getD_set_ne _ _ _ _ _ (fun e => hj e.symm)]
  have hbitB_i : ((place h i asize).blocks.getD i dBlk).prevAlloc =
      (h.blocks.getD i dBlk).prevAlloc := by
    rw [hplace0, if_neg hsplit, getD_setPrevAllocNext _ _ _ _ (by omega)]
    show ((List.getD (h.blocks.set i (⟨(h.blocks.getD i dBlk).size, true, (h.blocks.getD i dBlk).prevAlloc⟩ : Blk)) i dBlk)).prevAlloc = _
    rw [getD_set_eq _ _ _ _ hi]
  have hbitB_i1 : i + 1 < h.blocks.length →
      ((place h i asize).blocks.getD (i + 1) dBlk).prevAlloc = true := by
    intro hlt
    rw [hplace0, if_neg hsplit]
    exact bit_getD_setPrevAllocNext_at { (remove_list h (addrOf h.blocks i) ((h.blocks.getD i dBlk).size)) with blocks := h.blocks.set i (⟨(h.blocks.getD i dBlk).size, true, (h.blocks.getD i dBlk).prevAlloc⟩ : Blk) } i true (by
      show i + 1 < (h.blocks.set i (⟨(h.blocks.getD i dBlk).size, true, (h.blocks.getD i dBlk).prevAlloc⟩ : Blk)).length
      rw [List.length_set]
      exact hlt)
  refine ⟨?_, ?_, ?_⟩
  · refine InvH_mk _ ?_ ?_ ?_ ?_ ?_ ?_ ?_ ?_
    · rw [hPfl, h10FL1]
    · intro j hj
      rw [hlenB] at hj
      rw [hsizeB j]
      exact hpos j hj
    · intro j hj
      rw [hlenB] at hj
      by_cases hji : j = i
      · left
        rw [hji]
        exact hallocBi
      · by_cases hji1 : j + 1 = i
        · right
          rw [hji1]
          exact hallocBi
        · rw [hallocB j hji, hallocB (j + 1) hji1]
          exact hadj j hj
    · intro j hj
      rw [hlenB] at hj
      by_cases hj1 : j = i + 1
      · subst hj1
        rw [hbitB_i1 hj, if_neg (by omega), show i + 1 - 1 = i from rfl, hallocBi]
      · by_cases hji : j = i
        · subst hji
          rw [hbitB_i]
          have e := hbits j hj
          by_cases hj0 : j = 0
          · rw [if_pos hj0] at e ⊢
            exact e
          · rw [if_neg hj0] at e ⊢
            rw [hallocB (j - 1) (by omega)]
            exact e
        · rw [hbitB_other j hji hj1]
          have e := hbits j hj
          by_cases hj0 : j = 0
          · rw [if_pos hj0] at e ⊢
            exact e
          · rw [if_neg hj0] at e ⊢
            rw [hallocB (j - 1) (by omega)]
            exact e
    · rw [hPepi0]
      by_cases hlt : i + 1 < h.blocks.length
      · rw [if_pos hlt, hepi, endAlloc_eq_getD, endAlloc_eq_getD, hlenB,
          if_neg (by omega), if_neg (by omega),
          hallocB (h.blocks.length - 1) (by omega)]
      · rw [if_neg hlt, endAlloc_eq_getD, hlenB, if_neg (by omega)]
        rw [show h.blocks.length - 1 = i by omega, hallocBi]
    · intro c hc
      rw [hPfl]
      exact hndFL1 c hc
    · intro c hc x hx
      rw [hPfl] at hx
      obtain ⟨hmem, hne⟩ := (hmemFL1 c hc x).mp hx
      obtain ⟨j, hj, haddr, halc, hcl⟩ := hlisted c hc x hmem
      have hji : j ≠ i := fun e => hne (by rw [← haddr, e])
      refine ⟨j, by rw [hlenB]; exact hj, by rw [haddrB j]; exact haddr, ?_, ?_⟩
      · rw [hallocB j hji]
        exact halc
      · rw [hsizeB j]
        exact hcl
    · intro j hj hf
      rw [hlenB] at hj
      have hji : j ≠ i := by
        intro e
        rw [e, hallocBi] at hf
        cases hf
      rw [hallocB j hji] at hf
      rw [haddrB j, hsizeB j, hPfl]
      rw [hmemFL1 _ (classify_lt_10 _)]
      refine ⟨hfrees j hj hf, ?_⟩
      intro he
      have := addrOf_inj h.blocks hposM (le_of_lt hj) (le_of_lt hi) he
      omega
  · intro a hA
    obtain ⟨j, hj, haddr, hal⟩ := hA
    have hji : j ≠ i := by
      intro e
      rw [e, hfree] at hal
      cases hal
    refine ⟨j, by rw [hlenB]; exact hj, by rw [haddrB j]; exact haddr, ?_⟩
    rw [hallocB j hji]
    exact hal
  · exact ⟨i, by rw [hlenB]; exact hi, by rw [haddrB i], hallocBi⟩

/-- `place` preserves the invariant and every allocated block, and makes the
placed offset an allocated block. -/
theorem place_inv (h : Heap) (i asize : ℕ) (hinv : InvH h)
    (hi : i < h.blocks.length)
    (hfree : (h.blocks.getD i dBlk).alloc = false)
    (h16 : 16 ≤ asize)
    (hle : asize ≤ (h.blocks.getD i dBlk).size) :
    InvH (place h i asize) ∧
    (∀ a, AllocAt h a → AllocAt (place h i asize) a) ∧
    AllocAt (place h i asize) (addrOf h.blocks i) := by
  by_cases hsplit : 2 * DSIZE ≤ (h.blocks.getD i dBlk).size - asize
  · exact place_split_inv h i asize hinv hi hfree h16 hle hsplit
  · exact place_nosplit_inv h i asize hinv hi hfree h16 hle hsplit

/-! ### `free` preserves the invariant -/

theorem free_inv (h : Heap) (bp i : ℕ) (hinv : InvH h)
    (hidx : idxAt h.blocks bp = some i)
    (halloc : (h.blocks.getD i dBlk).alloc = true) :
    InvH (free h bp) := by
  obtain ⟨h10, hpos, hadj, hbits, hepi, hnodup, hlisted, hfrees⟩ := InvH_pt h hinv
  have hposM : ∀ b ∈ h.blocks, 0 < b.size := (sizesOK_iff _).mpr hpos
  obtain ⟨hi, -⟩ := idxAt_some h.blocks bp i hidx
  have hkey : (h.blocks.set i (markFree (h.blocks.getD i dBlk))).set i
      (mkAlloc ((h.blocks.set i (markFree (h.blocks.getD i dBlk))).getD i dBlk)) = h.blocks := by
    rw [getD_set_eq _ _ _ _ hi, List.set_set]
    have he : mkAlloc (markFree (h.blocks.getD i dBlk)) = h.blocks.getD i dBlk :=
      blk_eq_of _ _ _ _ rfl halloc rfl
    rw [he]
    apply List.ext_getElem?
    intro j
    by_cases hj : j = i
    · subst hj
      rw [List.getElem?_set_self (by simpa using hi), List.getElem?_eq_getElem hi,
        List.getD_eq_getElem _ dBlk hi]
    · rw [List.getElem?_set_ne (fun e => hj e.symm)]
  have hCP : CoalPre { h with blocks := h.blocks.set i (markFree (h.blocks.getD i dBlk)) } i := by
    refine ⟨⟨h10, ?_, ?_, ?_, ?_, hnodup, ?_, ?_⟩, ?_, ?_⟩
    · rw [sizesOK_iff]
      intro j hj
      rw [List.length_set] at hj
      by_cases hji : j = i
      · subst hji
        rw [getD_set_eq _ _ _ _ hj]
        exact hpos j hj
      · rw [getD_set_ne _ _ _ _ _ (fun e => hji e.symm)]
        exact hpos j hj
    · show noAdjFree ((h.blocks.set i (markFree (h.blocks.getD i dBlk))).set i
        (mkAlloc ((h.blocks.set i (markFree (h.blocks.getD i dBlk))).getD i dBlk)))
      rw [hkey]
      exact (noAdjFree_iff _).mpr hadj
    · show bitsFromB true ((h.blocks.set i (markFree (h.blocks.getD i dBlk))).set i
        (mkAlloc ((h.blocks.set i (markFree (h.blocks.getD i dBlk))).getD i dBlk))) = true
      rw [hkey]
      exact (bitsFromB_iff _ _).mpr hbits
    · intro hne
      show h.epiPrevAlloc = endAlloc true (h.blocks.set i (markFree (h.blocks.getD i dBlk)))
      rw [List.length_set] at hne
      rw [hepi, endAlloc_eq_getD, endAlloc_eq_getD, List.length_set,
        if_neg (by omega), if_neg (by omega),
        getD_set_ne _ _ _ _ _ (by omega)]
    · intro c hc a ha
      obtain ⟨j, hj, haddr, halc, hcl⟩ := hlisted c hc a ha
      have hji : j ≠ i := by
        intro e
        rw [e, halloc] at halc
        cases halc
      refine ⟨j, by rw [List.length_set]; exact hj, hji, ?_, ?_, ?_⟩
      · rw [addrOf_set h.blocks i (markFree (h.blocks.getD i dBlk)) j rfl]
        exact haddr
      · rw [getD_set_ne _ _ _ _ _ (fun e => hji e.symm)]
        exact halc
      · rw [getD_set_ne _ _ _ _ _ (fun e => hji e.symm)]
        exact hcl
    · intro j hj hji hf
      rw [List.length_set] at hj
      rw [getD_set_ne _ _ _ _ _ (fun e => hji e.symm)] at hf ⊢
      rw [addrOf_set h.blocks i (markFree (h.blocks.getD i dBlk)) j rfl]
      exact hfrees j hj hf
    · show i < (h.blocks.set i (markFree (h.blocks.getD i dBlk))).length
      rw [List.length_set]
      exact hi
    · show ((List.getD (h.blocks.set i (markFree (h.blocks.getD i dBlk))) i dBlk)).alloc = false
      rw [getD_set_eq _ _ _ _ hi]
      rfl
  have hfr : free h bp = (coalesce { h with blocks := h.blocks.set i (markFree (h.blocks.getD i dBlk)) } i).1 := by
    unfold free
    rw [hidx]
  rw [hfr]
  exact (coalesce_master { h with blocks := h.blocks.set i (markFree (h.blocks.getD i dBlk)) } i hCP).1

/-! ### `extend_heap` preserves the invariant -/

theorem extend_heap_inv (h : Heap) (words : ℕ) (hinv : InvH h) (hw : 0 < words) :
    InvH (extend_heap h words).1 ∧
    (extend_heap h words).2 < (extend_heap h words).1.blocks.length ∧
    ((extend_heap h words).1.blocks.getD (extend_heap h words).2 dBlk).alloc = false ∧
    (if words % 2 = 1 then (words + 1) * WSIZE else words * WSIZE) ≤
      ((extend_heap h words).1.blocks.getD (extend_heap h words).2 dBlk).size ∧
    (∀ a, AllocAt h a → AllocAt (extend_heap h words).1 a) := by
  obtain ⟨h10, hpos, hadj, hbits, hepi, hnodup, hlisted, hfrees⟩ := InvH_pt h hinv
  have hposM : ∀ b ∈ h.blocks, 0 < b.size := (sizesOK_iff _).mpr hpos
  have hW : WSIZE = 4 := rfl
  have hsz0 : 0 < (if words % 2 = 1 then (words + 1) * WSIZE else words * WSIZE) := by
    rw [hW]
    split_ifs <;> omega
  have hlen1 : (h.blocks ++ [(⟨(if words % 2 = 1 then (words + 1) * WSIZE else words * WSIZE), false, h.epiPrevAlloc⟩ : Blk)]).length = h.blocks.length + 1 := by
    rw [List.length_append]
    rfl
  have hgetLen : (h.blocks ++ [(⟨(if words % 2 = 1 then (words + 1) * WSIZE else words * WSIZE), false, h.epiPrevAlloc⟩ : Blk)]).getD h.blocks.length dBlk = (⟨(if words % 2 = 1 then (words + 1) * WSIZE else words * WSIZE), false, h.epiPrevAlloc⟩ : Blk) := by
    have e := getD_append_right h.blocks [(⟨(if words % 2 = 1 then (words + 1) * WSIZE else words * WSIZE), false, h.epiPrevAlloc⟩ : Blk)] 0
    simpa using e
  have hgetL : ∀ j, j < h.blocks.length →
      (h.blocks ++ [(⟨(if words % 2 = 1 then (words + 1) * WSIZE else words * WSIZE), false, h.epiPrevAlloc⟩ : Blk)]).getD j dBlk = h.blocks.getD j dBlk :=
    fun j hj => getD_append_left h.blocks [(⟨(if words % 2 = 1 then (words + 1) * WSIZE else words * WSIZE), false, h.epiPrevAlloc⟩ : Blk)] j hj
  have haddrL : ∀ j, j ≤ h.blocks.length →
      addrOf (h.blocks ++ [(⟨(if words % 2 = 1 then (words + 1) * WSIZE else words * WSIZE), false, h.epiPrevAlloc⟩ : Blk)]) j = addrOf h.blocks j :=
    fun j hj => addrOf_append_left h.blocks [(⟨(if words % 2 = 1 then (words + 1) * WSIZE else words * WSIZE), false, h.epiPrevAlloc⟩ : Blk)] j hj
  have hCP : CoalPre ({ blocks := h.blocks ++ [(⟨(if words % 2 = 1 then (words + 1) * WSIZE else words * WSIZE), false, h.epiPrevAlloc⟩ : Blk)], freeLists := h.freeLists, epiPrevAlloc := false } : Heap) h.blocks.length := by
    refine ⟨⟨h10, ?_, ?_, ?_, ?_, hnodup, ?_, ?_⟩, ?_, ?_⟩
    · rw [sizesOK_iff]
      intro j hj
      rw [hlen1] at hj
      by_cases hji : j = h.blocks.length
      · rw [hji, hgetLen]
        exact hsz0
      · rw [hgetL j (by omega)]
        exact hpos j (by omega)
    · rw [noAdjFree_iff]
      intro j hj
      rw [List.length_set, hlen1] at hj
      by_cases hj1 : j + 1 = h.blocks.length
      · right
        rw [hj1, getD_set_eq _ _ _ _ (by rw [hlen1]; omega)]
        rfl
      · have hji : j ≠ h.blocks.length := by omega
        rw [getD_set_ne _ _ _ _ _ (by omega),
          getD_set_ne _ _ _ _ _ (fun e => hj1 e.symm)]
        rw [hgetL j (by omega), hgetL (j + 1) (by omega)]
        exact hadj j (by omega)
    · rw [bitsFromB_iff]
      intro k hk
      rw [List.length_set, hlen1] at hk
      by_cases hkl : k = h.blocks.length
      · rw [hkl, getD_set_eq _ _ _ _ (by rw [hlen1]; omega), hgetLen]
        show h.epiPrevAlloc = _
        by_cases h0 : h.blocks.length = 0
        · rw [if_pos h0, hepi, endAlloc_eq_getD, if_pos h0]
        · rw [if_neg h0, getD_set_ne _ _ _ _ _ (by omega),
            hgetL (h.blocks.length - 1) (by omega), hepi, endAlloc_eq_getD, if_neg h0]
      · rw [getD_set_ne _ _ _ _ _ (fun e => hkl e.symm), hgetL k (by omega)]
        by_cases h0 : k = 0
        · rw [if_pos h0]
          have e := hbits k (by omega)
          rw [if_pos h0] at e
          exact e
        · rw [if_neg h0, getD_set_ne _ _ _ _ _ (by omega), hgetL (k - 1) (by omega)]
          have e := hbits k (by omega)
          rw [if_neg h0] at e
          exact e
    · intro hne
      rw [hlen1] at hne
      exact absurd rfl hne
    · intro c hc a ha
      obtain ⟨j, hj, haddr, halc, hcl⟩ := hlisted c hc a ha
      refine ⟨j, by rw [hlen1]; omega, by omega, ?_, ?_, ?_⟩
      · rw [haddrL j (le_of_lt hj)]
        exact haddr
      · rw [hgetL j hj]
        exact halc
      · rw [hgetL j hj]
        exact hcl
    · intro j hj hji hf
      rw [hlen1] at hj
      rw [hgetL j (by omega)] at hf ⊢
      rw [haddrL j (by omega)]
      exact hfrees j (by omega) hf
    · rw [hlen1]
      omega
    · rw [hgetLen]
  have hext : extend_heap h words = coalesce ({ blocks := h.blocks ++ [(⟨(if words % 2 = 1 then (words + 1) * WSIZE else words * WSIZE), false, h.epiPrevAlloc⟩ : Blk)], freeLists := h.freeLists, epiPrevAlloc := false } : Heap) h.blocks.length := rfl
  have hM := coalesce_master ({ blocks := h.blocks ++ [(⟨(if words % 2 = 1 then (words + 1) * WSIZE else words * WSIZE), false, h.epiPrevAlloc⟩ : Blk)], freeLists := h.freeLists, epiPrevAlloc := false } : Heap) h.blocks.length hCP
  have hb1 : ({ blocks := h.blocks ++ [(⟨(if words % 2 = 1 then (words + 1) * WSIZE else words * WSIZE), false, h.epiPrevAlloc⟩ : Blk)], freeLists := h.freeLists, epiPrevAlloc := false } : Heap).blocks = (h.blocks ++ [(⟨(if words % 2 = 1 then (words + 1) * WSIZE else words * WSIZE), false, h.epiPrevAlloc⟩ : Blk)]) := rfl
  have hnext : nextAllocB (h.blocks ++ [(⟨(if words % 2 = 1 then (words + 1) * WSIZE else words * WSIZE), false, h.epiPrevAlloc⟩ : Blk)]) h.blocks.length = true := by
    rw [nextAllocB_eq_getD, if_neg (by rw [hlen1]; omega)]
  have hNBs : ((⟨(if words % 2 = 1 then (words + 1) * WSIZE else words * WSIZE), false, h.epiPrevAlloc⟩ : Blk)).size = (if words % 2 = 1 then (words + 1) * WSIZE else words * WSIZE) := rfl
  rw [hext]
  refine ⟨hM.1, hM.2.2.1, hM.2.2.2.2.1, ?_, ?_⟩
  · have hsz := hM.2.2.2.2.2.1
    rw [hb1, hgetLen, hnext, if_pos rfl, hNBs] at hsz
    rw [hsz]
    omega
  · intro a hA
    obtain ⟨j, hj, haddr, hal⟩ := hA
    refine coalesce_allocAt ({ blocks := h.blocks ++ [(⟨(if words % 2 = 1 then (words + 1) * WSIZE else words * WSIZE), false, h.epiPrevAlloc⟩ : Blk)], freeLists := h.freeLists, epiPrevAlloc := false } : Heap) h.blocks.length hCP a ⟨j, ?_, ?_, ?_⟩
    · show j < (h.blocks ++ [(⟨(if words % 2 = 1 then (words + 1) * WSIZE else words * WSIZE), false, h.epiPrevAlloc⟩ : Blk)]).length
      rw [hlen1]
      omega
    · show addrOf (h.blocks ++ [(⟨(if words % 2 = 1 then (words + 1) * WSIZE else words * WSIZE), false, h.epiPrevAlloc⟩ : Blk)]) j = a
      rw [haddrL j (le_of_lt hj)]
      exact haddr
    · show ((h.blocks ++ [(⟨(if words % 2 = 1 then (words + 1) * WSIZE else words * WSIZE), false, h.epiPrevAlloc⟩ : Blk)]).getD j dBlk).alloc = true
      rw [hgetL j hj]
      exact hal

theorem malloc_eq_some (h : Heap) (n : ℕ) (ok : Bool) (bp i : ℕ) (hn : n ≠ 0)
    (e : find_fit h (adjustSize n) = some bp) (eid : idxAt h.blocks bp = some i) :
    malloc h n ok = (some bp, place h i (adjustSize n)) := by
  unfold malloc
  dsimp only
  rw [if_neg hn, e]
  dsimp only
  rw [eid]

theorem malloc_eq_some_noidx (h : Heap) (n : ℕ) (ok : Bool) (bp : ℕ) (hn : n ≠ 0)
    (e : find_fit h (adjustSize n) = some bp) (eid : idxAt h.blocks bp = none) :
    malloc h n ok = (none, h) := by
  unfold malloc
  dsimp only
  rw [if_neg hn, e]
  dsimp only
  rw [eid]

theorem malloc_eq_grow (h : Heap) (n : ℕ) (hn : n ≠ 0)
    (e : find_fit h (adjustSize n) = none) :
    malloc h n true =
      (some (addrOf (extend_heap h (max (adjustSize n) CHUNKSIZE / WSIZE)).1.blocks
          (extend_heap h (max (adjustSize n) CHUNKSIZE / WSIZE)).2),
       place (extend_heap h (max (adjustSize n) CHUNKSIZE / WSIZE)).1
         (extend_heap h (max (adjustSize n) CHUNKSIZE / WSIZE)).2 (adjustSize n)) := by
  unfold malloc
  dsimp only
  rw [if_neg hn, e]
  rfl

theorem malloc_eq_nogrow (h : Heap) (n : ℕ) (hn : n ≠ 0)
    (e : find_fit h (adjustSize n) = none) :
    malloc h n false = (none, h) := by
  unfold malloc
  dsimp only
  rw [if_neg hn, e]
  rfl

/-! ### `malloc` preserves the invariant -/

theorem adjustSize_ge16 (n : ℕ) : 16 ≤ adjustSize n := by
  unfold adjustSize
  rw [show DSIZE = 8 from rfl, show WSIZE = 4 from rfl]
  split_ifs <;> omega

theorem adjustSize_mod8 (n : ℕ) : adjustSize n % 8 = 0 := by
  unfold adjustSize
  rw [show DSIZE = 8 from rfl, show WSIZE = 4 from rfl]
  split_ifs <;> omega

theorem malloc_inv (h : Heap) (n : ℕ) (ok : Bool) (hinv : InvH h) :
    InvH (malloc h n ok).2 ∧
    (∀ a, AllocAt h a → AllocAt (malloc h n ok).2 a) := by
  by_cases hn : n = 0
  · subst hn
    have e : (malloc h 0 ok).2 = h := rfl
    rw [e]
    exact ⟨hinv, fun a hA => hA⟩
  · have h16 := adjustSize_ge16 n
    rcases e : find_fit h (adjustSize n) with _ | bp
    · rcases ok with _ | _
      · rw [malloc_eq_nogrow h n hn e]
        exact ⟨hinv, fun a hA => hA⟩
      · rw [malloc_eq_grow h n hn e]
        have hmod : adjustSize n % 8 = 0 := adjustSize_mod8 n
        have hCH : CHUNKSIZE = 4096 := rfl
        have hW : WSIZE = 4 := rfl
        have hes8 : max (adjustSize n) CHUNKSIZE % 8 = 0 := by
          rcases Nat.le_total (adjustSize n) CHUNKSIZE with hc | hc
          · rw [Nat.max_eq_right hc, hCH]
          · rw [Nat.max_eq_left hc]
            exact hmod
        have hespos : 0 < max (adjustSize n) CHUNKSIZE := by
          have h1 := le_max_right (adjustSize n) CHUNKSIZE
          rw [hCH] at h1
          omega
        have hwpos : 0 < max (adjustSize n) CHUNKSIZE / WSIZE := by
          rw [hW]
          omega
        have hE := extend_heap_inv h (max (adjustSize n) CHUNKSIZE / WSIZE) hinv hwpos
        obtain ⟨hEinv, hElt, hEfree, hEsz, hEalloc⟩ := hE
        have hsz : (if max (adjustSize n) CHUNKSIZE / WSIZE % 2 = 1 then
            (max (adjustSize n) CHUNKSIZE / WSIZE + 1) * WSIZE
            else max (adjustSize n) CHUNKSIZE / WSIZE * WSIZE) =
            max (adjustSize n) CHUNKSIZE := by
          rw [hW]
          rw [if_neg (by omega)]
          omega
        rw [hsz] at hEsz
        have hge : adjustSize n ≤ max (adjustSize n) CHUNKSIZE := le_max_left _ _
        have hP := place_inv (extend_heap h (max (adjustSize n) CHUNKSIZE / WSIZE)).1
          (extend_heap h (max (adjustSize n) CHUNKSIZE / WSIZE)).2 (adjustSize n)
          hEinv hElt hEfree h16 (le_trans hge hEsz)
        exact ⟨hP.1, fun a hA => hP.2.1 a (hEalloc a hA)⟩
    · rcases eid : idxAt h.blocks bp with _ | i
      · rw [malloc_eq_some_noidx h n ok bp hn e eid]
        exact ⟨hinv, fun a hA => hA⟩
      · rw [malloc_eq_some h n ok bp i hn e eid]
        obtain ⟨h10, hpos, hadj, hbits, hepi, hnodup, hlisted, hfrees⟩ := InvH_pt h hinv
        have hposM : ∀ b ∈ h.blocks, 0 < b.size := (sizesOK_iff _).mpr hpos
        obtain ⟨hilt, haddr⟩ := idxAt_some h.blocks bp i eid
        obtain ⟨c, hcmem, hsl⟩ := scanClasses_eq_some h (adjustSize n) (List.range 10) bp
          (by rw [← find_fit_eq_scanClasses]; exact e)
        obtain ⟨hbpmem, hsz⟩ := scanList_eq_some h.blocks (adjustSize n) _ bp hsl
        have hclt : c < 10 := List.mem_range.mp hcmem
        obtain ⟨j, hj, haddrj, halcj, -⟩ := hlisted c hclt bp hbpmem
        have hij : j = i := addrOf_inj h.blocks hposM (le_of_lt hj) (le_of_lt hilt)
          (by rw [haddrj, haddr])
        have hfree : (h.blocks.getD i dBlk).alloc = false := by
          rw [← hij]
          exact halcj
        have hle : adjustSize n ≤ (h.blocks.getD i dBlk).size := by
          rw [← haddr] at hsz
          rwa [sizeAt_addrOf h.blocks hposM i hilt] at hsz
        have hP := place_inv h i (adjustSize n) hinv hilt hfree h16 hle
        exact ⟨hP.1, fun a hA => hP.2.1 a hA⟩

/-! ### `realloc` preserves the invariant -/

theorem realloc_eq_malloc (h : Heap) (n : ℕ) (ok : Bool) (hn : n ≠ 0) :
    realloc h none n ok = malloc h n ok := by
  unfold realloc
  dsimp only
  rw [if_neg hn]

theorem realloc_eq_fail (h h1 : Heap) (a n : ℕ) (ok : Bool) (hn : n ≠ 0)
    (em : malloc h n ok = (none, h1)) :
    realloc h (some a) n ok = (none, h1) := by
  unfold realloc
  dsimp only
  rw [if_neg hn, em]

theorem realloc_eq_move (h h1 : Heap) (a np n : ℕ) (ok : Bool) (hn : n ≠ 0)
    (em : malloc h n ok = (some np, h1)) :
    realloc h (some a) n ok = (some np, free h1 a) := by
  unfold realloc
  dsimp only
  rw [if_neg hn, em]

theorem realloc_inv (h : Heap) (p : Option ℕ) (n : ℕ) (ok : Bool) (hinv : InvH h)
    (hv : ∀ a, p = some a → ∃ i, idxAt h.blocks a = some i ∧
      (h.blocks.getD i dBlk).alloc = true) :
    InvH (realloc h p n ok).2 := by
  by_cases hn : n = 0
  · subst hn
    rcases p with _ | a
    · have e : (realloc h none 0 ok).2 = h := rfl
      rw [e]
      exact hinv
    · obtain ⟨i, hidx, hal⟩ := hv a rfl
      have e : (realloc h (some a) 0 ok).2 = free h a := rfl
      rw [e]
      exact free_inv h a i hinv hidx hal
  · rcases p with _ | a
    · rw [realloc_eq_malloc h n ok hn]
      exact (malloc_inv h n ok hinv).1
    · obtain ⟨i, hidx, hal⟩ := hv a rfl
      obtain ⟨hilt, haddr⟩ := idxAt_some h.blocks a i hidx
      have hM := malloc_inv h n ok hinv
      rcases em : malloc h n ok with ⟨r, h1⟩
      rcases r with _ | np
      · rw [realloc_eq_fail h h1 a n ok hn em]
        have e2 : (malloc h n ok).2 = h1 := by rw [em]
        rw [← e2]
        exact hM.1
      · rw [realloc_eq_move h h1 a np n ok hn em]
        have hinv1 : InvH h1 := by
          have e2 : (malloc h n ok).2 = h1 := by rw [em]
          rw [← e2]
          exact hM.1
        have hA1 : AllocAt h1 a := by
          have := hM.2 a ⟨i, hilt, haddr, hal⟩
          rw [em] at this
          exact this
        obtain ⟨i', hi', haddr', hal'⟩ := hA1
        obtain ⟨-, hpos1, -⟩ := InvH_pt h1 hinv1
        have hposM1 : ∀ b ∈ h1.blocks, 0 < b.size := (sizesOK_iff _).mpr hpos1
        have hidx1 : idxAt h1.blocks a = some i' := by
          rw [← haddr']
          exact idxAt_addrOf h1.blocks hposM1 i' hi'
        exact free_inv h1 a i' hinv1 hidx1 hal'

/-! ### Every reachable heap satisfies the invariant -/

theorem reach_inv (h : Heap) (hr : Reach h) : InvH h := by
  induction hr with
  | init => decide
  | mallocStep h0 n ok hr0 ih => exact (malloc_inv h0 n ok ih).1
  | freeStep h0 bp i hr0 hidx hal ih => exact free_inv h0 bp i ih hidx hal
  | reallocStep h0 p n ok hr0 hv ih => exact realloc_inv h0 p n ok ih hv
  | callocStep h0 n s ok hr0 ih =>
      have e : (calloc h0 n s ok).1.2 = (malloc h0 (callocBytes n s) ok).2 := rfl
      rw [e]
      exact (malloc_inv h0 (callocBytes n s) ok ih).1

/-! ### C7, C1, C8 -/

/-- C7: on a newly freed block (free, in range, not yet in any list —
`CoalPre`), `coalesce` returns the block's own address when the physical
predecessor is allocated (cases 1 and 2) and the predecessor's address when
the predecessor is free (cases 3 and 4); the merged size covers the block
plus every absorbed neighbour; an absorbed successor's address is removed
from every list; and the resulting free block is inserted into the index
exactly once — present in the class of its merged size with multiplicity
one and in no other class. -/
theorem coalesce_result (h : Heap) (i : ℕ) (hpre : CoalPre h i) :
    ((h.blocks.getD i dBlk).prevAlloc = true →
      addrOf (coalesce h i).1.blocks (coalesce h i).2 = addrOf h.blocks i) ∧
    ((h.blocks.getD i dBlk).prevAlloc = false →
      addrOf (coalesce h i).1.blocks (coalesce h i).2 = addrOf h.blocks (i - 1)) ∧
    ((coalesce h i).1.blocks.getD (coalesce h i).2 dBlk).alloc = false ∧
    ((coalesce h i).1.blocks.getD (coalesce h i).2 dBlk).size =
      (h.blocks.getD i dBlk).size +
        (if nextAllocB h.blocks i then 0 else (h.blocks.getD (i + 1) dBlk).size) +
        (if (h.blocks.getD i dBlk).prevAlloc then 0
          else (h.blocks.getD (i - 1) dBlk).size) ∧
    (nextAllocB h.blocks i = false → ∀ c, c < 10 →
      addrOf h.blocks (i + 1) ∉ (coalesce h i).1.freeLists.getD c []) ∧
    addrOf h.blocks (if (h.blocks.getD i dBlk).prevAlloc then i else i - 1) ∈
      (coalesce h i).1.freeLists.getD
        (classify (((coalesce h i).1.blocks.getD (coalesce h i).2 dBlk).size)) [] ∧
    ((coalesce h i).1.freeLists.getD
        (classify (((coalesce h i).1.blocks.getD (coalesce h i).2 dBlk).size)) []).count
      (addrOf h.blocks (if (h.blocks.getD i dBlk).prevAlloc then i else i - 1)) = 1 ∧
    (∀ c, c < 10 →
      c ≠ classify (((coalesce h i).1.blocks.getD (coalesce h i).2 dBlk).size) →
      addrOf h.blocks (if (h.blocks.getD i dBlk).prevAlloc then i else i - 1) ∉
        (coalesce h i).1.freeLists.getD c []) := by
  have hM := coalesce_master h i hpre
  refine ⟨?_, ?_, hM.2.2.2.2.1, hM.2.2.2.2.2.1,
    fun hq => hM.2.2.2.2.2.2.2.2.2.2 hq,
    hM.2.2.2.2.2.2.2.1, hM.2.2.2.2.2.2.2.2.1, hM.2.2.2.2.2.2.2.2.2.1⟩
  · intro hp
    have e := hM.2.2.2.1
    rwa [if_pos hp] at e
  · intro hp
    have e := hM.2.2.2.1
    rwa [if_neg (by rw [hp]; exact Bool.false_ne_true)] at e

/-- `heapA` with its 16-byte block at offset 0 marked free but not yet
listed: the state `free` hands to `coalesce`. -/
def heapB : Heap :=
  { heapA with blocks := heapA.blocks.set 0 (markFree (heapA.blocks.getD 0 dBlk)) }

/-- Witness for `coalesce_result` on `heapB` (case 2: predecessor is the
allocated prologue, successor is the free 4080-byte block). -/
theorem coalesce_result_witness :
    CoalPre heapB 0 ∧
    (((heapB.blocks.getD 0 dBlk).prevAlloc = true →
      addrOf (coalesce heapB 0).1.blocks (coalesce heapB 0).2 =
        addrOf heapB.blocks 0) ∧
     ((coalesce heapB 0).1.blocks.getD (coalesce heapB 0).2 dBlk).alloc = false) :=
  ⟨by decide, (coalesce_result heapB 0 (by decide)).1,
    (coalesce_result heapB 0 (by decide)).2.2.1⟩

/-- C1: after any `free` call on a live allocated block of a reachable
heap, no two physically adjacent blocks are both free; and after any
`coalesce` invocation on a `CoalPre` state (which covers the invocations
performed by `free` and by arena growth), no two adjacent blocks are free
and in particular the block immediately following the returned block is
not free (its allocation bit reads `true`, the epilogue answering past the
end). -/
theorem no_adjacent_free :
    (∀ h bp i, Reach h → idxAt h.blocks bp = some i →
      (h.blocks.getD i dBlk).alloc = true → noAdjFree (free h bp).blocks) ∧
    (∀ h i, CoalPre h i → noAdjFree (coalesce h i).1.blocks ∧
      nextAllocB (coalesce h i).1.blocks (coalesce h i).2 = true) := by
  constructor
  · intro h bp i hr hidx hal
    have hinv := reach_inv _ (Reach.freeStep h bp i hr hidx hal)
    obtain ⟨-, -, hadj, -⟩ := InvH_pt _ hinv
    exact (noAdjFree_iff _).mpr hadj
  · intro h i hpre
    have hM := coalesce_master h i hpre
    refine ⟨?_, hM.2.2.2.2.2.2.1⟩
    obtain ⟨-, -, hadj, -⟩ := InvH_pt _ hM.1
    exact (noAdjFree_iff _).mpr hadj

/-- Witness for `no_adjacent_free`: freeing the allocated block of `heapA`,
and coalescing `heapB` at index 0. -/
theorem no_adjacent_free_witness :
    noAdjFree (free heapA 0).blocks ∧ noAdjFree (coalesce heapB 0).1.blocks :=
  ⟨no_adjacent_free.1 heapA 0 0 (Reach.mallocStep mm_init 10 true Reach.init)
      (by decide) (by decide),
   (no_adjacent_free.2 heapB 0 (by decide)).1⟩

/-- C8: at every reachable (quiescent) state, every free block's address
appears in the list of exactly the class `classify` computes from its
current size — with multiplicity one, and in no other class's list — and
no allocated block's address appears in any list.  Reachability closes the
states under `allocate`, `release`, `resize`, `zero_allocate` and the
arena growth they trigger, so the partition is preserved by every
operation. -/
theorem free_list_partition (h : Heap) (hr : Reach h) :
    (∀ j, j < h.blocks.length → (h.blocks.getD j dBlk).alloc = false →
      (addrOf h.blocks j ∈
         h.freeLists.getD (classify ((h.blocks.getD j dBlk).size)) [] ∧
       (h.freeLists.getD (classify ((h.blocks.getD j dBlk).size)) []).count
         (addrOf h.blocks j) = 1 ∧
       ∀ c, c < 10 → c ≠ classify ((h.blocks.getD j dBlk).size) →
         addrOf h.blocks j ∉ h.freeLists.getD c [])) ∧
    (∀ j, j < h.blocks.length → (h.blocks.getD j dBlk).alloc = true →
      ∀ c, c < 10 → addrOf h.blocks j ∉ h.freeLists.getD c []) := by
  have hinv := reach_inv h hr
  obtain ⟨h10, hpos, hadj, hbits, hepi, hnodup, hlisted, hfrees⟩ := InvH_pt h hinv
  have hposM : ∀ b ∈ h.blocks, 0 < b.size := (sizesOK_iff _).mpr hpos
  constructor
  · intro j hj hf
    refine ⟨hfrees j hj hf, ?_, ?_⟩
    · exact List.count_eq_one_of_mem (hnodup _ (classify_lt_10 _)) (hfrees j hj hf)
    · intro c hc hcc
      exact notmem_other_class h j hinv hj c hc hcc
  · intro j hj hal c hc hmem
    obtain ⟨j', hj', haddr', halc', -⟩ := hlisted c hc _ hmem
    have he := addrOf_inj h.blocks hposM (le_of_lt hj') (le_of_lt hj) haddr'
    subst he
    rw [hal] at halc'
    cases halc'

/-- Witness for `free_list_partition` on `heapA`: the free 4080-byte block
at index 1 is indexed once in its class. -/
theorem free_list_partition_witness :
    addrOf heapA.blocks 1 ∈
      heapA.freeLists.getD (classify ((heapA.blocks.getD 1 dBlk).size)) [] ∧
    (heapA.freeLists.getD (classify ((heapA.blocks.getD 1 dBlk).size)) []).count
      (addrOf heapA.blocks 1) = 1 :=
  ⟨((free_list_partition heapA (Reach.mallocStep mm_init 10 true Reach.init)).1 1
      (by decide) (by decide)).1,
   ((free_list_partition heapA (Reach.mallocStep mm_init 10 true Reach.init)).1 1
      (by decide) (by decide)).2.1⟩
